import Mathlib

/-!
A verification development for the mask-to-SVG stencil engine in
`src/utils/svg_exporter.py`.

The Python functions are shallowly embedded as executable Lean definitions:

* the pixel mask is a structure `Mask` (height, width, pixel predicate);
* the boundary adjacency dict built inside `_trace_edges` is an
  insertion-ordered association list (`Adj`), matching CPython's
  insertion-ordered `dict`; neighbour sets are duplicate-free lists in
  insertion order (only membership, removal, emptiness and the sorted
  minimum of a set are observable in the source, so list order beyond
  insertion order never matters);
* the destructive loop-extraction walk is modelled with an explicit fuel
  parameter so that it remains a structurally recursive, computable
  function; fuel `totalSize adj + 1` is always sufficient (each step
  removes at least one directed edge), and running out of fuel yields the
  marker error `PyError.fuelOut`, which is proved unreachable in every
  theorem below;
* Python exceptions that the traced code can actually raise are modelled
  by `PyError.indexError` (`sorted(...)[0]` on an empty candidate list,
  `masks[0]` on an empty list) and `PyError.keyError` (`adj[current]` for
  a missing key).  These model *generic builtin* Python exceptions; the
  source defines no dedicated error kind of its own.
* floating point quantities (bridge midpoints, centroid coordinates, the
  ray-crossing test) are modelled over `ℚ`; the epsilon `1e-6` becomes
  `1/1000000`.
-/

set_option maxHeartbeats 1000000

namespace StencilMaker

/-- A lattice point `(x, y)` on pixel boundaries. -/
abbrev Point := Nat × Nat

/-- Lexicographic comparison on points: Python's tuple `<=`. -/
def ptLe (a b : Point) : Bool := a.1 < b.1 || (a.1 = b.1 && a.2 ≤ b.2)

/-- A boolean mask: `h`×`w` grid; `pix y x` is pixel `mask[y, x]`
(row `y`, column `x`), mirroring the numpy indexing in the source. -/
structure Mask where
  h : Nat
  w : Nat
  pix : Nat → Nat → Bool

/-- Build a `Mask` from a row-major list of rows (for concrete tests). -/
def maskOfRows (rows : List (List Bool)) : Mask where
  h := rows.length
  w := (rows.headD []).length
  pix := fun y x => ((rows.getD y []).getD x false)

/-- The adjacency mapping of `_trace_edges`: an insertion-ordered
association list from a vertex to the list of vertices sharing an exposed
border segment with it (CPython dicts preserve insertion order). -/
abbrev Adj := List (Point × List Point)

/-- Ordered dict lookup. -/
def lookupAdj : Adj → Point → Option (List Point)
  | [], _ => none
  | (k, s) :: rest, v => if k = v then some s else lookupAdj rest v

/-- `set.add`: append if not already present (sets are modelled as
duplicate-free lists in insertion order). -/
def setInsert (s : List Point) (p : Point) : List Point :=
  if p ∈ s then s else s ++ [p]

/-- `adj.setdefault(v, set()).add(u)`: update the entry for `v` in place,
or append a fresh entry at the end of the dict. -/
def dictAdd : Adj → Point → Point → Adj
  | [], v, u => [(v, [u])]
  | (k, s) :: rest, v, u =>
    if k = v then (k, setInsert s u) :: rest
    else (k, s) :: dictAdd rest v u

/-- `_add_edge`: insert the undirected edge in both directions. -/
def addEdge (adj : Adj) (v1 v2 : Point) : Adj :=
  dictAdd (dictAdd adj v1 v2) v2 v1

/-- `v ∈ adj.get(u, set())`. -/
def hasEdge (adj : Adj) (u v : Point) : Bool :=
  match lookupAdj adj u with
  | some s => decide (v ∈ s)
  | none => false

/-- The body of the graph-building double loop of `_trace_edges` for one
pixel `(x, y)`: skip false pixels, then conditionally add the top, bottom,
left and right border segments, in source order. -/
def addPixel (m : Mask) (adj : Adj) (x y : Nat) : Adj :=
  if m.pix y x = false then adj else
  let a1 := if y = 0 ∨ m.pix (y-1) x = false then addEdge adj (x, y) (x+1, y) else adj
  let a2 := if y = m.h - 1 ∨ m.pix (y+1) x = false then addEdge a1 (x+1, y+1) (x, y+1) else a1
  let a3 := if x = 0 ∨ m.pix y (x-1) = false then addEdge a2 (x, y+1) (x, y) else a2
  if x = m.w - 1 ∨ m.pix y (x+1) = false then addEdge a3 (x+1, y) (x+1, y+1) else a3

/-- The full "build undirected graph of exposed edges" scan:
`for y in range(h): for x in range(w): ...`. -/
def buildAdj (m : Mask) : Adj :=
  (List.range m.h).foldl
    (fun adj y => (List.range m.w).foldl (fun adj x => addPixel m adj x y) adj) []

/-- `{u, v} = {a, b}` as ordered pairs (the graph is undirected; each
edge is inserted in both directions). -/
def unordMatch (u v a b : Point) : Bool :=
  (decide (u = a) && decide (v = b)) || (decide (u = b) && decide (v = a))

/-- The specification of the four conditional edge insertions of
`addPixel`, one pixel at a time: the edge `{u, v}` is contributed by
pixel `(x, y)` (pixel true, plus the side condition of the matching
template). -/
def pixContrib (m : Mask) (x y : Nat) (u v : Point) : Bool :=
  m.pix y x &&
  ((decide (y = 0 ∨ m.pix (y-1) x = false) && unordMatch u v (x, y) (x+1, y)) ||
   (decide (y = m.h - 1 ∨ m.pix (y+1) x = false) && unordMatch u v (x+1, y+1) (x, y+1)) ||
   (decide (x = 0 ∨ m.pix y (x-1) = false) && unordMatch u v (x, y+1) (x, y)) ||
   (decide (x = m.w - 1 ∨ m.pix y (x+1) = false) && unordMatch u v (x+1, y) (x+1, y+1)))

/-- Generic Python exceptions the traced code can raise (plus an
out-of-fuel marker for the Lean embedding, proved unreachable). -/
inductive PyError where
  | indexError
  | keyError
  | fuelOut
  deriving DecidableEq, Repr

/-- An extracted loop: the ordered vertex list, start vertex stored once. -/
abbrev Loop := List Point

/-- `sorted(l)[0]`: the lexicographic minimum, `none` on the empty list
(Python raises `IndexError` there). -/
def listMin : List Point → Option Point
  | [] => none
  | x :: xs => some (xs.foldl (fun acc p => if ptLe p acc then p else acc) x)

/-- One direction of `_pop_edge`: `adj[v].remove(u)`, deleting the key
when its set becomes empty.  (In the walk this is only invoked with the
edge present, so `set.remove`'s own `KeyError` path is never taken.) -/
def setRemoveDel : Adj → Point → Point → Adj
  | [], _, _ => []
  | (k, s) :: rest, v, u =>
    if k = v then
      let s2 := s.filter (fun p => p ≠ u)
      if s2 = [] then rest else (k, s2) :: rest
    else (k, s) :: setRemoveDel rest v u

/-- `_pop_edge`: remove the undirected edge from both endpoints. -/
def popEdge (adj : Adj) (v1 v2 : Point) : Adj :=
  setRemoveDel (setRemoveDel adj v1 v2) v2 v1

/-- The candidate list at a walk step: all neighbours on the first step,
otherwise the neighbours distinct from the vertex just arrived from. -/
def candsOf (prev : Option Point) (nbrs : List Point) : List Point :=
  match prev with
  | none => nbrs
  | some p => nbrs.filter (fun n => n ≠ p)

/-- Total number of directed adjacency entries; the walk's fuel measure. -/
def totalSize (adj : Adj) : Nat := (adj.map (fun kv => kv.2.length)).sum

/-- The inner `while True:` walk of `_trace_edges`: from `current`, pick
the lexicographically least remaining candidate neighbour, pop the
traversed edge, stop when the walk returns to `start`; the accumulated
list is the loop (the start vertex is not appended again at closure). -/
def walk : Nat → Adj → Point → Option Point → Point → List Point →
    Except PyError (List Point × Adj)
  | 0, _, _, _, _, _ => .error .fuelOut
  | fuel + 1, adj, start, prev, current, acc =>
    match lookupAdj adj current with
    | none => .error .keyError
    | some nbrs =>
      match listMin (candsOf prev nbrs) with
      | none => .error .indexError
      | some nextV =>
        let adj2 := popEdge adj current nextV
        if nextV = start then .ok (acc, adj2)
        else walk fuel adj2 start (some current) nextV (acc ++ [nextV])

/-- The outer `while adj:` loop of `_trace_edges`: repeatedly start a new
loop at the first key of the (insertion-ordered) dict. -/
def extractGo : Nat → Adj → Except PyError (List Loop)
  | 0, adj => if adj = [] then .ok [] else .error .fuelOut
  | fuel + 1, adj =>
    match adj with
    | [] => .ok []
    | (start, _) :: _ =>
      match walk (totalSize adj + 1) adj start none start [start] with
      | .error e => .error e
      | .ok (loop, adj2) =>
        match extractGo fuel adj2 with
        | .error e => .error e
        | .ok loops => .ok (loop :: loops)

/-- Loop extraction from an adjacency graph (the second half of
`_trace_edges`, operating on the graph the first half built). -/
def extractLoops (adj : Adj) : Except PyError (List Loop) :=
  extractGo (totalSize adj + 1) adj

/-- `_trace_edges`: build the boundary graph, then decompose it into
ordered loops. -/
def traceEdges (m : Mask) : Except PyError (List Loop) :=
  extractLoops (buildAdj m)

/-! Geometry / SVG side. -/

/-- One SVG path command with rational coordinates. -/
inductive Cmd where
  | move (x y : ℚ)
  | line (x y : ℚ)
  | close
  deriving DecidableEq, Repr

/-- One sub-path (a `M … L … Z` command run). -/
abbrev SubPath := List Cmd

/-- Python's `min` over a nonempty list of naturals (the source only ever
applies it to nonempty loops; `min([])` would raise `ValueError`). -/
def natListMin : List Nat → Nat
  | [] => 0
  | x :: xs => xs.foldl Nat.min x

/-- Python's `max` over a nonempty list of naturals. -/
def natListMax : List Nat → Nat
  | [] => 0
  | x :: xs => xs.foldl Nat.max x

/-- `_make_bridges`: two thin rectangular connector sub-paths for an
interior hole, or none when the loop's bounding box touches the canvas
border. -/
def makeBridges (loop : Loop) (imgW imgH : Nat) (span halfThickness : ℚ) :
    List SubPath :=
  let xs := loop.map (fun p => p.1)
  let ys := loop.map (fun p => p.2)
  let minX := natListMin xs
  let maxX := natListMax xs
  let minY := natListMin ys
  let maxY := natListMax ys
  if minX = 0 ∨ maxX = imgW ∨ minY = 0 ∨ maxY = imgH then []
  else
    let yMid : ℚ := ((minY : ℚ) + (maxY : ℚ)) / 2
    [ [Cmd.move (minX : ℚ) (yMid - halfThickness),
       Cmd.line ((minX : ℚ) - span) (yMid - halfThickness),
       Cmd.line ((minX : ℚ) - span) (yMid + halfThickness),
       Cmd.line (minX : ℚ) (yMid + halfThickness),
       Cmd.close],
      [Cmd.move (maxX : ℚ) (yMid - halfThickness),
       Cmd.line ((maxX : ℚ) + span) (yMid - halfThickness),
       Cmd.line ((maxX : ℚ) + span) (yMid + halfThickness),
       Cmd.line (maxX : ℚ) (yMid + halfThickness),
       Cmd.close] ]

/-- The denominator of the ray-crossing division in `_point_in_loop`:
`y2 - y1 + 1e-6`. -/
def crossDenom (y1 y2 : ℚ) : ℚ := y2 - y1 + 1 / 1000000

/-- `_point_in_loop`: even-odd ray-crossing containment test. -/
def pointInLoop (pt : ℚ × ℚ) (loop : Loop) : Bool :=
  let n := loop.length
  (List.range n).foldl
    (fun inside i =>
      let p1 := loop.getD i (0, 0)
      let p2 := loop.getD ((i + 1) % n) (0, 0)
      let x1 : ℚ := p1.1
      let y1 : ℚ := p1.2
      let x2 : ℚ := p2.1
      let y2 : ℚ := p2.2
      if (decide (y1 > pt.2) ≠ decide (y2 > pt.2)) ∧
          pt.1 < (x2 - x1) * (pt.2 - y1) / crossDenom y1 y2 + x1
      then !inside else inside)
    false

/-- Polygon centroid (arithmetic mean of the vertices), as used by
`_compute_loop_depths`; only ever applied to nonempty loops. -/
def centroid (l : Loop) : ℚ × ℚ :=
  ((l.map (fun p => (p.1 : ℚ))).sum / (l.length : ℚ),
   (l.map (fun p => (p.2 : ℚ))).sum / (l.length : ℚ))

/-- `_compute_loop_depths`: for every loop, how many *other* loops contain
its centroid. -/
def computeLoopDepths (loops : List Loop) : List Nat :=
  (List.range loops.length).map (fun i =>
    let c := centroid (loops.getD i [])
    (List.range loops.length).countP
      (fun j => decide (j ≠ i) && pointInLoop c (loops.getD j [])))

/-- The bridge emission step of `_trace_contours_as_svg_paths`: bridges
are added only when the loop is an "island" (even nesting depth ≥ 2),
with `span=1` and `half_thickness=0.25` as at the call site. -/
def bridgesFor (loop : Loop) (depth imgW imgH : Nat) : List SubPath :=
  if 2 ≤ depth ∧ depth % 2 = 0 then makeBridges loop imgW imgH 1 (1/4) else []

/-- The `M`/`L`/`Z` sub-path of one loop (loops are always nonempty in
the source; `loop[0]` on an empty loop would raise `IndexError`). -/
def loopSubPath : Loop → SubPath
  | [] => []
  | p :: rest =>
    Cmd.move (p.1 : ℚ) (p.2 : ℚ) ::
      (rest.map (fun q => Cmd.line (q.1 : ℚ) (q.2 : ℚ)) ++ [Cmd.close])

/-- The sub-path list assembled by `_trace_contours_as_svg_paths`: per
loop, its outline sub-path followed by its bridges (if any). -/
def subPathsOfLoops (loops : List Loop) (imgW imgH : Nat) : List SubPath :=
  ((loops.zip (computeLoopDepths loops)).map
    (fun ld => loopSubPath ld.1 :: bridgesFor ld.1 ld.2 imgW imgH)).flatten

/-- Rendering of one command (purely for the final joined string; the
source prints Python floats, the model prints `ℚ`). -/
def renderCmd : Cmd → String
  | .move x y => "M " ++ toString x ++ " " ++ toString y
  | .line x y => "L " ++ toString x ++ " " ++ toString y
  | .close => "Z"

/-- `" ".join(pieces)` for one sub-path. -/
def renderSubPath (sp : SubPath) : String :=
  String.intercalate " " (sp.map renderCmd)

/-- `_trace_contours_as_svg_paths`: trace the loops, compute depths, and
return the compound path string (empty when there are no loops). -/
def traceContoursAsSvgPaths (m : Mask) : Except PyError String :=
  match traceEdges m with
  | .error e => .error e
  | .ok loops =>
    if loops = [] then .ok ""
    else .ok (String.intercalate " "
      ((subPathsOfLoops loops m.w m.h).map renderSubPath))

/-! The public export entry point. -/

abbrev RGB := Nat × Nat × Nat
abbrev RGBA := Nat × Nat × Nat × Nat

/-- `_get_color_name`: predictable colour label for filenames. -/
def getColorName (rgb : RGB) (otherIndex : Nat) : String × Nat :=
  let tol : Int := 10
  if ((rgb.1 : Int) - 255).natAbs ≤ tol.natAbs ∧
     ((rgb.2.1 : Int) - 255).natAbs ≤ tol.natAbs ∧
     ((rgb.2.2 : Int) - 255).natAbs ≤ tol.natAbs then
    ("white", otherIndex)
  else if rgb.1 ≤ 10 ∧ rgb.2.1 ≤ 10 ∧ rgb.2.2 ≤ 10 then
    ("black", otherIndex)
  else
    ("color" ++ toString otherIndex, otherIndex + 1)

/-- The per-layer loop of `masks_to_svgs`, threading the running
`special_color_index`; produces `(filename, path-d)` pairs (the actual
file write and SVG boilerplate are I/O, outside the embedding). -/
def svgLayers (base : String) : List (Mask × RGBA) → Nat →
    Except PyError (List (String × String))
  | [], _ => .ok []
  | (m, rgba) :: rest, idx =>
    let rgb : RGB := (rgba.1, rgba.2.1, rgba.2.2.1)
    let ln := getColorName rgb idx
    match traceContoursAsSvgPaths m with
    | .error e => .error e
    | .ok d =>
      match svgLayers base rest ln.2 with
      | .error e => .error e
      | .ok tl => .ok ((base ++ "_" ++ ln.1 ++ ".svg", d) :: tl)

/-- `masks_to_svgs`: reading the document dimensions from `masks[0]`
raises `IndexError` when the masks list is empty (no guard exists); the
directory creation that precedes it is I/O and produces no output. -/
def masksToSvgs (masks : List Mask) (palette : List RGBA) (scale : Nat)
    (base : String) : Except PyError (List (String × String)) :=
  match masks with
  | [] => .error .indexError
  | m0 :: _ =>
    let _docPx := (m0.w * scale, m0.h * scale)
    svgLayers base (masks.zip palette) 1

/-- Pixel lookup with out-of-bounds coordinates reading as false
(`mask[y, x]` guarded by the bounds checks in the scan). -/
def pixAt (m : Mask) (x y : Int) : Bool :=
  if 0 ≤ x ∧ x < (m.w : Int) ∧ 0 ≤ y ∧ y < (m.h : Int) then m.pix y.toNat x.toNat
  else false

/-- Structural invariants of the dict-of-sets: keys are unique,
neighbour sets are duplicate-free and nonempty. -/
def WFS (adj : Adj) : Prop :=
  (adj.map Prod.fst).Nodup ∧ (∀ kv ∈ adj, kv.2.Nodup) ∧ (∀ kv ∈ adj, kv.2 ≠ [])

/-- Degree of a vertex: the size of its neighbour set (0 if absent). -/
def deg (adj : Adj) (v : Point) : Nat := ((lookupAdj adj v).getD []).length

/-- Normalise an ordered pair to its `ptLe`-sorted form (for treating
traversal edges as undirected). -/
def sortPair (e : Point × Point) : Point × Point :=
  if ptLe e.1 e.2 then e else (e.2, e.1)

/-- The edges traversed by a loop: consecutive vertex pairs plus the
closing edge from the last vertex back to the first. -/
def loopEdges : Loop → List (Point × Point)
  | [] => []
  | v :: rest => (v :: rest).zip (rest ++ [v])

/-- Full graph invariant: structural well-formedness plus symmetry and
irreflexivity of the edge relation. -/
def WFG (adj : Adj) : Prop :=
  WFS adj ∧ (∀ u v, hasEdge adj u v = hasEdge adj v u) ∧
    (∀ v, hasEdge adj v v = false)

/-- The all-true `W`×`H` rectangle mask of claim C4. -/
def solidRect (w h : Nat) : Mask where
  h := h
  w := w
  pix := fun _ _ => true

/-- `{u, v} = {a, b}` at the `Prop` level. -/
def unordIs (u v a b : Point) : Prop := (u = a ∧ v = b) ∨ (u = b ∧ v = a)

/-- The remaining boundary edges of a solid rectangle while the
deterministic walk is in progress: the top row survives below `topB`, the
bottom row from `botLo` on, the left column from row `leftLo` down, and
the right column below `rightB`. -/
def StageE (w h topB botLo leftLo rightB : Nat) (u v : Point) : Prop :=
  (∃ x, x < topB ∧ unordIs u v (x, 0) (x+1, 0)) ∨
  (∃ x, botLo ≤ x ∧ x < w ∧ unordIs u v (x, h) (x+1, h)) ∨
  (∃ y, leftLo ≤ y ∧ y < h ∧ unordIs u v (0, y) (0, y+1)) ∨
  (∃ y, y < rightB ∧ unordIs u v (w, y) (w, y+1))

/-- Left-column part of the rectangle walk, from row `k` down. -/
def downFrom (h k : Nat) : List Point :=
  (List.range (h - k)).map (fun t => ((0 : Nat), k + 1 + t))

/-- Bottom-row part of the rectangle walk, from column `i` right. -/
def bottomFrom (w h i : Nat) : List Point :=
  (List.range (w - i)).map (fun t => (i + 1 + t, h))

/-- Right-column part of the rectangle walk, from row `k` up. -/
def rightPathFrom (w k : Nat) : List Point :=
  (List.range k).map (fun t => (w, k - 1 - t))

/-- Top-row part of the rectangle walk, from column `j - 1` left. -/
def topPathFrom (j : Nat) : List Point :=
  (List.range (j - 1)).map (fun t => (j - 1 - t, (0 : Nat)))

/-- The vertices the rectangle walk appends after its start vertex. -/
def rectPath (w h : Nat) : List Point :=
  downFrom h 0 ++ bottomFrom w h 0 ++ rightPathFrom w h ++ topPathFrom w

/-- The single loop extracted from a solid `W`×`H` rectangle: every
lattice point of the perimeter, counterclockwise from the origin. -/
def rectLoop (w h : Nat) : Loop := ((0 : Nat), (0 : Nat)) :: rectPath w h

/-- A fully determined walk: from the given state, the candidate minimum
is forced at every step, the listed vertices are appended in order, and
the walk closes at `start` leaving the final adjacency. -/
inductive Forced (start : Point) : Adj → Option Point → Point → List Point → Adj → Prop where
  | close : ∀ (adj : Adj) (prev : Option Point) (current : Point) (nbrs : List Point),
      lookupAdj adj current = some nbrs →
      listMin (candsOf prev nbrs) = some start →
      Forced start adj prev current [] (popEdge adj current start)
  | step : ∀ (adj : Adj) (prev : Option Point) (current nextV : Point)
      (nbrs : List Point) (rest : List Point) (adjF : Adj),
      lookupAdj adj current = some nbrs →
      listMin (candsOf prev nbrs) = some nextV →
      nextV ≠ start →
      Forced start (popEdge adj current nextV) (some current) nextV rest adjF →
      Forced start adj prev current (nextV :: rest) adjF

/-! ### Dictionary and edge-insertion lemmas -/

theorem mem_setInsert (s : List Point) (p v : Point) :
    v ∈ setInsert s p ↔ v ∈ s ∨ v = p := by
  unfold setInsert
  split
  · rename_i h
    constructor
    · exact fun hv => Or.inl hv
    · rintro (hv | rfl) <;> [exact hv; exact h]
  · simp

theorem lookupAdj_dictAdd (adj : Adj) (v u x : Point) :
    lookupAdj (dictAdd adj v u) x =
      if x = v then some (setInsert ((lookupAdj adj v).getD []) u)
      else lookupAdj adj x := by
  induction adj with
  | nil =>
    by_cases hx : x = v
    · subst hx; simp [dictAdd, lookupAdj, setInsert]
    · simp [dictAdd, lookupAdj, hx, Ne.symm hx]
  | cons kv rest ih =>
    obtain ⟨k, s⟩ := kv
    by_cases hk : k = v
    · subst hk
      by_cases hx : x = k
      · subst hx; simp [dictAdd, lookupAdj]
      · simp [dictAdd, lookupAdj, hx, Ne.symm hx]
    · by_cases hx : x = k
      · subst hx
        simp [dictAdd, lookupAdj, hk, Ne.symm hk]
      · simp [dictAdd, lookupAdj, hk, Ne.symm hk, hx, Ne.symm hx, ih]

theorem hasEdge_dictAdd (adj : Adj) (a b u v : Point) :
    hasEdge (dictAdd adj a b) u v =
      (hasEdge adj u v || (decide (u = a) && decide (v = b))) := by
  unfold hasEdge
  rw [lookupAdj_dictAdd]
  by_cases hu : u = a
  · subst hu
    cases hl : lookupAdj adj u <;>
      simp [mem_setInsert, hl, Option.getD]
  · simp [hu]

theorem hasEdge_addEdge (adj : Adj) (a b u v : Point) :
    hasEdge (addEdge adj a b) u v =
      (hasEdge adj u v || unordMatch u v a b) := by
  unfold addEdge unordMatch
  rw [hasEdge_dictAdd, hasEdge_dictAdd]
  cases hasEdge adj u v <;> cases hda : decide (u = a) <;> cases hdb : decide (v = b) <;>
    cases hdb2 : decide (u = b) <;> cases hda2 : decide (v = a) <;> simp_all

/-- Generic accumulation lemma: if each step `or`s a contribution onto a
boolean observation `P`, so does a `foldl`. -/
theorem foldl_bool_or {α : Type} (f : Adj → α → Adj) (P : Adj → Bool) (c : α → Bool)
    (hf : ∀ adj a, P (f adj a) = (P adj || c a)) :
    ∀ (l : List α) (adj0 : Adj), P (l.foldl f adj0) = (P adj0 || l.any c) := by
  intro l
  induction l with
  | nil => simp
  | cons a l ih =>
    intro adj0
    simp only [List.foldl_cons, List.any_cons, ih, hf, Bool.or_assoc]

theorem hasEdge_ite_addEdge (adj : Adj) (c : Prop) [Decidable c] (a b u v : Point) :
    hasEdge (if c then addEdge adj a b else adj) u v =
      (hasEdge adj u v || (decide c && unordMatch u v a b)) := by
  split
  · rename_i hc; rw [hasEdge_addEdge, decide_eq_true hc, Bool.true_and]
  · rename_i hc; rw [decide_eq_false hc, Bool.false_and, Bool.or_false]

theorem bool_or_regroup (e b1 b2 b3 b4 : Bool) :
    ((((e || b1) || b2) || b3) || b4) = (e || (b1 || b2 || b3 || b4)) := by
  cases e <;> cases b1 <;> cases b2 <;> cases b3 <;> cases b4 <;> rfl

theorem hasEdge_addPixel (m : Mask) (adj : Adj) (x y : Nat) (u v : Point) :
    hasEdge (addPixel m adj x y) u v =
      (hasEdge adj u v || pixContrib m x y u v) := by
  unfold addPixel pixContrib
  by_cases hp : m.pix y x = false
  · simp [hp]
  · rw [Bool.not_eq_false] at hp
    rw [if_neg (by simp [hp])]
    simp only [hasEdge_ite_addEdge]
    rw [hp, Bool.true_and]
    exact bool_or_regroup _ _ _ _ _

theorem hasEdge_buildAdj_any (m : Mask) (u v : Point) :
    hasEdge (buildAdj m) u v =
      (List.range m.h).any (fun y =>
        (List.range m.w).any (fun x => pixContrib m x y u v)) := by
  unfold buildAdj
  rw [foldl_bool_or
    (fun adj y => (List.range m.w).foldl (fun adj x => addPixel m adj x y) adj)
    (fun adj => hasEdge adj u v)
    (fun y => (List.range m.w).any (fun x => pixContrib m x y u v))
    (fun adj y => foldl_bool_or (fun adj x => addPixel m adj x y)
      (fun adj => hasEdge adj u v) (fun x => pixContrib m x y u v)
      (fun adj x => hasEdge_addPixel m adj x y u v) (List.range m.w) adj)
    (List.range m.h) []]
  simp [hasEdge, lookupAdj]

theorem hasEdge_buildAdj_iff (m : Mask) (u v : Point) :
    hasEdge (buildAdj m) u v = true ↔
      ∃ x y, y < m.h ∧ x < m.w ∧ pixContrib m x y u v = true := by
  rw [hasEdge_buildAdj_any]
  simp only [List.any_eq_true, List.mem_range]
  constructor
  · rintro ⟨y, hy, x, hx, h⟩; exact ⟨x, y, hy, hx, h⟩
  · rintro ⟨x, y, hy, hx, h⟩; exact ⟨y, hy, x, hx, h⟩

/-! ### Segment-level characterisation of the boundary graph -/

theorem pixAt_eq_true_iff (m : Mask) (x y : Int) :
    pixAt m x y = true ↔
      0 ≤ x ∧ x < (m.w : Int) ∧ 0 ≤ y ∧ y < (m.h : Int) ∧
        m.pix y.toNat x.toNat = true := by
  unfold pixAt
  split
  · rename_i h
    exact ⟨fun hp => ⟨h.1, h.2.1, h.2.2.1, h.2.2.2, hp⟩, fun hp => hp.2.2.2.2⟩
  · rename_i h
    simp only [Bool.false_eq_true, false_iff]
    intro hp
    exact h ⟨hp.1, hp.2.1, hp.2.2.1, hp.2.2.2.1⟩

theorem pixAt_eq_false_iff (m : Mask) (x y : Int) :
    pixAt m x y = false ↔
      ¬(0 ≤ x ∧ x < (m.w : Int) ∧ 0 ≤ y ∧ y < (m.h : Int) ∧
        m.pix y.toNat x.toNat = true) := by
  rw [← Bool.not_eq_true, pixAt_eq_true_iff]

theorem pixContrib_eq_true_iff (m : Mask) (X Y : Nat) (u v : Point) :
    pixContrib m X Y u v = true ↔
      m.pix Y X = true ∧
      (((Y = 0 ∨ m.pix (Y-1) X = false) ∧
          ((u = (X, Y) ∧ v = (X+1, Y)) ∨ (u = (X+1, Y) ∧ v = (X, Y)))) ∨
       ((Y = m.h - 1 ∨ m.pix (Y+1) X = false) ∧
          ((u = (X+1, Y+1) ∧ v = (X, Y+1)) ∨ (u = (X, Y+1) ∧ v = (X+1, Y+1)))) ∨
       ((X = 0 ∨ m.pix Y (X-1) = false) ∧
          ((u = (X, Y+1) ∧ v = (X, Y)) ∨ (u = (X, Y) ∧ v = (X, Y+1)))) ∨
       ((X = m.w - 1 ∨ m.pix Y (X+1) = false) ∧
          ((u = (X+1, Y) ∧ v = (X+1, Y+1)) ∨ (u = (X+1, Y+1) ∧ v = (X+1, Y))))) := by
  simp only [pixContrib, unordMatch, Bool.and_eq_true, Bool.or_eq_true,
    decide_eq_true_eq]
  rw [or_assoc, or_assoc]

theorem unordMatch_swap (u v a b : Point) :
    unordMatch u v a b = unordMatch v u a b := by
  unfold unordMatch
  cases h1 : decide (u = a) <;> cases h2 : decide (v = b) <;>
    cases h3 : decide (u = b) <;> cases h4 : decide (v = a) <;>
      simp_all [eq_comm]

theorem pixContrib_swap (m : Mask) (x y : Nat) (u v : Point) :
    pixContrib m x y u v = pixContrib m x y v u := by
  unfold pixContrib
  rw [unordMatch_swap u v (x, y) (x+1, y),
    unordMatch_swap u v (x+1, y+1) (x, y+1),
    unordMatch_swap u v (x, y+1) (x, y),
    unordMatch_swap u v (x+1, y) (x+1, y+1)]

theorem hasEdge_buildAdj_symm (m : Mask) (u v : Point) :
    hasEdge (buildAdj m) u v = hasEdge (buildAdj m) v u := by
  rw [hasEdge_buildAdj_any, hasEdge_buildAdj_any]
  congr 1
  funext y
  congr 1
  funext x
  exact pixContrib_swap m x y u v

/-- The horizontal unit segment `(x, y)–(x+1, y)` lies in the boundary
graph exactly when the pixels above and below it differ. -/
theorem hseg_iff (m : Mask) (x y : Nat) :
    hasEdge (buildAdj m) (x, y) (x+1, y) = true ↔
      pixAt m (x : Int) (y : Int) ≠ pixAt m (x : Int) ((y : Int) - 1) := by
  rw [hasEdge_buildAdj_iff]
  constructor
  · rintro ⟨X, Y, hY, hX, hc⟩
    rw [pixContrib_eq_true_iff] at hc
    obtain ⟨hpix, hcase⟩ := hc
    rcases hcase with ⟨hcond, hm⟩ | ⟨hcond, hm⟩ | ⟨hcond, hm⟩ | ⟨hcond, hm⟩ <;>
      rcases hm with ⟨h1, h2⟩ | ⟨h1, h2⟩ <;>
        rw [Prod.mk.injEq] at h1 h2
    · -- top template, straight: X = x, Y = y
      obtain ⟨hx1, hy1⟩ := h1
      have hT : pixAt m (x:Int) (y:Int) = true := by
        rw [pixAt_eq_true_iff]
        refine ⟨by omega, by omega, by omega, by omega, ?_⟩
        rw [(by omega : ((y:Int)).toNat = Y), (by omega : ((x:Int)).toNat = X)]
        exact hpix
      have hB : pixAt m (x:Int) ((y:Int) - 1) = false := by
        rw [pixAt_eq_false_iff]
        rintro ⟨-, -, hge, -, hpixB⟩
        rcases hcond with h0 | hfalse
        · omega
        · rw [(by omega : ((y:Int) - 1).toNat = Y - 1),
            (by omega : ((x:Int)).toNat = X)] at hpixB
          rw [hpixB] at hfalse
          simp at hfalse
      rw [hT, hB]; simp
    · exfalso; omega
    · exfalso; omega
    · -- bottom template, swapped: X = x, Y + 1 = y
      obtain ⟨hx1, hy1⟩ := h1
      have hB : pixAt m (x:Int) ((y:Int) - 1) = true := by
        rw [pixAt_eq_true_iff]
        refine ⟨by omega, by omega, by omega, by omega, ?_⟩
        rw [(by omega : ((y:Int) - 1).toNat = Y), (by omega : ((x:Int)).toNat = X)]
        exact hpix
      have hT : pixAt m (x:Int) (y:Int) = false := by
        rw [pixAt_eq_false_iff]
        rintro ⟨-, -, -, hyh, hpixT⟩
        rcases hcond with hh | hfalse
        · omega
        · rw [(by omega : ((y:Int)).toNat = Y + 1),
            (by omega : ((x:Int)).toNat = X)] at hpixT
          rw [hpixT] at hfalse
          simp at hfalse
      rw [hT, hB]; simp
    · exfalso; omega
    · exfalso; omega
    · exfalso; omega
    · exfalso; omega
  · intro hne
    cases hT : pixAt m (x:Int) (y:Int) <;> cases hB : pixAt m (x:Int) ((y:Int) - 1)
    · rw [hT, hB] at hne; simp at hne
    · -- pixel above the segment is set, the one on it is not
      rw [pixAt_eq_true_iff] at hB
      obtain ⟨-, hxw, hy1, hyh, hpixB⟩ := hB
      rw [(by omega : ((y:Int) - 1).toNat = y - 1),
        (by omega : ((x:Int)).toNat = x)] at hpixB
      refine ⟨x, y - 1, by omega, by omega, ?_⟩
      rw [pixContrib_eq_true_iff]
      refine ⟨hpixB, Or.inr (Or.inl ⟨?_, Or.inr ⟨?_, ?_⟩⟩)⟩
      · rw [pixAt_eq_false_iff] at hT
        by_cases hyh2 : y < m.h
        · right
          rw [(by omega : y - 1 + 1 = y)]
          cases hp : m.pix y x
          · rfl
          · exact absurd ⟨by omega, by omega, by omega, by omega, by
              rw [(by omega : ((y:Int)).toNat = y), (by omega : ((x:Int)).toNat = x)]
              exact hp⟩ hT
        · left; omega
      · rw [(by omega : y - 1 + 1 = y)]
      · rw [(by omega : y - 1 + 1 = y)]
    · -- pixel on the segment's row is set, the one above is not
      rw [pixAt_eq_true_iff] at hT
      obtain ⟨-, hxw, -, hyh, hpixT⟩ := hT
      rw [(by omega : ((y:Int)).toNat = y), (by omega : ((x:Int)).toNat = x)] at hpixT
      refine ⟨x, y, by omega, by omega, ?_⟩
      rw [pixContrib_eq_true_iff]
      refine ⟨hpixT, Or.inl ⟨?_, Or.inl ⟨rfl, rfl⟩⟩⟩
      rw [pixAt_eq_false_iff] at hB
      by_cases hy0 : y = 0
      · left; exact hy0
      · right
        cases hp : m.pix (y - 1) x
        · rfl
        · exact absurd ⟨by omega, by omega, by omega, by omega, by
            rw [(by omega : ((y:Int) - 1).toNat = y - 1),
              (by omega : ((x:Int)).toNat = x)]
            exact hp⟩ hB
    · rw [hT, hB] at hne; simp at hne

/-- The vertical unit segment `(x, y)–(x, y+1)` lies in the boundary
graph exactly when the pixels right and left of it differ. -/
theorem vseg_iff (m : Mask) (x y : Nat) :
    hasEdge (buildAdj m) (x, y) (x, y+1) = true ↔
      pixAt m (x : Int) (y : Int) ≠ pixAt m ((x : Int) - 1) (y : Int) := by
  rw [hasEdge_buildAdj_iff]
  constructor
  · rintro ⟨X, Y, hY, hX, hc⟩
    rw [pixContrib_eq_true_iff] at hc
    obtain ⟨hpix, hcase⟩ := hc
    rcases hcase with ⟨hcond, hm⟩ | ⟨hcond, hm⟩ | ⟨hcond, hm⟩ | ⟨hcond, hm⟩ <;>
      rcases hm with ⟨h1, h2⟩ | ⟨h1, h2⟩ <;>
        rw [Prod.mk.injEq] at h1 h2
    · exfalso; omega
    · exfalso; omega
    · exfalso; omega
    · exfalso; omega
    · exfalso; omega
    · -- left template, swapped: X = x, Y = y
      obtain ⟨hx1, hy1⟩ := h1
      have hR : pixAt m (x:Int) (y:Int) = true := by
        rw [pixAt_eq_true_iff]
        refine ⟨by omega, by omega, by omega, by omega, ?_⟩
        rw [(by omega : ((y:Int)).toNat = Y), (by omega : ((x:Int)).toNat = X)]
        exact hpix
      have hL : pixAt m ((x:Int) - 1) (y:Int) = false := by
        rw [pixAt_eq_false_iff]
        rintro ⟨hge, -, -, -, hpixL⟩
        rcases hcond with h0 | hfalse
        · omega
        · rw [(by omega : ((x:Int) - 1).toNat = X - 1),
            (by omega : ((y:Int)).toNat = Y)] at hpixL
          rw [hpixL] at hfalse
          simp at hfalse
      rw [hR, hL]; simp
    · -- right template, straight: X + 1 = x, Y = y
      obtain ⟨hx1, hy1⟩ := h1
      have hL : pixAt m ((x:Int) - 1) (y:Int) = true := by
        rw [pixAt_eq_true_iff]
        refine ⟨by omega, by omega, by omega, by omega, ?_⟩
        rw [(by omega : ((x:Int) - 1).toNat = X), (by omega : ((y:Int)).toNat = Y)]
        exact hpix
      have hR : pixAt m (x:Int) (y:Int) = false := by
        rw [pixAt_eq_false_iff]
        rintro ⟨-, hxw, -, -, hpixR⟩
        rcases hcond with hw | hfalse
        · omega
        · rw [(by omega : ((x:Int)).toNat = X + 1),
            (by omega : ((y:Int)).toNat = Y)] at hpixR
          rw [hpixR] at hfalse
          simp at hfalse
      rw [hR, hL]; simp
    · exfalso; omega
  · intro hne
    cases hR : pixAt m (x:Int) (y:Int) <;> cases hL : pixAt m ((x:Int) - 1) (y:Int)
    · rw [hR, hL] at hne; simp at hne
    · -- pixel left of the segment is set, the one on its right is not
      rw [pixAt_eq_true_iff] at hL
      obtain ⟨hx1, hxw, -, hyh, hpixL⟩ := hL
      rw [(by omega : ((x:Int) - 1).toNat = x - 1),
        (by omega : ((y:Int)).toNat = y)] at hpixL
      refine ⟨x - 1, y, by omega, by omega, ?_⟩
      rw [pixContrib_eq_true_iff]
      refine ⟨hpixL, Or.inr (Or.inr (Or.inr ⟨?_, Or.inl ⟨?_, ?_⟩⟩))⟩
      · rw [pixAt_eq_false_iff] at hR
        by_cases hxw2 : x < m.w
        · right
          rw [(by omega : x - 1 + 1 = x)]
          cases hp : m.pix y x
          · rfl
          · exact absurd ⟨by omega, by omega, by omega, by omega, by
              rw [(by omega : ((y:Int)).toNat = y), (by omega : ((x:Int)).toNat = x)]
              exact hp⟩ hR
        · left; omega
      · rw [(by omega : x - 1 + 1 = x)]
      · rw [(by omega : x - 1 + 1 = x)]
    · -- pixel right of the segment is set, the one on its left is not
      rw [pixAt_eq_true_iff] at hR
      obtain ⟨-, hxw, -, hyh, hpixR⟩ := hR
      rw [(by omega : ((y:Int)).toNat = y), (by omega : ((x:Int)).toNat = x)] at hpixR
      refine ⟨x, y, by omega, by omega, ?_⟩
      rw [pixContrib_eq_true_iff]
      refine ⟨hpixR, Or.inr (Or.inr (Or.inl ⟨?_, Or.inr ⟨rfl, rfl⟩⟩))⟩
      rw [pixAt_eq_false_iff] at hL
      by_cases hx0 : x = 0
      · left; exact hx0
      · right
        cases hp : m.pix y (x - 1)
        · rfl
        · exact absurd ⟨by omega, by omega, by omega, by omega, by
            rw [(by omega : ((x:Int) - 1).toNat = x - 1),
              (by omega : ((y:Int)).toNat = y)]
            exact hp⟩ hL
    · rw [hR, hL] at hne; simp at hne

/-- Every edge of the boundary graph is a unit lattice segment. -/
theorem hasEdge_adjacent (m : Mask) (u v : Point)
    (h : hasEdge (buildAdj m) u v = true) :
    (v.1 = u.1 + 1 ∧ v.2 = u.2) ∨ (u.1 = v.1 + 1 ∧ u.2 = v.2) ∨
    (v.2 = u.2 + 1 ∧ v.1 = u.1) ∨ (u.2 = v.2 + 1 ∧ u.1 = v.1) := by
  rw [hasEdge_buildAdj_iff] at h
  obtain ⟨X, Y, -, -, hc⟩ := h
  rw [pixContrib_eq_true_iff] at hc
  obtain ⟨-, hcase⟩ := hc
  rcases hcase with ⟨-, hm⟩ | ⟨-, hm⟩ | ⟨-, hm⟩ | ⟨-, hm⟩ <;>
    rcases hm with ⟨rfl, rfl⟩ | ⟨rfl, rfl⟩ <;> simp

/-! ### Structural well-formedness of the adjacency dictionary -/

theorem setInsert_nodup (s : List Point) (p : Point) (h : s.Nodup) :
    (setInsert s p).Nodup := by
  unfold setInsert
  split
  · exact h
  · rename_i hp
    simp [List.nodup_append, h, hp]

theorem setInsert_ne_nil (s : List Point) (p : Point) : setInsert s p ≠ [] := by
  unfold setInsert
  split
  · rename_i hp
    intro hs; subst hs; simp at hp
  · simp

theorem mem_dictAdd_cases (adj : Adj) (v u : Point) (kv : Point × List Point)
    (h : kv ∈ dictAdd adj v u) :
    kv ∈ adj ∨ ∃ s, kv = (v, setInsert s u) ∧ (s = [] ∨ (v, s) ∈ adj) := by
  induction adj with
  | nil =>
    simp [dictAdd] at h
    right
    exact ⟨[], by simp [h, setInsert], Or.inl rfl⟩
  | cons kv2 rest ih =>
    obtain ⟨k, s⟩ := kv2
    by_cases hk : k = v
    · subst hk
      simp only [dictAdd, if_pos rfl] at h
      rcases List.mem_cons.mp h with rfl | hmem
      · right; exact ⟨s, rfl, Or.inr (List.mem_cons_self _ _)⟩
      · left; exact List.mem_cons_of_mem _ hmem
    · simp only [dictAdd, if_neg hk] at h
      rcases List.mem_cons.mp h with rfl | hmem
      · left; exact List.mem_cons_self _ _
      · rcases ih hmem with hin | ⟨s2, heq, hs2⟩
        · left; exact List.mem_cons_of_mem _ hin
        · right
          exact ⟨s2, heq, hs2.imp id (List.mem_cons_of_mem _)⟩

theorem keys_dictAdd (adj : Adj) (v u : Point) :
    (dictAdd adj v u).map Prod.fst = adj.map Prod.fst ∨
      ((dictAdd adj v u).map Prod.fst = adj.map Prod.fst ++ [v] ∧
        v ∉ adj.map Prod.fst) := by
  induction adj with
  | nil => right; simp [dictAdd]
  | cons kv rest ih =>
    obtain ⟨k, s⟩ := kv
    by_cases hk : k = v
    · subst hk
      left; simp [dictAdd]
    · rcases ih with h | ⟨h, hmem⟩
      · left; simp [dictAdd, hk, h]
      · right
        constructor
        · simp [dictAdd, hk, h]
        · simp only [List.map_cons, List.mem_cons]
          rintro (rfl | hc)
          · exact hk rfl
          · exact hmem hc

theorem WFS_dictAdd (adj : Adj) (v u : Point) (h : WFS adj) :
    WFS (dictAdd adj v u) := by
  obtain ⟨hkeys, hvals, hne⟩ := h
  refine ⟨?_, ?_, ?_⟩
  · rcases keys_dictAdd adj v u with hk | ⟨hk, hmem⟩
    · rw [hk]; exact hkeys
    · rw [hk]
      simp [List.nodup_append, hkeys, hmem]
  · intro kv hkv
    rcases mem_dictAdd_cases adj v u kv hkv with hin | ⟨s, rfl, hs⟩
    · exact hvals kv hin
    · rcases hs with rfl | hin
      · exact setInsert_nodup _ _ (List.nodup_nil)
      · exact setInsert_nodup _ _ (hvals _ hin)
  · intro kv hkv
    rcases mem_dictAdd_cases adj v u kv hkv with hin | ⟨s, rfl, hs⟩
    · exact hne kv hin
    · exact setInsert_ne_nil s u

theorem WFS_addEdge (adj : Adj) (a b : Point) (h : WFS adj) :
    WFS (addEdge adj a b) :=
  WFS_dictAdd _ _ _ (WFS_dictAdd _ _ _ h)

theorem WFS_ite_addEdge (adj : Adj) (c : Prop) [Decidable c] (a b : Point)
    (h : WFS adj) : WFS (if c then addEdge adj a b else adj) := by
  split
  · exact WFS_addEdge _ _ _ h
  · exact h

theorem WFS_addPixel (m : Mask) (adj : Adj) (x y : Nat) (h : WFS adj) :
    WFS (addPixel m adj x y) := by
  unfold addPixel
  split
  · exact h
  · dsimp only
    exact WFS_ite_addEdge _ _ _ _
      (WFS_ite_addEdge _ _ _ _ (WFS_ite_addEdge _ _ _ _ (WFS_ite_addEdge _ _ _ _ h)))

theorem foldl_preserve {α : Type} (P : Adj → Prop) (f : Adj → α → Adj)
    (hf : ∀ adj a, P adj → P (f adj a)) :
    ∀ (l : List α) (adj0 : Adj), P adj0 → P (l.foldl f adj0) := by
  intro l
  induction l with
  | nil => intro adj0 h; exact h
  | cons a l ih => intro adj0 h; exact ih _ (hf _ _ h)

theorem WFS_buildAdj (m : Mask) : WFS (buildAdj m) := by
  unfold buildAdj
  refine foldl_preserve WFS _ (fun adj y hadj => ?_) _ _ ⟨by simp, by simp, by simp⟩
  exact foldl_preserve WFS _ (fun adj x h => WFS_addPixel m adj x y h) _ _ hadj

theorem hasEdge_buildAdj_irrefl (m : Mask) (v : Point) :
    hasEdge (buildAdj m) v v = false := by
  cases h : hasEdge (buildAdj m) v v
  · rfl
  · exfalso
    rcases hasEdge_adjacent m v v h with ⟨h1, -⟩ | ⟨h1, -⟩ | ⟨h1, -⟩ | ⟨h1, -⟩ <;> omega

/-! ### Degrees in the boundary graph -/

theorem bool_eq_decide (a : Bool) (p : Prop) [Decidable p] (h : a = true ↔ p) :
    a = decide p := by
  cases a
  · cases hd : decide p
    · rfl
    · rw [decide_eq_true_eq] at hd
      exact absurd (h.mpr hd) (by simp)
  · rw [decide_eq_true (h.mp rfl)]

theorem lookupAdj_mem (adj : Adj) (v : Point) (s : List Point)
    (h : lookupAdj adj v = some s) : (v, s) ∈ adj := by
  induction adj with
  | nil => simp [lookupAdj] at h
  | cons kv rest ih =>
    obtain ⟨k, s2⟩ := kv
    by_cases hk : k = v
    · subst hk
      simp [lookupAdj] at h
      subst h
      exact List.mem_cons_self _ _
    · simp only [lookupAdj, if_neg hk] at h
      exact List.mem_cons_of_mem _ (ih h)

theorem deg_buildAdj_even_le4 (m : Mask) (x y : Nat) (s : List Point)
    (hlk : lookupAdj (buildAdj m) (x, y) = some s) (hnd : s.Nodup) :
    s.length % 2 = 0 ∧ s.length ≤ 4 := by
  have hmem : ∀ u, u ∈ s ↔ hasEdge (buildAdj m) (x, y) u = true := by
    intro u
    unfold hasEdge
    rw [hlk]
    simp
  have hsub : ∀ u ∈ s,
      u ∈ ([(x+1, y), (x, y+1)] ++ (if 1 ≤ x then [(x-1, y)] else []) ++
        (if 1 ≤ y then [(x, y-1)] else [])) := by
    intro u hu
    have h := (hmem u).mp hu
    rcases hasEdge_adjacent m _ _ h with ⟨h1, h2⟩ | ⟨h1, h2⟩ | ⟨h1, h2⟩ | ⟨h1, h2⟩
    · have he : u = (x+1, y) := by rw [Prod.ext_iff]; exact ⟨h1, h2⟩
      simp [he]
    · have hx1 : 1 ≤ x := by omega
      have he : u = (x-1, y) := by rw [Prod.ext_iff]; constructor <;> omega
      simp [he, hx1]
    · have he : u = (x, y+1) := by rw [Prod.ext_iff]; exact ⟨h2, h1⟩
      simp [he]
    · have hy1 : 1 ≤ y := by omega
      have he : u = (x, y-1) := by rw [Prod.ext_iff]; constructor <;> omega
      simp [he, hy1]
  have hcnd : (([(x+1, y), (x, y+1)] ++ (if 1 ≤ x then [(x-1, y)] else []) ++
      (if 1 ≤ y then [(x, y-1)] else [])) : List Point).Nodup := by
    by_cases hx : 1 ≤ x <;> by_cases hy : 1 ≤ y <;>
      simp [hx, hy, Prod.ext_iff] <;> omega
  have hperm : s.Perm
      (([(x+1, y), (x, y+1)] ++ (if 1 ≤ x then [(x-1, y)] else []) ++
        (if 1 ≤ y then [(x, y-1)] else [])).filter
          (fun u => hasEdge (buildAdj m) (x, y) u)) := by
    rw [List.perm_ext_iff_of_nodup hnd (hcnd.filter _)]
    intro u
    rw [List.mem_filter]
    constructor
    · intro hu
      exact ⟨hsub u hu, (hmem u).mp hu⟩
    · rintro ⟨-, he⟩
      exact (hmem u).mpr he
  rw [hperm.length_eq]
  have hR : hasEdge (buildAdj m) (x, y) (x+1, y) =
      decide (pixAt m (x:Int) (y:Int) ≠ pixAt m (x:Int) ((y:Int) - 1)) :=
    bool_eq_decide _ _ (hseg_iff m x y)
  have hD : hasEdge (buildAdj m) (x, y) (x, y+1) =
      decide (pixAt m (x:Int) (y:Int) ≠ pixAt m ((x:Int) - 1) (y:Int)) :=
    bool_eq_decide _ _ (vseg_iff m x y)
  have hL : 1 ≤ x → hasEdge (buildAdj m) (x, y) (x-1, y) =
      decide (pixAt m ((x:Int) - 1) (y:Int) ≠ pixAt m ((x:Int) - 1) ((y:Int) - 1)) := by
    intro hx
    rw [hasEdge_buildAdj_symm]
    have h := hseg_iff m (x-1) y
    rw [(by omega : x - 1 + 1 = x)] at h
    rw [(by omega : ((x - 1 : Nat) : Int) = (x:Int) - 1)] at h
    exact bool_eq_decide _ _ h
  have hU : 1 ≤ y → hasEdge (buildAdj m) (x, y) (x, y-1) =
      decide (pixAt m (x:Int) ((y:Int) - 1) ≠ pixAt m ((x:Int) - 1) ((y:Int) - 1)) := by
    intro hy
    rw [hasEdge_buildAdj_symm]
    have h := vseg_iff m x (y-1)
    rw [(by omega : y - 1 + 1 = y)] at h
    rw [(by omega : ((y - 1 : Nat) : Int) = (y:Int) - 1)] at h
    exact bool_eq_decide _ _ h
  by_cases hx : 1 ≤ x <;> by_cases hy : 1 ≤ y
  · simp only [if_pos hx, if_pos hy, List.filter_append, List.filter_cons,
      List.filter_nil, hR, hD, hL hx, hU hy]
    cases pixAt m ((x:Int) - 1) ((y:Int) - 1) <;>
      cases pixAt m (x:Int) ((y:Int) - 1) <;>
        cases pixAt m ((x:Int) - 1) (y:Int) <;>
          cases pixAt m (x:Int) (y:Int) <;> simp
  · have hy0 : y = 0 := by omega
    have hA : pixAt m ((x:Int) - 1) ((y:Int) - 1) = false := by
      rw [pixAt_eq_false_iff]; rintro ⟨-, -, hgt, -⟩; omega
    have hB : pixAt m (x:Int) ((y:Int) - 1) = false := by
      rw [pixAt_eq_false_iff]; rintro ⟨-, -, hgt, -⟩; omega
    simp only [if_pos hx, if_neg hy, List.filter_append, List.filter_cons,
      List.filter_nil, hR, hD, hL hx, hA, hB]
    cases pixAt m ((x:Int) - 1) (y:Int) <;>
      cases pixAt m (x:Int) (y:Int) <;> simp
  · have hx0 : x = 0 := by omega
    have hA : pixAt m ((x:Int) - 1) ((y:Int) - 1) = false := by
      rw [pixAt_eq_false_iff]; rintro ⟨hgt, -⟩; omega
    have hC : pixAt m ((x:Int) - 1) (y:Int) = false := by
      rw [pixAt_eq_false_iff]; rintro ⟨hgt, -⟩; omega
    simp only [if_neg hx, if_pos hy, List.filter_append, List.filter_cons,
      List.filter_nil, hR, hD, hU hy, hA, hC]
    cases pixAt m (x:Int) ((y:Int) - 1) <;>
      cases pixAt m (x:Int) (y:Int) <;> simp
  · have hA : pixAt m ((x:Int) - 1) ((y:Int) - 1) = false := by
      rw [pixAt_eq_false_iff]; rintro ⟨hgt, -⟩; omega
    have hB : pixAt m (x:Int) ((y:Int) - 1) = false := by
      rw [pixAt_eq_false_iff]; rintro ⟨-, -, hgt, -⟩; omega
    have hC : pixAt m ((x:Int) - 1) (y:Int) = false := by
      rw [pixAt_eq_false_iff]; rintro ⟨hgt, -⟩; omega
    simp only [if_neg hx, if_neg hy, List.filter_append, List.filter_cons,
      List.filter_nil, hR, hD, hA, hB, hC]
    cases pixAt m (x:Int) (y:Int) <;> simp

/-- Every vertex of the boundary graph has even degree. -/
theorem deg_buildAdj_even (m : Mask) (v : Point) :
    deg (buildAdj m) v % 2 = 0 := by
  unfold deg
  cases hlk : lookupAdj (buildAdj m) v
  · simp
  · rename_i s
    obtain ⟨x, y⟩ := v
    have hnd : s.Nodup :=
      (WFS_buildAdj m).2.1 _ (lookupAdj_mem _ _ _ hlk)
    simpa using (deg_buildAdj_even_le4 m x y s hlk hnd).1

/-! ### Per-pixel side conditions -/

theorem pixAt_self_true (m : Mask) (x y : Nat) (hx : x < m.w) (hy : y < m.h)
    (hp : m.pix y x = true) : pixAt m (x:Int) (y:Int) = true := by
  rw [pixAt_eq_true_iff]
  refine ⟨by omega, by omega, by omega, by omega, ?_⟩
  rw [(by omega : ((y:Int)).toNat = y), (by omega : ((x:Int)).toNat = x)]
  exact hp

theorem pixAt_up_false_iff (m : Mask) (x y : Nat) (hx : x < m.w) (hy : y < m.h) :
    pixAt m (x:Int) ((y:Int) - 1) = false ↔ (y = 0 ∨ m.pix (y-1) x = false) := by
  constructor
  · intro h
    by_cases hy0 : y = 0
    · exact Or.inl hy0
    · right
      rw [pixAt_eq_false_iff] at h
      cases hp : m.pix (y-1) x
      · rfl
      · exact absurd ⟨by omega, by omega, by omega, by omega, by
          rw [(by omega : ((y:Int) - 1).toNat = y - 1),
            (by omega : ((x:Int)).toNat = x)]
          exact hp⟩ h
  · intro h
    rw [pixAt_eq_false_iff]
    rintro ⟨-, -, hge, -, hpix⟩
    rcases h with h0 | hf
    · omega
    · rw [(by omega : ((y:Int) - 1).toNat = y - 1),
        (by omega : ((x:Int)).toNat = x)] at hpix
      rw [hpix] at hf
      simp at hf

theorem pixAt_down_false_iff (m : Mask) (x y : Nat) (hx : x < m.w) (hy : y < m.h) :
    pixAt m (x:Int) ((y:Int) + 1) = false ↔
      (y = m.h - 1 ∨ m.pix (y+1) x = false) := by
  constructor
  · intro h
    by_cases hyh : y + 1 < m.h
    · right
      rw [pixAt_eq_false_iff] at h
      cases hp : m.pix (y+1) x
      · rfl
      · exact absurd ⟨by omega, by omega, by omega, by omega, by
          rw [(by omega : ((y:Int) + 1).toNat = y + 1),
            (by omega : ((x:Int)).toNat = x)]
          exact hp⟩ h
    · left; omega
  · intro h
    rw [pixAt_eq_false_iff]
    rintro ⟨-, -, -, hlt, hpix⟩
    rcases h with h0 | hf
    · omega
    · rw [(by omega : ((y:Int) + 1).toNat = y + 1),
        (by omega : ((x:Int)).toNat = x)] at hpix
      rw [hpix] at hf
      simp at hf

theorem pixAt_left_false_iff (m : Mask) (x y : Nat) (hx : x < m.w) (hy : y < m.h) :
    pixAt m ((x:Int) - 1) (y:Int) = false ↔ (x = 0 ∨ m.pix y (x-1) = false) := by
  constructor
  · intro h
    by_cases hx0 : x = 0
    · exact Or.inl hx0
    · right
      rw [pixAt_eq_false_iff] at h
      cases hp : m.pix y (x-1)
      · rfl
      · exact absurd ⟨by omega, by omega, by omega, by omega, by
          rw [(by omega : ((x:Int) - 1).toNat = x - 1),
            (by omega : ((y:Int)).toNat = y)]
          exact hp⟩ h
  · intro h
    rw [pixAt_eq_false_iff]
    rintro ⟨hge, -, -, -, hpix⟩
    rcases h with h0 | hf
    · omega
    · rw [(by omega : ((x:Int) - 1).toNat = x - 1),
        (by omega : ((y:Int)).toNat = y)] at hpix
      rw [hpix] at hf
      simp at hf

theorem pixAt_right_false_iff (m : Mask) (x y : Nat) (hx : x < m.w) (hy : y < m.h) :
    pixAt m ((x:Int) + 1) (y:Int) = false ↔
      (x = m.w - 1 ∨ m.pix y (x+1) = false) := by
  constructor
  · intro h
    by_cases hxw : x + 1 < m.w
    · right
      rw [pixAt_eq_false_iff] at h
      cases hp : m.pix y (x+1)
      · rfl
      · exact absurd ⟨by omega, by omega, by omega, by omega, by
          rw [(by omega : ((x:Int) + 1).toNat = x + 1),
            (by omega : ((y:Int)).toNat = y)]
          exact hp⟩ h
    · left; omega
  · intro h
    rw [pixAt_eq_false_iff]
    rintro ⟨-, hlt, -, -, hpix⟩
    rcases h with h0 | hf
    · omega
    · rw [(by omega : ((x:Int) + 1).toNat = x + 1),
        (by omega : ((y:Int)).toNat = y)] at hpix
      rw [hpix] at hf
      simp at hf

theorem true_ne_iff_false (b : Bool) : (true ≠ b) ↔ b = false := by
  cases b <;> simp

/-! ### Claim C1: exact edge set of the boundary graph -/

/-- C1.  For every mask with `H > 0` and `W > 0`, the boundary graph
contains exactly the edges on borders between a true pixel and a false or
out-of-bounds neighbour: the adjacency mapping is symmetric; for each true
pixel `(x, y)` the four sides are present precisely under the claimed
conditions; and every edge of the graph arises this way from some true
pixel (no other edges). -/
theorem C1_boundary_graph_edges (m : Mask) (_hh : 0 < m.h) (_hw : 0 < m.w) :
    (∀ u v, hasEdge (buildAdj m) u v = hasEdge (buildAdj m) v u) ∧
    (∀ x y, x < m.w → y < m.h → m.pix y x = true →
      (hasEdge (buildAdj m) (x, y) (x+1, y) = true ↔
        (y = 0 ∨ m.pix (y-1) x = false)) ∧
      (hasEdge (buildAdj m) (x+1, y+1) (x, y+1) = true ↔
        (y = m.h - 1 ∨ m.pix (y+1) x = false)) ∧
      (hasEdge (buildAdj m) (x, y+1) (x, y) = true ↔
        (x = 0 ∨ m.pix y (x-1) = false)) ∧
      (hasEdge (buildAdj m) (x+1, y) (x+1, y+1) = true ↔
        (x = m.w - 1 ∨ m.pix y (x+1) = false))) ∧
    (∀ u v, hasEdge (buildAdj m) u v = true →
      ∃ x y, y < m.h ∧ x < m.w ∧ pixContrib m x y u v = true) := by
  refine ⟨hasEdge_buildAdj_symm m, ?_, fun u v h => (hasEdge_buildAdj_iff m u v).mp h⟩
  intro x y hx hy hp
  have hT : pixAt m (x:Int) (y:Int) = true := pixAt_self_true m x y hx hy hp
  refine ⟨?_, ?_, ?_, ?_⟩
  · rw [hseg_iff, hT, true_ne_iff_false, pixAt_up_false_iff m x y hx hy]
  · rw [hasEdge_buildAdj_symm]
    have h := hseg_iff m x (y+1)
    rw [(by omega : (((y+1 : Nat)) : Int) = (y:Int) + 1)] at h
    rw [(by omega : ((y:Int) + 1) - 1 = (y:Int))] at h
    rw [h, hT, ne_comm, true_ne_iff_false, pixAt_down_false_iff m x y hx hy]
  · rw [hasEdge_buildAdj_symm]
    rw [vseg_iff, hT, true_ne_iff_false, pixAt_left_false_iff m x y hx hy]
  · have h := vseg_iff m (x+1) y
    rw [(by omega : (((x+1 : Nat)) : Int) = (x:Int) + 1)] at h
    rw [(by omega : ((x:Int) + 1) - 1 = (x:Int))] at h
    rw [h, hT, ne_comm, true_ne_iff_false, pixAt_right_false_iff m x y hx hy]

/-- Witness for C1 at the concrete 1×1 mask of one true pixel. -/
theorem C1_boundary_graph_edges_witness :
    0 < (maskOfRows [[true]]).h ∧ 0 < (maskOfRows [[true]]).w ∧
      (hasEdge (buildAdj (maskOfRows [[true]])) (0, 0) (1, 0) = true ↔
        ((0:Nat) = 0 ∨ (maskOfRows [[true]]).pix (0-1) 0 = false)) :=
  ⟨by decide, by decide,
    ((C1_boundary_graph_edges (maskOfRows [[true]]) (by decide) (by decide)).2.1
      0 0 (by decide) (by decide) (by decide)).1⟩

/-! ### Claim C6: even degrees -/

/-- C6.  In the boundary graph of any mask, every vertex that has any
neighbour has exactly 2 or 4 neighbours. -/
theorem C6_even_degree (m : Mask) (v : Point) (s : List Point)
    (hlk : lookupAdj (buildAdj m) v = some s) (hne : s ≠ []) :
    s.length = 2 ∨ s.length = 4 := by
  obtain ⟨x, y⟩ := v
  have hnd : s.Nodup := (WFS_buildAdj m).2.1 _ (lookupAdj_mem _ _ _ hlk)
  have h := deg_buildAdj_even_le4 m x y s hlk hnd
  have hpos : 0 < s.length := List.length_pos.mpr hne
  omega

/-- Witness for C6 at the 1×1 mask: vertex `(0,0)` has 2 neighbours. -/
theorem C6_even_degree_witness :
    lookupAdj (buildAdj (maskOfRows [[true]])) (0, 0) = some [(1, 0), (0, 1)] ∧
      (([(1, 0), (0, 1)] : List Point).length = 2 ∨
        ([(1, 0), (0, 1)] : List Point).length = 4) :=
  ⟨by decide, C6_even_degree (maskOfRows [[true]]) (0, 0) [(1, 0), (0, 1)]
    (by decide) (by decide)⟩

/-! ### The lexicographic order and `sorted(...)[0]` -/

theorem ptLe_iff (a b : Point) :
    ptLe a b = true ↔ (a.1 < b.1 ∨ (a.1 = b.1 ∧ a.2 ≤ b.2)) := by
  simp [ptLe]

theorem ptLe_refl (a : Point) : ptLe a a = true := by
  rw [ptLe_iff]; omega

theorem ptLe_total (a b : Point) : ptLe a b = true ∨ ptLe b a = true := by
  rw [ptLe_iff, ptLe_iff]; omega

theorem ptLe_antisymm (a b : Point) (h1 : ptLe a b = true) (h2 : ptLe b a = true) :
    a = b := by
  rw [ptLe_iff] at h1 h2
  rw [Prod.ext_iff]
  omega

theorem ptLe_trans (a b c : Point) (h1 : ptLe a b = true) (h2 : ptLe b c = true) :
    ptLe a c = true := by
  rw [ptLe_iff] at h1 h2 ⊢
  omega

theorem foldlMin_spec (xs : List Point) : ∀ a : Point,
    (xs.foldl (fun acc p => if ptLe p acc then p else acc) a) ∈ a :: xs ∧
    ptLe (xs.foldl (fun acc p => if ptLe p acc then p else acc) a) a = true ∧
    ∀ q ∈ xs, ptLe (xs.foldl (fun acc p => if ptLe p acc then p else acc) a) q = true := by
  induction xs with
  | nil => exact fun a => ⟨List.mem_cons_self _ _, ptLe_refl a, by simp⟩
  | cons b xs ih =>
    intro a
    simp only [List.foldl_cons]
    obtain ⟨hmem, hle, hall⟩ := ih (if ptLe b a then b else a)
    by_cases hba : ptLe b a = true
    · rw [if_pos hba] at hmem hle hall ⊢
      refine ⟨List.mem_cons_of_mem _ hmem, ptLe_trans _ _ _ hle hba, ?_⟩
      intro q hq
      rcases List.mem_cons.mp hq with rfl | hq2
      · exact hle
      · exact hall q hq2
    · rw [if_neg hba] at hmem hle hall ⊢
      have hab : ptLe a b = true := by
        rcases ptLe_total a b with h | h
        · exact h
        · exact absurd h hba
      refine ⟨?_, hle, ?_⟩
      · rcases List.mem_cons.mp hmem with h | h
        · rw [h]; exact List.mem_cons_self _ _
        · exact List.mem_cons_of_mem _ (List.mem_cons_of_mem _ h)
      · intro q hq
        rcases List.mem_cons.mp hq with rfl | hq2
        · exact ptLe_trans _ _ _ hle hab
        · exact hall q hq2

theorem listMin_spec (l : List Point) (hne : l ≠ []) :
    ∃ p, listMin l = some p ∧ p ∈ l ∧ ∀ q ∈ l, ptLe p q = true := by
  cases l with
  | nil => exact absurd rfl hne
  | cons a xs =>
    obtain ⟨hmem, hle, hall⟩ := foldlMin_spec xs a
    refine ⟨_, rfl, hmem, ?_⟩
    intro q hq
    rcases List.mem_cons.mp hq with rfl | hq2
    · exact hle
    · exact hall q hq2

theorem listMin_eq_some (l : List Point) (p : Point) (hmem : p ∈ l)
    (hall : ∀ q ∈ l, ptLe p q = true) : listMin l = some p := by
  obtain ⟨p2, heq, hmem2, hall2⟩ := listMin_spec l (by rintro rfl; simp at hmem)
  rw [heq]
  exact congrArg some (ptLe_antisymm p2 p (hall2 p hmem) (hall p2 hmem2))

theorem listMin_mem (l : List Point) (p : Point) (h : listMin l = some p) :
    p ∈ l := by
  cases l with
  | nil => simp [listMin] at h
  | cons a xs =>
    obtain ⟨hmem, -, -⟩ := foldlMin_spec xs a
    simp only [listMin, Option.some.injEq] at h
    exact h ▸ hmem

theorem listMin_le (l : List Point) (p : Point) (h : listMin l = some p) :
    ∀ q ∈ l, ptLe p q = true := by
  cases l with
  | nil => simp [listMin] at h
  | cons a xs =>
    obtain ⟨-, hle, hall⟩ := foldlMin_spec xs a
    simp only [listMin, Option.some.injEq] at h
    subst h
    intro q hq
    rcases List.mem_cons.mp hq with rfl | hq2
    · exact hle
    · exact hall q hq2

theorem sortPair_eq_iff (u v a b : Point) (hab : a ≠ b) :
    sortPair (u, v) = sortPair (a, b) ↔ ((u = a ∧ v = b) ∨ (u = b ∧ v = a)) := by
  unfold sortPair
  constructor
  · intro h
    split at h <;> split at h <;>
      simp only [Prod.mk.injEq] at h <;> tauto
  · rintro (⟨h1, h2⟩ | ⟨h1, h2⟩) <;> subst h1 <;> subst h2
    · rfl
    · dsimp only
      split <;> split
      · rename_i h1 h2
        exact absurd (ptLe_antisymm _ _ h2 h1) hab
      · rfl
      · rfl
      · rename_i h1 h2
        rcases ptLe_total u v with h | h
        · exact absurd h h1
        · exact absurd h h2

theorem hasEdge_sortPair (adj : Adj) (u v : Point)
    (hs : ∀ a b, hasEdge adj a b = hasEdge adj b a) :
    hasEdge adj (sortPair (u, v)).1 (sortPair (u, v)).2 = hasEdge adj u v := by
  unfold sortPair
  split
  · rfl
  · exact (hs u v).symm

/-! ### Edge removal -/

theorem lookupAdj_eq_none (adj : Adj) (v : Point) (h : v ∉ adj.map Prod.fst) :
    lookupAdj adj v = none := by
  induction adj with
  | nil => rfl
  | cons kv rest ih =>
    obtain ⟨k, s⟩ := kv
    simp only [List.map_cons, List.mem_cons] at h
    push_neg at h
    have hk : ¬ (k = v) := fun he => h.1 he.symm
    simp only [lookupAdj, if_neg hk]
    exact ih h.2

theorem setRemoveDel_cons_self_empty (k u : Point) (s : List Point)
    (rest : Adj) (hemp : s.filter (fun p => p ≠ u) = []) :
    setRemoveDel ((k, s) :: rest) k u = rest := by
  simp only [setRemoveDel]
  rw [if_pos trivial]
  rw [if_pos hemp]

theorem setRemoveDel_cons_self_ne (k u : Point) (s : List Point)
    (rest : Adj) (hemp : ¬ s.filter (fun p => p ≠ u) = []) :
    setRemoveDel ((k, s) :: rest) k u = (k, s.filter (fun p => p ≠ u)) :: rest := by
  simp only [setRemoveDel]
  rw [if_pos trivial]
  rw [if_neg hemp]

theorem setRemoveDel_cons_other (k v u : Point) (s : List Point)
    (rest : Adj) (hk : ¬ k = v) :
    setRemoveDel ((k, s) :: rest) v u = (k, s) :: setRemoveDel rest v u := by
  simp only [setRemoveDel]
  rw [if_neg hk]

theorem lookupAdj_setRemoveDel_ne (adj : Adj) (v u x : Point) (hx : x ≠ v) :
    lookupAdj (setRemoveDel adj v u) x = lookupAdj adj x := by
  induction adj with
  | nil => rfl
  | cons kv rest ih =>
    obtain ⟨k, s⟩ := kv
    by_cases hk : k = v
    · subst hk
      have hkx : ¬ (k = x) := fun he => hx he.symm
      by_cases hemp : s.filter (fun p => p ≠ u) = []
      · rw [setRemoveDel_cons_self_empty k u s rest hemp, lookupAdj, if_neg hkx]
      · rw [setRemoveDel_cons_self_ne k u s rest hemp, lookupAdj, if_neg hkx,
          lookupAdj, if_neg hkx]
    · rw [setRemoveDel_cons_other k v u s rest hk]
      by_cases hkx : k = x
      · subst hkx
        rw [lookupAdj, if_pos rfl, lookupAdj, if_pos rfl]
      · rw [lookupAdj, if_neg hkx, lookupAdj, if_neg hkx]
        exact ih

theorem lookupAdj_setRemoveDel_self (adj : Adj) (v u : Point)
    (hk : (adj.map Prod.fst).Nodup) :
    lookupAdj (setRemoveDel adj v u) v =
      match lookupAdj adj v with
      | none => none
      | some s =>
        if s.filter (fun p => p ≠ u) = [] then none
        else some (s.filter (fun p => p ≠ u)) := by
  induction adj with
  | nil => rfl
  | cons kv rest ih =>
    obtain ⟨k, s⟩ := kv
    simp only [List.map_cons, List.nodup_cons] at hk
    by_cases hkv : k = v
    · subst hkv
      have hsc : lookupAdj ((k, s) :: rest) k = some s := by
        rw [lookupAdj, if_pos rfl]
      rw [hsc]
      dsimp only
      by_cases hemp : s.filter (fun p => p ≠ u) = []
      · rw [setRemoveDel_cons_self_empty k u s rest hemp,
          lookupAdj_eq_none rest k hk.1, if_pos hemp]
      · rw [setRemoveDel_cons_self_ne k u s rest hemp, lookupAdj, if_pos rfl,
          if_neg hemp]
    · rw [setRemoveDel_cons_other k v u s rest hkv, lookupAdj, if_neg hkv,
        lookupAdj, if_neg hkv]
      exact ih hk.2

theorem keys_setRemoveDel_sublist (adj : Adj) (v u : Point) :
    ((setRemoveDel adj v u).map Prod.fst).Sublist (adj.map Prod.fst) := by
  induction adj with
  | nil => exact List.Sublist.refl _
  | cons kv rest ih =>
    obtain ⟨k, s⟩ := kv
    by_cases hk : k = v
    · subst hk
      by_cases hemp : s.filter (fun p => p ≠ u) = []
      · rw [setRemoveDel_cons_self_empty k u s rest hemp]
        exact (List.Sublist.refl _).trans (List.sublist_cons_self _ _)
      · rw [setRemoveDel_cons_self_ne k u s rest hemp]
        simp only [List.map_cons]
        exact (List.Sublist.refl _).cons₂ k
    · rw [setRemoveDel_cons_other k v u s rest hk]
      simp only [List.map_cons]
      exact ih.cons₂ k

theorem mem_setRemoveDel_cases (adj : Adj) (v u : Point) (kv : Point × List Point)
    (h : kv ∈ setRemoveDel adj v u) :
    kv ∈ adj ∨ ∃ s, (v, s) ∈ adj ∧ kv = (v, s.filter (fun p => p ≠ u)) ∧
      s.filter (fun p => p ≠ u) ≠ [] := by
  induction adj with
  | nil => simp [setRemoveDel] at h
  | cons kv2 rest ih =>
    obtain ⟨k, s⟩ := kv2
    by_cases hk : k = v
    · subst hk
      by_cases hemp : s.filter (fun p => p ≠ u) = []
      · rw [setRemoveDel_cons_self_empty k u s rest hemp] at h
        left; exact List.mem_cons_of_mem _ h
      · rw [setRemoveDel_cons_self_ne k u s rest hemp] at h
        rcases List.mem_cons.mp h with rfl | hmem
        · right
          exact ⟨s, List.mem_cons_self _ _, rfl, hemp⟩
        · left; exact List.mem_cons_of_mem _ hmem
    · rw [setRemoveDel_cons_other k v u s rest hk] at h
      rcases List.mem_cons.mp h with rfl | hmem
      · left; exact List.mem_cons_self _ _
      · rcases ih hmem with hin | ⟨s2, hs2, heq, hne⟩
        · left; exact List.mem_cons_of_mem _ hin
        · right; exact ⟨s2, List.mem_cons_of_mem _ hs2, heq, hne⟩

theorem WFS_setRemoveDel (adj : Adj) (v u : Point) (h : WFS adj) :
    WFS (setRemoveDel adj v u) := by
  obtain ⟨hkeys, hvals, hne⟩ := h
  refine ⟨(keys_setRemoveDel_sublist adj v u).nodup hkeys, ?_, ?_⟩
  · intro kv hkv
    rcases mem_setRemoveDel_cases adj v u kv hkv with hin | ⟨s, hs, rfl, -⟩
    · exact hvals kv hin
    · exact (hvals _ hs).filter _
  · intro kv hkv
    rcases mem_setRemoveDel_cases adj v u kv hkv with hin | ⟨s, hs, rfl, hne2⟩
    · exact hne kv hin
    · exact hne2

theorem hasEdge_setRemoveDel_iff (adj : Adj) (w z u v : Point)
    (hk : (adj.map Prod.fst).Nodup) :
    hasEdge (setRemoveDel adj w z) u v = true ↔
      (hasEdge adj u v = true ∧ ¬(u = w ∧ v = z)) := by
  by_cases hu : u = w
  · subst hu
    unfold hasEdge
    rw [lookupAdj_setRemoveDel_self adj u z hk]
    cases hl : lookupAdj adj u
    · simp
    · rename_i s
      dsimp only
      by_cases hempty : s.filter (fun p => p ≠ z) = []
      · rw [if_pos hempty]
        simp only [Bool.false_eq_true, false_iff, decide_eq_true_eq]
        rintro ⟨hmem, hne⟩
        have hvz : v ≠ z := fun he => hne ⟨by trivial, he⟩
        have hmf : v ∈ s.filter (fun p => p ≠ z) := by
          rw [List.mem_filter]
          exact ⟨hmem, decide_eq_true hvz⟩
        rw [hempty] at hmf
        exact absurd hmf (List.not_mem_nil v)
      · rw [if_neg hempty]
        simp only [decide_eq_true_eq, List.mem_filter]
        constructor
        · rintro ⟨hmem, hvz⟩
          exact ⟨hmem, by rintro ⟨-, rfl⟩; exact hvz rfl⟩
        · rintro ⟨hmem, hne⟩
          have hvz : v ≠ z := fun he => hne ⟨by trivial, he⟩
          exact ⟨hmem, hvz⟩
  · unfold hasEdge
    rw [lookupAdj_setRemoveDel_ne adj w z u hu]
    have hnc : ¬(u = w ∧ v = z) := fun hc => hu hc.1
    simp [hnc]

theorem hasEdge_popEdge_iff (adj : Adj) (a b u v : Point)
    (hk : (adj.map Prod.fst).Nodup) :
    hasEdge (popEdge adj a b) u v = true ↔
      (hasEdge adj u v = true ∧ ¬(u = a ∧ v = b) ∧ ¬(u = b ∧ v = a)) := by
  unfold popEdge
  rw [hasEdge_setRemoveDel_iff _ _ _ _ _
    ((keys_setRemoveDel_sublist adj a b).nodup hk)]
  rw [hasEdge_setRemoveDel_iff _ _ _ _ _ hk]
  tauto

theorem WFG_popEdge (adj : Adj) (a b : Point) (h : WFG adj) :
    WFG (popEdge adj a b) := by
  obtain ⟨hs, hsymm, hirr⟩ := h
  have hk := hs.1
  refine ⟨WFS_setRemoveDel _ _ _ (WFS_setRemoveDel _ _ _ hs), ?_, ?_⟩
  · intro u v
    cases he1 : hasEdge (popEdge adj a b) u v
    · cases he2 : hasEdge (popEdge adj a b) v u
      · rfl
      · exfalso
        obtain ⟨hE, hn1, hn2⟩ := (hasEdge_popEdge_iff adj a b v u hk).mp he2
        have hcontra : hasEdge (popEdge adj a b) u v = true :=
          (hasEdge_popEdge_iff adj a b u v hk).mpr
            ⟨by rw [hsymm u v]; exact hE, by tauto, by tauto⟩
        rw [he1] at hcontra
        exact Bool.noConfusion hcontra
    · cases he2 : hasEdge (popEdge adj a b) v u
      · exfalso
        obtain ⟨hE, hn1, hn2⟩ := (hasEdge_popEdge_iff adj a b u v hk).mp he1
        have hcontra : hasEdge (popEdge adj a b) v u = true :=
          (hasEdge_popEdge_iff adj a b v u hk).mpr
            ⟨by rw [hsymm v u]; exact hE, by tauto, by tauto⟩
        rw [he2] at hcontra
        exact Bool.noConfusion hcontra
      · rfl
  · intro v
    cases he : hasEdge (popEdge adj a b) v v
    · rfl
    · exfalso
      obtain ⟨hE, -, -⟩ := (hasEdge_popEdge_iff adj a b v v hk).mp he
      rw [hirr v] at hE
      exact Bool.noConfusion hE

/-! ### Degree and size bookkeeping for edge removal -/

theorem length_filter_ne_of_mem (s : List Point) (b : Point) (hnd : s.Nodup)
    (hb : b ∈ s) :
    (s.filter (fun p => p ≠ b)).length = s.length - 1 := by
  induction s with
  | nil => simp at hb
  | cons a s ih =>
    rw [List.nodup_cons] at hnd
    by_cases hab : a = b
    · subst hab
      rw [List.filter_cons_of_neg (by simp)]
      rw [List.filter_eq_self.mpr]
      · simp
      · intro p hp
        simp only [decide_eq_true_eq]
        rintro rfl
        exact hnd.1 hp
    · have hb2 : b ∈ s := by
        rcases List.mem_cons.mp hb with rfl | h
        · exact absurd rfl hab
        · exact h
      rw [List.filter_cons_of_pos (by simpa using hab)]
      have hlen : 1 ≤ s.length := List.length_pos.mpr (by rintro rfl; simp at hb2)
      simp only [List.length_cons, ih hnd.2 hb2]
      omega

theorem length_filter_ne_lt_of_mem (s : List Point) (b : Point) (hb : b ∈ s) :
    (s.filter (fun p => p ≠ b)).length < s.length := by
  rcases Nat.lt_or_ge (s.filter (fun p => p ≠ b)).length s.length with h | h
  · exact h
  · exfalso
    have hsub := List.filter_sublist (l := s) (p := fun p => p ≠ b)
    have heq : s.filter (fun p => p ≠ b) = s :=
      hsub.eq_of_length (Nat.le_antisymm hsub.length_le h)
    have : b ∈ s.filter (fun p => p ≠ b) := heq.symm ▸ hb
    rw [List.mem_filter] at this
    simp at this

theorem deg_of_lookup (adj : Adj) (v : Point) (s : List Point)
    (h : lookupAdj adj v = some s) : deg adj v = s.length := by
  unfold deg
  rw [h]
  rfl

theorem deg_of_lookup_none (adj : Adj) (v : Point)
    (h : lookupAdj adj v = none) : deg adj v = 0 := by
  unfold deg
  rw [h]
  rfl

theorem deg_after_remove (adj : Adj) (v u : Point) (s : List Point)
    (hk : (adj.map Prod.fst).Nodup) (hlk : lookupAdj adj v = some s)
    (hnd : s.Nodup) (hu : u ∈ s) :
    deg (setRemoveDel adj v u) v = deg adj v - 1 := by
  unfold deg
  rw [lookupAdj_setRemoveDel_self adj v u hk, hlk]
  dsimp only
  by_cases hemp : s.filter (fun p => p ≠ u) = []
  · rw [if_pos hemp]
    simp only [Option.getD_none, List.length_nil, Option.getD_some]
    have h2 := length_filter_ne_of_mem s u hnd hu
    rw [hemp] at h2
    simpa using h2
  · rw [if_neg hemp]
    simp only [Option.getD_some]
    exact length_filter_ne_of_mem s u hnd hu

theorem deg_popEdge_fst (adj : Adj) (a b : Point) (s : List Point)
    (hk : (adj.map Prod.fst).Nodup)
    (hvals : ∀ kv ∈ adj, (kv.2 : List Point).Nodup)
    (hab : a ≠ b) (hlk : lookupAdj adj a = some s) (hb : b ∈ s) :
    deg (popEdge adj a b) a = deg adj a - 1 := by
  unfold popEdge deg
  rw [lookupAdj_setRemoveDel_ne _ _ _ _ hab]
  have h := deg_after_remove adj a b s hk hlk (hvals _ (lookupAdj_mem _ _ _ hlk)) hb
  unfold deg at h
  exact h

theorem deg_popEdge_snd (adj : Adj) (a b : Point) (s : List Point)
    (hk : (adj.map Prod.fst).Nodup)
    (hvals : ∀ kv ∈ adj, (kv.2 : List Point).Nodup)
    (hab : a ≠ b) (hlk : lookupAdj adj b = some s) (ha : a ∈ s) :
    deg (popEdge adj a b) b = deg adj b - 1 := by
  unfold popEdge
  have hlk2 : lookupAdj (setRemoveDel adj a b) b = some s := by
    rw [lookupAdj_setRemoveDel_ne _ _ _ _ (Ne.symm hab)]
    exact hlk
  have hk2 : ((setRemoveDel adj a b).map Prod.fst).Nodup :=
    (keys_setRemoveDel_sublist adj a b).nodup hk
  have hnd : s.Nodup := hvals _ (lookupAdj_mem _ _ _ hlk)
  have h := deg_after_remove (setRemoveDel adj a b) b a s hk2 hlk2 hnd ha
  rw [h]
  unfold deg
  rw [lookupAdj_setRemoveDel_ne _ _ _ _ (Ne.symm hab)]

theorem deg_popEdge_other (adj : Adj) (a b x : Point) (hxa : x ≠ a) (hxb : x ≠ b) :
    deg (popEdge adj a b) x = deg adj x := by
  unfold popEdge deg
  rw [lookupAdj_setRemoveDel_ne _ _ _ _ hxb, lookupAdj_setRemoveDel_ne _ _ _ _ hxa]

theorem totalSize_setRemoveDel_le (adj : Adj) (v u : Point) :
    totalSize (setRemoveDel adj v u) ≤ totalSize adj := by
  induction adj with
  | nil => exact Nat.le_refl _
  | cons kv rest ih =>
    obtain ⟨k, s⟩ := kv
    by_cases hk : k = v
    · subst hk
      by_cases hemp : s.filter (fun p => p ≠ u) = []
      · rw [setRemoveDel_cons_self_empty k u s rest hemp]
        unfold totalSize
        simp only [List.map_cons, List.sum_cons]
        omega
      · rw [setRemoveDel_cons_self_ne k u s rest hemp]
        unfold totalSize
        simp only [List.map_cons, List.sum_cons]
        have := (List.filter_sublist (l := s) (p := fun p => p ≠ u)).length_le
        omega
    · rw [setRemoveDel_cons_other k v u s rest hk]
      unfold totalSize at ih ⊢
      simp only [List.map_cons, List.sum_cons]
      omega

theorem totalSize_setRemoveDel_lt (adj : Adj) (v u : Point) (s : List Point)
    (hlk : lookupAdj adj v = some s) (hu : u ∈ s) :
    totalSize (setRemoveDel adj v u) < totalSize adj := by
  induction adj with
  | nil => simp [lookupAdj] at hlk
  | cons kv rest ih =>
    obtain ⟨k, s2⟩ := kv
    by_cases hk : k = v
    · subst hk
      have hs2 : s2 = s := by
        rw [lookupAdj, if_pos rfl] at hlk
        exact Option.some.inj hlk
      subst hs2
      have hlt := length_filter_ne_lt_of_mem s2 u hu
      by_cases hemp : s2.filter (fun p => p ≠ u) = []
      · rw [setRemoveDel_cons_self_empty k u s2 rest hemp]
        unfold totalSize
        simp only [List.map_cons, List.sum_cons]
        have hpos : 0 < s2.length := List.length_pos.mpr (by rintro rfl; simp at hu)
        omega
      · rw [setRemoveDel_cons_self_ne k u s2 rest hemp]
        unfold totalSize
        simp only [List.map_cons, List.sum_cons]
        omega
    · have hlk2 : lookupAdj rest v = some s := by
        rw [lookupAdj, if_neg hk] at hlk
        exact hlk
      rw [setRemoveDel_cons_other k v u s2 rest hk]
      have := ih hlk2
      unfold totalSize at this ⊢
      simp only [List.map_cons, List.sum_cons]
      omega

theorem totalSize_popEdge_lt (adj : Adj) (a b : Point) (s : List Point)
    (hlk : lookupAdj adj a = some s) (hb : b ∈ s) :
    totalSize (popEdge adj a b) < totalSize adj := by
  unfold popEdge
  exact Nat.lt_of_le_of_lt (totalSize_setRemoveDel_le _ _ _)
    (totalSize_setRemoveDel_lt adj a b s hlk hb)

/-! ### The walk: edge accounting -/

theorem candsOf_subset (prev : Option Point) (nbrs : List Point) :
    ∀ p ∈ candsOf prev nbrs, p ∈ nbrs := by
  intro p hp
  cases prev with
  | none => exact hp
  | some q => exact (List.mem_filter.mp hp).1

theorem hasEdge_of_lookup_mem (adj : Adj) (u v : Point) (s : List Point)
    (hlk : lookupAdj adj u = some s) (hv : v ∈ s) : hasEdge adj u v = true := by
  unfold hasEdge
  rw [hlk]
  exact decide_eq_true hv

theorem ne_of_hasEdge (adj : Adj) (u v : Point) (hwf : WFG adj)
    (h : hasEdge adj u v = true) : u ≠ v := by
  rintro rfl
  rw [hwf.2.2 u] at h
  exact Bool.noConfusion h

theorem walk_ok_spec (fuel : Nat) :
    ∀ (adj : Adj) (start : Point) (prev : Option Point) (current : Point)
      (acc res : List Point) (adj2 : Adj),
    WFG adj →
    walk fuel adj start prev current acc = .ok (res, adj2) →
    ∃ tl, res = acc ++ tl ∧ WFG adj2 ∧
      (((current :: tl).zip (tl ++ [start])).map sortPair).Nodup ∧
      (∀ e ∈ ((current :: tl).zip (tl ++ [start])).map sortPair,
        hasEdge adj e.1 e.2 = true) ∧
      (∀ u v, hasEdge adj2 u v = true ↔
        (hasEdge adj u v = true ∧
          sortPair (u, v) ∉ ((current :: tl).zip (tl ++ [start])).map sortPair)) := by
  induction fuel with
  | zero =>
    intro adj start prev current acc res adj2 hwf h
    simp [walk] at h
  | succ fuel ih =>
    intro adj start prev current acc res adj2 hwf h
    rw [walk] at h
    cases hl : lookupAdj adj current
    · rw [hl] at h; simp at h
    · rename_i nbrs
      rw [hl] at h
      dsimp only at h
      cases hm : listMin (candsOf prev nbrs)
      · rw [hm] at h; simp at h
      · rename_i nextV
        rw [hm] at h
        dsimp only at h
        have hmem : nextV ∈ nbrs := candsOf_subset prev nbrs nextV (listMin_mem _ _ hm)
        have hE : hasEdge adj current nextV = true := hasEdge_of_lookup_mem adj _ _ _ hl hmem
        have hcn : current ≠ nextV := ne_of_hasEdge adj _ _ hwf hE
        have hwf2 : WFG (popEdge adj current nextV) := WFG_popEdge adj _ _ hwf
        have hkeys : (adj.map Prod.fst).Nodup := hwf.1.1
        by_cases hns : nextV = start
        · subst hns
          rw [if_pos rfl] at h
          simp only [Except.ok.injEq, Prod.mk.injEq] at h
          obtain ⟨hres, hadj⟩ := h
          refine ⟨[], by simp [hres.symm], hadj ▸ hwf2, ?_, ?_, ?_⟩
          · simp
          · intro e he
            simp only [List.zip_cons_cons, List.zip_nil_left, List.map_cons,
              List.map_nil, List.mem_singleton, List.nil_append] at he
            subst he
            rw [hasEdge_sortPair adj current nextV hwf.2.1]
            exact hE
          · intro u v
            rw [← hadj]
            rw [hasEdge_popEdge_iff adj current nextV u v hkeys]
            simp only [List.zip_cons_cons, List.zip_nil_left, List.map_cons,
              List.map_nil, List.mem_singleton, List.nil_append]
            rw [sortPair_eq_iff u v current nextV hcn]
            tauto
        · rw [if_neg hns] at h
          obtain ⟨tl2, hres, hwf3, hnd2, hmem2, hrem2⟩ :=
            ih (popEdge adj current nextV) start (some current) nextV
              (acc ++ [nextV]) res adj2 hwf2 h
          refine ⟨nextV :: tl2, by simpa using hres, hwf3, ?_, ?_, ?_⟩
          · simp only [List.zip_cons_cons, List.map_cons, List.nodup_cons,
              List.cons_append]
            constructor
            · intro hc
              have hE2 := hmem2 _ hc
              rw [hasEdge_sortPair _ current nextV hwf2.2.1] at hE2
              rw [hasEdge_popEdge_iff adj current nextV current nextV hkeys] at hE2
              exact hE2.2.1 ⟨rfl, rfl⟩
            · exact hnd2
          · intro e he
            simp only [List.zip_cons_cons, List.map_cons, List.mem_cons,
              List.cons_append] at he
            rcases he with rfl | he2
            · rw [hasEdge_sortPair adj current nextV hwf.2.1]
              exact hE
            · have hE2 := hmem2 _ he2
              obtain ⟨u2, v2, hzip⟩ : ∃ u2 v2, e = sortPair (u2, v2) := by
                rcases List.mem_map.mp he2 with ⟨p, -, hp⟩
                exact ⟨p.1, p.2, hp.symm⟩
              rw [hzip] at hE2 ⊢
              rw [hasEdge_sortPair _ u2 v2 hwf2.2.1] at hE2
              rw [hasEdge_popEdge_iff adj current nextV u2 v2 hkeys] at hE2
              rw [hasEdge_sortPair adj u2 v2 hwf.2.1]
              exact hE2.1
          · intro u v
            rw [hrem2 u v]
            rw [hasEdge_popEdge_iff adj current nextV u v hkeys]
            simp only [List.zip_cons_cons, List.map_cons, List.mem_cons,
              List.cons_append]
            rw [sortPair_eq_iff u v current nextV hcn]
            tauto

/-! ### The walk: termination and success under even degrees -/

theorem walk_size_lt (fuel : Nat) :
    ∀ (adj : Adj) (start : Point) (prev : Option Point) (current : Point)
      (acc res : List Point) (adj2 : Adj),
    walk fuel adj start prev current acc = .ok (res, adj2) →
    totalSize adj2 < totalSize adj := by
  induction fuel with
  | zero =>
    intro adj start prev current acc res adj2 h
    simp [walk] at h
  | succ fuel ih =>
    intro adj start prev current acc res adj2 h
    rw [walk] at h
    cases hl : lookupAdj adj current
    · rw [hl] at h; simp at h
    · rename_i nbrs
      rw [hl] at h
      dsimp only at h
      cases hm : listMin (candsOf prev nbrs)
      · rw [hm] at h; simp at h
      · rename_i nextV
        rw [hm] at h
        dsimp only at h
        have hmem : nextV ∈ nbrs := candsOf_subset prev nbrs nextV (listMin_mem _ _ hm)
        have hlt : totalSize (popEdge adj current nextV) < totalSize adj :=
          totalSize_popEdge_lt adj current nextV nbrs hl hmem
        by_cases hns : nextV = start
        · rw [if_pos hns] at h
          simp only [Except.ok.injEq, Prod.mk.injEq] at h
          rw [← h.2]
          exact hlt
        · rw [if_neg hns] at h
          exact Nat.lt_trans (ih _ _ _ _ _ _ _ h) hlt

theorem deg_pos_lookup (adj : Adj) (v : Point) (h : 0 < deg adj v) :
    ∃ s, lookupAdj adj v = some s ∧ s ≠ [] := by
  unfold deg at h
  cases hl : lookupAdj adj v
  · rw [hl] at h; simp at h
  · rename_i s
    rw [hl] at h
    refine ⟨s, rfl, ?_⟩
    simp only [Option.getD_some] at h
    exact fun he => by simp [he] at h

theorem hasEdge_lookup (adj : Adj) (u v : Point) (h : hasEdge adj u v = true) :
    ∃ s, lookupAdj adj u = some s ∧ v ∈ s := by
  unfold hasEdge at h
  cases hl : lookupAdj adj u
  · rw [hl] at h; simp at h
  · rename_i s
    rw [hl] at h
    exact ⟨s, rfl, of_decide_eq_true h⟩

theorem walk_ok_exists (fuel : Nat) :
    ∀ (adj : Adj) (start : Point) (prev : Option Point) (current : Point)
      (acc : List Point),
    totalSize adj < fuel → WFG adj →
    ((prev = none ∧ current = start ∧ 0 < deg adj start ∧ (∀ w, deg adj w % 2 = 0))
      ∨ (∃ p, prev = some p ∧ current ≠ start ∧ hasEdge adj current p = false ∧
          (∀ w, deg adj w % 2 = 1 ↔ (w = start ∨ w = current)))) →
    ∃ res adj2, walk fuel adj start prev current acc = .ok (res, adj2) ∧
      WFG adj2 ∧ (∀ w, deg adj2 w % 2 = 0) := by
  induction fuel with
  | zero =>
    intro adj start prev current acc hfuel hwf hinv
    omega
  | succ fuel ih =>
    intro adj start prev current acc hfuel hwf hinv
    have hkeys : (adj.map Prod.fst).Nodup := hwf.1.1
    have hvals : ∀ kv ∈ adj, (kv.2 : List Point).Nodup := hwf.1.2.1
    -- the current vertex always has a nonempty neighbour set
    have hdegcur : 0 < deg adj current := by
      rcases hinv with ⟨-, rfl, hdeg, -⟩ | ⟨p, -, -, -, hpar⟩
      · exact hdeg
      · have hodd := (hpar current).mpr (Or.inr rfl)
        omega
    obtain ⟨nbrs, hl, hnbne⟩ := deg_pos_lookup adj current hdegcur
    have hcands : candsOf prev nbrs = nbrs := by
      rcases hinv with ⟨rfl, -⟩ | ⟨p, rfl, -, hnoback, -⟩
      · rfl
      · unfold candsOf
        rw [List.filter_eq_self]
        intro n hn
        simp only [decide_eq_true_eq]
        rintro rfl
        rw [hasEdge_of_lookup_mem adj current n nbrs hl hn] at hnoback
        exact Bool.noConfusion hnoback
    obtain ⟨nextV, hm, hminmem, -⟩ := listMin_spec nbrs hnbne
    have hmin : listMin (candsOf prev nbrs) = some nextV := by rw [hcands]; exact hm
    have hE : hasEdge adj current nextV = true :=
      hasEdge_of_lookup_mem adj _ _ _ hl hminmem
    have hcn : current ≠ nextV := ne_of_hasEdge adj _ _ hwf hE
    have hErev : hasEdge adj nextV current = true := by
      rw [hwf.2.1 nextV current]; exact hE
    obtain ⟨s2, hl2, hs2mem⟩ := hasEdge_lookup adj nextV current hErev
    have hdegnext : 0 < deg adj nextV := by
      rw [deg_of_lookup adj nextV s2 hl2]
      exact List.length_pos.mpr (by rintro rfl; simp at hs2mem)
    have hwf2 : WFG (popEdge adj current nextV) := WFG_popEdge adj _ _ hwf
    have hsize : totalSize (popEdge adj current nextV) < totalSize adj :=
      totalSize_popEdge_lt adj current nextV nbrs hl hminmem
    have hdeg1cur : deg (popEdge adj current nextV) current = deg adj current - 1 :=
      deg_popEdge_fst adj current nextV nbrs hkeys hvals hcn hl hminmem
    have hdeg1next : deg (popEdge adj current nextV) nextV = deg adj nextV - 1 :=
      deg_popEdge_snd adj current nextV s2 hkeys hvals hcn hl2 hs2mem
    have hdeg1other : ∀ w, w ≠ current → w ≠ nextV →
        deg (popEdge adj current nextV) w = deg adj w :=
      fun w h1 h2 => deg_popEdge_other adj current nextV w h1 h2
    have hnoback2 : hasEdge (popEdge adj current nextV) nextV current = false := by
      cases he : hasEdge (popEdge adj current nextV) nextV current
      · rfl
      · rw [hasEdge_popEdge_iff adj current nextV nextV current hkeys] at he
        exact absurd ⟨rfl, rfl⟩ he.2.2
    by_cases hns : nextV = start
    · -- the walk closes: this can only happen from the open state
      rcases hinv with ⟨rfl, rfl, -, -⟩ | ⟨p, rfl, hne, -, hpar⟩
      · exact absurd hns.symm (by rw [hns] at hcn; exact fun he => hcn (hns ▸ he.symm))
      · subst hns
        refine ⟨acc, popEdge adj current nextV, ?_, hwf2, ?_⟩
        · rw [walk, hl]
          dsimp only
          rw [hmin]
          dsimp only
          rw [if_pos rfl]
        · intro w
          by_cases hwc : w = current
          · subst hwc
            rw [hdeg1cur]
            have hodd := (hpar w).mpr (Or.inr rfl)
            omega
          · by_cases hwn : w = nextV
            · subst hwn
              rw [hdeg1next]
              have hodd := (hpar w).mpr (Or.inl rfl)
              omega
            · rw [hdeg1other w hwc hwn]
              have := hpar w
              rcases hp2 : deg adj w % 2 with - | n
              · omega
              · have hodd : deg adj w % 2 = 1 := by omega
                rcases this.mp hodd with rfl | rfl
                · exact absurd rfl hwn
                · exact absurd rfl hwc
    · -- the walk continues: set up the open invariant on the popped graph
      have hinv2 : ∀ w, deg (popEdge adj current nextV) w % 2 = 1 ↔
          (w = start ∨ w = nextV) := by
        intro w
        rcases hinv with ⟨-, rfl, hdegpos, hall⟩ | ⟨p, -, hne, -, hpar⟩
        · -- first step: current = start, all even before the pop
          by_cases hwc : w = current
          · subst hwc
            rw [hdeg1cur]
            have := hall w
            constructor
            · intro; left; rfl
            · intro; omega
          · by_cases hwn : w = nextV
            · subst hwn
              rw [hdeg1next]
              have := hall w
              constructor
              · intro; right; rfl
              · intro; omega
            · rw [hdeg1other w hwc hwn]
              have := hall w
              constructor
              · intro hodd; omega
              · rintro (rfl | rfl)
                · exact absurd rfl hwc
                · exact absurd rfl hwn
        · -- mid-walk step
          by_cases hwc : w = current
          · subst hwc
            rw [hdeg1cur]
            have hodd := (hpar w).mpr (Or.inr rfl)
            constructor
            · intro hc; omega
            · rintro (rfl | rfl)
              · exact absurd rfl hne
              · exact absurd rfl hcn
          · by_cases hwn : w = nextV
            · subst hwn
              rw [hdeg1next]
              have heven : deg adj w % 2 = 0 := by
                rcases hp2 : deg adj w % 2 with - | n
                · rfl
                · have hodd : deg adj w % 2 = 1 := by omega
                  rcases (hpar w).mp hodd with rfl | rfl
                  · exact absurd rfl hns
                  · exact absurd rfl (Ne.symm hcn)
              constructor
              · intro; right; rfl
              · intro; omega
            · rw [hdeg1other w hwc hwn]
              rw [hpar w]
              constructor
              · rintro (rfl | rfl)
                · left; rfl
                · exact absurd rfl hwc
              · rintro (rfl | rfl)
                · left; rfl
                · exact absurd rfl hwn
      obtain ⟨res, adj2, hwalk, hwfF, hevenF⟩ :=
        ih (popEdge adj current nextV) start (some current) nextV (acc ++ [nextV])
          (by omega) hwf2
          (Or.inr ⟨current, rfl, hns, hnoback2, hinv2⟩)
      refine ⟨res, adj2, ?_, hwfF, hevenF⟩
      rw [walk, hl]
      dsimp only
      rw [hmin]
      dsimp only
      rw [if_neg hns]
      exact hwalk

/-! ### Extraction: all loops, edge conservation -/

theorem extractGo_spec (fuel : Nat) :
    ∀ adj : Adj, totalSize adj < fuel → WFG adj → (∀ w, deg adj w % 2 = 0) →
    ∃ loops, extractGo fuel adj = .ok loops ∧
      (∀ l ∈ loops, l ≠ []) ∧
      ((loops.map loopEdges).flatten.map sortPair).Nodup ∧
      (∀ u v, sortPair (u, v) ∈ (loops.map loopEdges).flatten.map sortPair ↔
        hasEdge adj u v = true) := by
  induction fuel with
  | zero =>
    intro adj hfuel hwf heven
    exact absurd hfuel (by omega)
  | succ fuel ih =>
    intro adj hfuel hwf heven
    cases adj with
    | nil =>
      refine ⟨[], by rw [extractGo], by simp, by simp, ?_⟩
      intro u v
      simp [hasEdge, lookupAdj]
    | cons kv rest =>
      obtain ⟨start, s⟩ := kv
      have hl : lookupAdj ((start, s) :: rest) start = some s := by
        rw [lookupAdj, if_pos rfl]
      have hsne : s ≠ [] := hwf.1.2.2 (start, s) (List.mem_cons_self _ _)
      have hdegpos : 0 < deg ((start, s) :: rest) start := by
        rw [deg_of_lookup _ _ _ hl]
        exact List.length_pos.mpr hsne
      obtain ⟨res, adj2, hwalk, hwf2, heven2⟩ :=
        walk_ok_exists (totalSize ((start, s) :: rest) + 1) ((start, s) :: rest)
          start none start [start] (by omega) hwf (Or.inl ⟨rfl, rfl, hdegpos, heven⟩)
      obtain ⟨tl, hres, -, hnodP, hmemP, hremP⟩ :=
        walk_ok_spec _ _ _ _ _ _ _ _ hwf hwalk
      have hsize2 : totalSize adj2 < totalSize ((start, s) :: rest) :=
        walk_size_lt _ _ _ _ _ _ _ _ hwalk
      obtain ⟨loops2, hgo2, hne2, hnod2, hiff2⟩ := ih adj2 (by omega) hwf2 heven2
      have hresl : res = start :: tl := by simpa using hres
      refine ⟨res :: loops2, ?_, ?_, ?_, ?_⟩
      · rw [extractGo]
        rw [hwalk]
        dsimp only
        rw [hgo2]
      · intro l hl2
        rcases List.mem_cons.mp hl2 with rfl | h2
        · rw [hresl]; simp
        · exact hne2 l h2
      · rw [hresl]
        simp only [List.map_cons, List.flatten_cons, List.map_append, loopEdges]
        rw [List.nodup_append]
        refine ⟨hnodP, hnod2, ?_⟩
        intro e heP heJ
        obtain ⟨u2, v2, he2⟩ : ∃ u2 v2, e = sortPair (u2, v2) := by
          rcases List.mem_map.mp heP with ⟨p, -, hp⟩
          exact ⟨p.1, p.2, hp.symm⟩
        rw [he2] at heP heJ
        have hE2 := (hiff2 u2 v2).mp heJ
        exact absurd heP ((hremP u2 v2).mp hE2).2
      · intro u v
        rw [hresl]
        simp only [List.map_cons, List.flatten_cons, List.map_append,
          List.mem_append, loopEdges]
        rw [hiff2 u v]
        constructor
        · rintro (hin | hE2)
          · have h3 := hmemP _ hin
            rwa [hasEdge_sortPair _ u v hwf.2.1] at h3
          · exact ((hremP u v).mp hE2).1
        · intro hE2
          by_cases hinP : sortPair (u, v) ∈
              ((start :: tl).zip (tl ++ [start])).map sortPair
          · exact Or.inl hinP
          · exact Or.inr ((hremP u v).mpr ⟨hE2, hinP⟩)

/-- The full specification of `_trace_edges`: extraction always succeeds,
loops are nonempty, and the loops' traversal edges form exactly the edge
set of the boundary graph, each edge exactly once. -/
theorem traceEdges_spec (m : Mask) :
    ∃ loops, traceEdges m = .ok loops ∧
      (∀ l ∈ loops, l ≠ []) ∧
      ((loops.map loopEdges).flatten.map sortPair).Nodup ∧
      (∀ u v, sortPair (u, v) ∈ (loops.map loopEdges).flatten.map sortPair ↔
        hasEdge (buildAdj m) u v = true) := by
  have hwf : WFG (buildAdj m) :=
    ⟨WFS_buildAdj m, hasEdge_buildAdj_symm m, hasEdge_buildAdj_irrefl m⟩
  have h := extractGo_spec (totalSize (buildAdj m) + 1) (buildAdj m)
    (by omega) hwf (deg_buildAdj_even m)
  simpa [traceEdges, extractLoops] using h

/-! ### Claim C2 -/

/-- C2.  For every mask, loop extraction succeeds, and the edges traversed
by all returned loops (consecutive pairs plus the closing edge of each
loop) are exactly the edge set of the boundary graph: no edge repeats
across or within loops, and no boundary edge is left out. -/
theorem C2_edge_conservation (m : Mask) :
    ∃ loops, traceEdges m = .ok loops ∧
      ((loops.map loopEdges).flatten.map sortPair).Nodup ∧
      (∀ u v, sortPair (u, v) ∈ (loops.map loopEdges).flatten.map sortPair ↔
        hasEdge (buildAdj m) u v = true) := by
  obtain ⟨loops, heq, -, hnod, hiff⟩ := traceEdges_spec m
  exact ⟨loops, heq, hnod, hiff⟩

/-! ### Claim C9: the containment test's guarded division -/

/-- C9.  The ray-crossing containment test of `_point_in_loop` is total:
whenever the crossing branch is taken (`(y1 > y) != (y2 > y)`) for two
integer-coordinate loop vertices, the epsilon-guarded denominator
`y2 - y1 + 1e-6` used by `pointInLoop` is nonzero, so the division is
always defined and the test can at worst misclassify, never fail. -/
theorem C9_containment_denominator_nonzero (p1 p2 : Point) (y : ℚ)
    (h : decide ((p1.2 : ℚ) > y) ≠ decide ((p2.2 : ℚ) > y)) :
    crossDenom (p1.2 : ℚ) (p2.2 : ℚ) ≠ 0 := by
  have hne : p1.2 ≠ p2.2 := by
    rintro he
    rw [he] at h
    exact h rfl
  unfold crossDenom
  rcases Nat.lt_or_ge p1.2 p2.2 with hlt | hge
  · have hq : (p1.2 : ℚ) + 1 ≤ (p2.2 : ℚ) := by exact_mod_cast hlt
    intro hc
    have h6 : (0:ℚ) < 1 / 1000000 := by norm_num
    linarith
  · have hgt : p2.2 < p1.2 := lt_of_le_of_ne hge (Ne.symm hne)
    have hq : (p2.2 : ℚ) + 1 ≤ (p1.2 : ℚ) := by exact_mod_cast hgt
    intro hc
    have h6 : (1:ℚ) / 1000000 < 1 := by norm_num
    linarith

/-- Witness for C9: the edge from `(0, 0)` to `(0, 1)` crossed by the
horizontal ray at height `0`. -/
theorem C9_containment_denominator_nonzero_witness :
    (decide ((((0, 0) : Point).2 : ℚ) > (0 : ℚ)) ≠
      decide ((((0, 1) : Point).2 : ℚ) > (0 : ℚ))) ∧
    crossDenom ((((0, 0) : Point).2 : ℚ)) ((((0, 1) : Point).2 : ℚ)) ≠ 0 :=
  ⟨by simp, C9_containment_denominator_nonzero (0, 0) (0, 1) 0 (by simp)⟩

/-! ### Claim C10: empty masks list -/

/-- C10.  Calling the public entry point `masks_to_svgs` with an empty
masks iterable raises an unhandled `IndexError` when `masks[0]` is read
for the document dimensions, before any output is produced; no guard
exists for the zero-layer case. -/
theorem C10_empty_masks_indexError (palette : List RGBA) (scale : Nat)
    (base : String) :
    masksToSvgs [] palette scale base = .error .indexError := rfl

/-! ### Claim C7: degenerate masks -/

theorem foldl_id {α : Type} (f : Adj → α → Adj) (l : List α)
    (h : ∀ adj a, a ∈ l → f adj a = adj) : ∀ adj0, l.foldl f adj0 = adj0 := by
  induction l with
  | nil => intro adj0; rfl
  | cons a l ih =>
    intro adj0
    rw [List.foldl_cons, h adj0 a (List.mem_cons_self _ _)]
    exact ih (fun adj b hb => h adj b (List.mem_cons_of_mem _ hb)) adj0

theorem buildAdj_degenerate (m : Mask)
    (h : m.h = 0 ∨ m.w = 0 ∨ (∀ x y, x < m.w → y < m.h → m.pix y x = false)) :
    buildAdj m = [] := by
  unfold buildAdj
  rcases h with h0 | h0 | hall
  · rw [h0]; rfl
  · refine foldl_id _ _ (fun adj y hy => ?_) []
    rw [h0]; rfl
  · refine foldl_id _ _ (fun adj y hy => ?_) []
    refine foldl_id _ _ (fun adj2 x hx => ?_) adj
    unfold addPixel
    rw [if_pos (hall x y (List.mem_range.mp hx) (List.mem_range.mp hy))]

/-- C7.  For every degenerate mask — zero height, zero width, or all
pixels false — the conversion raises nothing: the boundary graph is
empty, loop extraction returns zero loops, and the assembled compound
path is the empty string. -/
theorem C7_degenerate_mask (m : Mask)
    (h : m.h = 0 ∨ m.w = 0 ∨ (∀ x y, x < m.w → y < m.h → m.pix y x = false)) :
    buildAdj m = [] ∧ traceEdges m = .ok [] ∧
      traceContoursAsSvgPaths m = .ok "" := by
  have hb := buildAdj_degenerate m h
  have ht : traceEdges m = .ok [] := by
    rw [traceEdges, hb]
    rfl
  refine ⟨hb, ht, ?_⟩
  rw [traceContoursAsSvgPaths, ht]
  rfl

/-- Witness for C7 at the concrete empty mask. -/
theorem C7_degenerate_mask_witness :
    (maskOfRows []).h = 0 ∧
      (buildAdj (maskOfRows []) = [] ∧ traceEdges (maskOfRows []) = .ok [] ∧
        traceContoursAsSvgPaths (maskOfRows []) = .ok "") :=
  ⟨by decide, C7_degenerate_mask (maskOfRows []) (Or.inl (by decide))⟩

/-! ### Claim C3: bridge synthesis -/

/-- C3.  A loop receives exactly two bridge sub-paths precisely when its
depth is even and at least 2 and its bounding box does not touch the
canvas border; every other loop receives zero bridges.  When emitted, the
first bridge extends left from the bounding-box minimum-x edge and the
second right from the maximum-x edge, both centred vertically at the
bounding-box mid-height `(minY + maxY) / 2` (span 1, half-thickness 1/4
as at the call site). -/
theorem C3_island_bridges (loop : Loop) (depth imgW imgH : Nat)
    (_hne : loop ≠ []) :
    (¬(2 ≤ depth ∧ depth % 2 = 0) → bridgesFor loop depth imgW imgH = []) ∧
    ((2 ≤ depth ∧ depth % 2 = 0) →
      ((natListMin (loop.map (fun p => p.1)) = 0 ∨
        natListMax (loop.map (fun p => p.1)) = imgW ∨
        natListMin (loop.map (fun p => p.2)) = 0 ∨
        natListMax (loop.map (fun p => p.2)) = imgH) →
          bridgesFor loop depth imgW imgH = []) ∧
      (¬(natListMin (loop.map (fun p => p.1)) = 0 ∨
        natListMax (loop.map (fun p => p.1)) = imgW ∨
        natListMin (loop.map (fun p => p.2)) = 0 ∨
        natListMax (loop.map (fun p => p.2)) = imgH) →
          bridgesFor loop depth imgW imgH =
            [ [Cmd.move (natListMin (loop.map (fun p => p.1)) : ℚ)
                 (((natListMin (loop.map (fun p => p.2)) : ℚ) +
                   (natListMax (loop.map (fun p => p.2)) : ℚ)) / 2 - 1/4),
               Cmd.line ((natListMin (loop.map (fun p => p.1)) : ℚ) - 1)
                 (((natListMin (loop.map (fun p => p.2)) : ℚ) +
                   (natListMax (loop.map (fun p => p.2)) : ℚ)) / 2 - 1/4),
               Cmd.line ((natListMin (loop.map (fun p => p.1)) : ℚ) - 1)
                 (((natListMin (loop.map (fun p => p.2)) : ℚ) +
                   (natListMax (loop.map (fun p => p.2)) : ℚ)) / 2 + 1/4),
               Cmd.line (natListMin (loop.map (fun p => p.1)) : ℚ)
                 (((natListMin (loop.map (fun p => p.2)) : ℚ) +
                   (natListMax (loop.map (fun p => p.2)) : ℚ)) / 2 + 1/4),
               Cmd.close],
              [Cmd.move (natListMax (loop.map (fun p => p.1)) : ℚ)
                 (((natListMin (loop.map (fun p => p.2)) : ℚ) +
                   (natListMax (loop.map (fun p => p.2)) : ℚ)) / 2 - 1/4),
               Cmd.line ((natListMax (loop.map (fun p => p.1)) : ℚ) + 1)
                 (((natListMin (loop.map (fun p => p.2)) : ℚ) +
                   (natListMax (loop.map (fun p => p.2)) : ℚ)) / 2 - 1/4),
               Cmd.line ((natListMax (loop.map (fun p => p.1)) : ℚ) + 1)
                 (((natListMin (loop.map (fun p => p.2)) : ℚ) +
                   (natListMax (loop.map (fun p => p.2)) : ℚ)) / 2 + 1/4),
               Cmd.line (natListMax (loop.map (fun p => p.1)) : ℚ)
                 (((natListMin (loop.map (fun p => p.2)) : ℚ) +
                   (natListMax (loop.map (fun p => p.2)) : ℚ)) / 2 + 1/4),
               Cmd.close] ])) := by
  refine ⟨?_, fun hdep => ⟨?_, ?_⟩⟩
  · intro hnot
    unfold bridgesFor
    rw [if_neg hnot]
  · intro hborder
    unfold bridgesFor makeBridges
    rw [if_pos hdep]
    dsimp only
    rw [if_pos hborder]
  · intro hnoborder
    unfold bridgesFor makeBridges
    rw [if_pos hdep]
    dsimp only
    rw [if_neg hnoborder]

/-- Witness for C3: a unit hole at depth 2 strictly inside a 4×4 canvas
receives exactly two bridges. -/
theorem C3_island_bridges_witness :
    (bridgesFor [((1:Nat), (1:Nat)), (1, 2), (2, 2), (2, 1)] 2 4 4).length = 2 := by
  have h := ((C3_island_bridges [((1:Nat), (1:Nat)), (1, 2), (2, 2), (2, 1)] 2 4 4
    (by decide)).2 (by decide)).2 (by decide)
  rw [h]
  rfl

/-! ### Claim C8: behaviour on a malformed (odd-degree) boundary graph -/

/-- Counterexample to C8 as stated: feeding the loop extractor a graph
with odd-degree vertices (a single edge) makes the conversion fail with a
*generic* builtin exception (`KeyError` from `adj[current]`), not any
distinguishable "boundary decomposition" error kind — no such kind exists
anywhere in the source. -/
theorem C8_counterexample_generic_error :
    extractLoops [(((0:Nat), (0:Nat)), [((0:Nat), (1:Nat))]),
      (((0:Nat), (1:Nat)), [((0:Nat), (0:Nat))])] = .error .keyError := by
  rfl

/-- C8 amended: on any malformed two-vertex odd-degree graph the
extraction loop is fatal for the conversion — it stops with an uncaught
generic `KeyError` (raised by `adj[current]` after the lone edge is
consumed), rather than returning a corrupt partial loop list; but no
dedicated "boundary decomposition" error kind is surfaced. -/
theorem C8_odd_degree_generic_error (a b : Point) (hab : a ≠ b) :
    extractLoops [(a, [b]), (b, [a])] = .error .keyError := by
  have hba : ¬ (b = a) := fun he => hab he.symm
  have hwalk : walk (totalSize [(a, [b]), (b, [a])] + 1) [(a, [b]), (b, [a])]
      a none a [a] = .error .keyError := by
    rw [show totalSize [(a, [b]), (b, [a])] + 1 = 2 + 1 from rfl]
    rw [walk]
    rw [show lookupAdj [(a, [b]), (b, [a])] a = some [b] by
      rw [lookupAdj, if_pos rfl]]
    dsimp only [candsOf]
    rw [show listMin [b] = some b from rfl]
    dsimp only
    rw [if_neg hba]
    rw [show popEdge [(a, [b]), (b, [a])] a b = [] by
      unfold popEdge
      rw [setRemoveDel_cons_self_empty a b [b] [(b, [a])] (by simp)]
      exact setRemoveDel_cons_self_empty b a [a] [] (by simp)]
    rw [show (2 : Nat) = 1 + 1 from rfl]
    rw [walk]
    rfl
  rw [extractLoops]
  rw [show totalSize [(a, [b]), (b, [a])] + 1 = 2 + 1 from rfl]
  rw [extractGo]
  rw [show totalSize [(a, [b]), (b, [a])] + 1 = 2 + 1 from rfl] at hwalk ⊢
  rw [hwalk]

/-! ### Claim C5: vertex repetition inside loops -/

theorem sortPair_swap_pair (u v : Point) : sortPair (u, v) = sortPair (v, u) := by
  simp only [sortPair]
  by_cases h : ptLe u v = true
  · by_cases h2 : ptLe v u = true
    · have he := ptLe_antisymm u v h h2
      subst he
      rfl
    · simp [h, h2]
  · have h2 : ptLe v u = true := (ptLe_total u v).resolve_left h
    simp [h, h2]

theorem sortPair_incident (e : Point × Point) (v : Point) :
    (decide ((sortPair e).1 = v) || decide ((sortPair e).2 = v)) =
      (decide (e.1 = v) || decide (e.2 = v)) := by
  unfold sortPair
  split
  · rfl
  · exact Bool.or_comm _ _

theorem countP_zip_incident (v : Point) : ∀ (xs ys : List Point),
    xs.length = ys.length →
    (∀ e ∈ xs.zip ys, ¬(e.1 = v ∧ e.2 = v)) →
    (xs.zip ys).countP (fun e => decide (e.1 = v) || decide (e.2 = v)) =
      xs.count v + ys.count v := by
  intro xs
  induction xs with
  | nil =>
    intro ys hlen hns
    cases ys with
    | nil => simp
    | cons y ys => simp at hlen
  | cons x xs ih =>
    intro ys hlen hns
    cases ys with
    | nil => simp at hlen
    | cons y ys =>
      rw [List.zip_cons_cons, List.countP_cons, List.count_cons, List.count_cons]
      rw [ih ys (by simpa using hlen) (fun e he => hns e (List.mem_cons_of_mem _ he))]
      have hnxy : ¬(x = v ∧ y = v) := by
        have h := hns (x, y) (List.mem_cons_self _ _)
        simpa using h
      by_cases hx : x = v <;> by_cases hy : y = v
      · exact absurd ⟨hx, hy⟩ hnxy
      · simp only [hx, hy, beq_self_eq_true, if_true, beq_iff_eq, if_false,
          decide_eq_true_eq]
        simp [hy]
        omega
      · simp only [hx, hy, beq_iff_eq, decide_eq_true_eq]
        simp [hx, hy]
        omega
      · simp only [hx, hy, beq_iff_eq, decide_eq_true_eq]
        simp [hx, hy]

theorem loopEdges_countP_incident (w : Point) (rest : List Point) (v : Point)
    (hns : ∀ e ∈ loopEdges (w :: rest), ¬(e.1 = v ∧ e.2 = v)) :
    (loopEdges (w :: rest)).countP
        (fun e => decide (e.1 = v) || decide (e.2 = v)) =
      2 * (w :: rest).count v := by
  rw [show loopEdges (w :: rest) = (w :: rest).zip (rest ++ [w]) from rfl] at hns ⊢
  rw [countP_zip_incident v (w :: rest) (rest ++ [w]) (by simp) hns]
  rw [List.count_append, List.count_cons]
  simp only [List.count_singleton]
  by_cases hw : w = v
  · simp [hw]
    omega
  · have hw2 : ¬ (w == v) = true := by simpa using hw
    simp [hw2]
    omega

/-- Counterexample to C5 as stated: two diagonally-touching pixels create
a degree-4 junction at `(1, 1)` and the deterministic walk crosses itself
there — a single loop containing the junction vertex twice. -/
theorem C5_counterexample_junction_revisited :
    traceEdges (maskOfRows [[false, true], [true, false]]) =
      .ok [[(1, 0), (1, 1), (0, 1), (0, 2), (1, 2), (1, 1), (2, 1), (2, 0)]] ∧
    ¬ (([((1:Nat), (0:Nat)), (1, 1), (0, 1), (0, 2), (1, 2), (1, 1), (2, 1),
        (2, 0)] : Loop).Nodup) :=
  ⟨by rfl, by decide⟩

/-- C5 amended: in every loop returned by extraction, each vertex occurs
at most twice (each visit consumes two of the at most four incident
boundary edges); at a degree-4 junction from diagonally-touching pixels a
vertex can indeed occur twice, so loops need not be simple. -/
theorem C5_vertex_occurs_at_most_twice (m : Mask) (loops : List Loop)
    (hok : traceEdges m = .ok loops) :
    ∀ l ∈ loops, ∀ v : Point, l.count v ≤ 2 := by
  obtain ⟨loops2, hok2, hne2, hnod2, hiff2⟩ := traceEdges_spec m
  rw [hok] at hok2
  have hl2 : loops2 = loops := by
    cases hok2
    rfl
  subst hl2
  intro l hl v
  have hwfg : WFG (buildAdj m) :=
    ⟨WFS_buildAdj m, hasEdge_buildAdj_symm m, hasEdge_buildAdj_irrefl m⟩
  have hlne : l ≠ [] := hne2 l hl
  obtain ⟨w, rest, rfl⟩ : ∃ w rest, l = w :: rest := by
    cases l with
    | nil => exact absurd rfl hlne
    | cons w rest => exact ⟨w, rest, rfl⟩
  have hsubJ : ((loopEdges (w :: rest)).map sortPair).Sublist
      ((loops2.map loopEdges).flatten.map sortPair) := by
    have h1 : loopEdges (w :: rest) ∈ loops2.map loopEdges :=
      List.mem_map_of_mem _ hl
    exact (List.sublist_flatten_of_mem h1).map sortPair
  have hnodE : ((loopEdges (w :: rest)).map sortPair).Nodup := hnod2.sublist hsubJ
  have hmemE : ∀ e ∈ loopEdges (w :: rest),
      hasEdge (buildAdj m) e.1 e.2 = true := by
    intro e he
    have h1 : sortPair e ∈ (loops2.map loopEdges).flatten.map sortPair :=
      hsubJ.subset (List.mem_map_of_mem _ he)
    exact (hiff2 e.1 e.2).mp h1
  have hns : ∀ e ∈ loopEdges (w :: rest), ¬(e.1 = v ∧ e.2 = v) := by
    rintro e he ⟨h1, h2⟩
    exact ne_of_hasEdge (buildAdj m) e.1 e.2 hwfg (hmemE e he) (h1.trans h2.symm)
  have hcount := loopEdges_countP_incident w rest v hns
  have hbound : (loopEdges (w :: rest)).countP
      (fun e => decide (e.1 = v) || decide (e.2 = v)) ≤ 4 := by
    have heqc : (loopEdges (w :: rest)).countP
        (fun e => decide (e.1 = v) || decide (e.2 = v)) =
        ((loopEdges (w :: rest)).map sortPair).countP
          (fun e => decide (e.1 = v) || decide (e.2 = v)) := by
      rw [List.countP_map]
      congr 1
      funext e
      exact (sortPair_incident e v).symm
    rw [heqc, List.countP_eq_length_filter]
    have hfsub : (((loopEdges (w :: rest)).map sortPair).filter
        (fun e => decide (e.1 = v) || decide (e.2 = v))) ⊆
        [sortPair (v, (v.1 + 1, v.2)), sortPair (v, (v.1, v.2 + 1)),
         sortPair (v, (v.1 - 1, v.2)), sortPair (v, (v.1, v.2 - 1))] := by
      intro e he
      rw [List.mem_filter] at he
      obtain ⟨heE, hinc⟩ := he
      obtain ⟨f, hf, rfl⟩ := List.mem_map.mp heE
      have hEf := hmemE f hf
      simp only [Bool.or_eq_true, decide_eq_true_eq] at hinc
      have hfinc : f.1 = v ∨ f.2 = v := by
        rcases hinc with h | h
        · unfold sortPair at h
          split at h
          · exact Or.inl h
          · exact Or.inr h
        · unfold sortPair at h
          split at h
          · exact Or.inr h
          · exact Or.inl h
      have hform : ∃ u : Point, sortPair f = sortPair (v, u) ∧
          hasEdge (buildAdj m) v u = true := by
        rcases hfinc with h | h
        · refine ⟨f.2, ?_, ?_⟩
          · rw [show ((v, f.2) : Point × Point) = (f.1, f.2) by rw [h]]
          · rw [← h]; exact hEf
        · refine ⟨f.1, ?_, ?_⟩
          · rw [show ((v, f.1) : Point × Point) = (f.2, f.1) by rw [h]]
            exact (sortPair_swap_pair f.1 f.2).symm ▸ rfl
          · rw [← h]
            rw [hwfg.2.1 f.2 f.1]
            exact hEf
      obtain ⟨u, hfu, hEu⟩ := hform
      rw [hfu]
      rcases hasEdge_adjacent m v u hEu with ⟨h1, h2⟩ | ⟨h1, h2⟩ | ⟨h1, h2⟩ | ⟨h1, h2⟩
      · have hu : u = (v.1 + 1, v.2) := by rw [Prod.ext_iff]; exact ⟨h1, h2⟩
        simp [hu]
      · have hu : u = (v.1 - 1, v.2) := by rw [Prod.ext_iff]; constructor <;> omega
        simp [hu]
      · have hu : u = (v.1, v.2 + 1) := by rw [Prod.ext_iff]; exact ⟨h2, h1⟩
        simp [hu]
      · have hu : u = (v.1, v.2 - 1) := by rw [Prod.ext_iff]; constructor <;> omega
        simp [hu]
    have hsp := List.subperm_of_subset (hnodE.filter _) hfsub
    have hle := hsp.length_le
    simpa using hle
  omega

/-- Witness for C5's amended statement at the 1×1 mask. -/
theorem C5_vertex_occurs_at_most_twice_witness :
    traceEdges (maskOfRows [[true]]) = .ok [[(0, 0), (0, 1), (1, 1), (1, 0)]] ∧
      ([((0:Nat), (0:Nat)), (0, 1), (1, 1), (1, 0)] : Loop).count (0, 0) ≤ 2 :=
  ⟨by rfl,
    C5_vertex_occurs_at_most_twice (maskOfRows [[true]])
      [[(0, 0), (0, 1), (1, 1), (1, 0)]] (by rfl)
      [((0:Nat), (0:Nat)), (0, 1), (1, 1), (1, 0)] (by simp) (0, 0)⟩

/-! ### Claim C4: a single solid rectangle -/

theorem extractGo_nil (fuel : Nat) : extractGo fuel [] = .ok [] := by
  cases fuel with
  | zero => rfl
  | succ f => rfl

theorem walk_of_forced (start : Point) (adj : Adj) (prev : Option Point)
    (current : Point) (path : List Point) (adjF : Adj)
    (hF : Forced start adj prev current path adjF) :
    ∀ (fuel : Nat) (acc res : List Point) (adj2 : Adj),
    walk fuel adj start prev current acc = .ok (res, adj2) →
    res = acc ++ path ∧ adj2 = adjF := by
  induction hF with
  | close adj prev current nbrs hlk hmin =>
    intro fuel acc res adj2 hwalk
    cases fuel with
    | zero => rw [walk] at hwalk; exact Except.noConfusion hwalk
    | succ f =>
      rw [walk] at hwalk
      rw [hlk] at hwalk
      dsimp only at hwalk
      rw [hmin] at hwalk
      dsimp only at hwalk
      rw [if_pos rfl] at hwalk
      rw [Except.ok.injEq, Prod.mk.injEq] at hwalk
      obtain ⟨h1, h2⟩ := hwalk
      exact ⟨by rw [List.append_nil]; exact h1.symm, h2.symm⟩
  | step adj prev current nextV nbrs rest adjF hlk hmin hne hF2 ih =>
    intro fuel acc res adj2 hwalk
    cases fuel with
    | zero => rw [walk] at hwalk; exact Except.noConfusion hwalk
    | succ f =>
      rw [walk] at hwalk
      rw [hlk] at hwalk
      dsimp only at hwalk
      rw [hmin] at hwalk
      dsimp only at hwalk
      rw [if_neg hne] at hwalk
      obtain ⟨h1, h2⟩ := ih f (acc ++ [nextV]) res adj2 hwalk
      refine ⟨?_, h2⟩
      rw [h1, List.append_assoc]
      rfl

theorem adj_eq_nil_of_no_edges (G : Adj) (hwf : WFS G)
    (h : ∀ u v, hasEdge G u v ≠ true) : G = [] := by
  cases G with
  | nil => rfl
  | cons kv rest =>
    obtain ⟨k, s⟩ := kv
    exfalso
    have hne : s ≠ [] := hwf.2.2 (k, s) (List.mem_cons_self _ _)
    obtain ⟨u, hu⟩ := List.exists_mem_of_ne_nil s hne
    apply h k u
    unfold hasEdge
    rw [show lookupAdj ((k, s) :: rest) k = some s from by rw [lookupAdj, if_pos rfl]]
    exact decide_eq_true hu

theorem bool_ne_iff (a b : Bool) : a ≠ b ↔ ((a = true) ↔ ¬ (b = true)) := by
  cases a <;> cases b <;> simp

theorem pixAt_solidRect (w h : Nat) (x y : Int) :
    pixAt (solidRect w h) x y = true ↔
      0 ≤ x ∧ x < (w : Int) ∧ 0 ≤ y ∧ y < (h : Int) := by
  rw [pixAt_eq_true_iff]
  constructor
  · rintro ⟨h1, h2, h3, h4, -⟩
    exact ⟨h1, h2, h3, h4⟩
  · rintro ⟨h1, h2, h3, h4⟩
    exact ⟨h1, h2, h3, h4, rfl⟩

theorem solidRect_hseg (w h x y : Nat) (hw1 : 1 ≤ w) (hh1 : 1 ≤ h) :
    hasEdge (buildAdj (solidRect w h)) (x, y) (x+1, y) = true ↔
      (x < w ∧ (y = 0 ∨ y = h)) := by
  rw [hseg_iff, bool_ne_iff, pixAt_solidRect, pixAt_solidRect]
  omega

theorem solidRect_vseg (w h x y : Nat) (hw1 : 1 ≤ w) (hh1 : 1 ≤ h) :
    hasEdge (buildAdj (solidRect w h)) (x, y) (x, y+1) = true ↔
      (y < h ∧ (x = 0 ∨ x = w)) := by
  rw [vseg_iff, bool_ne_iff, pixAt_solidRect, pixAt_solidRect]
  omega

theorem solidRect_edge_iff (w h : Nat) (hw1 : 1 ≤ w) (hh1 : 1 ≤ h) (u v : Point) :
    hasEdge (buildAdj (solidRect w h)) u v = true ↔ StageE w h w 0 0 h u v := by
  constructor
  · intro hE
    rcases hasEdge_adjacent (solidRect w h) u v hE with
      ⟨h1, h2⟩ | ⟨h1, h2⟩ | ⟨h1, h2⟩ | ⟨h1, h2⟩
    · have hv : v = (u.1 + 1, u.2) := by rw [Prod.ext_iff]; exact ⟨h1, h2⟩
      rw [hv] at hE
      obtain ⟨hxw, hy⟩ := (solidRect_hseg w h u.1 u.2 hw1 hh1).mp hE
      rcases hy with hy | hy
      · exact Or.inl ⟨u.1, hxw, Or.inl ⟨by rw [Prod.ext_iff]; exact ⟨rfl, hy⟩,
          by rw [hv, Prod.ext_iff]; exact ⟨rfl, hy⟩⟩⟩
      · exact Or.inr (Or.inl ⟨u.1, Nat.zero_le _, hxw,
          Or.inl ⟨by rw [Prod.ext_iff]; exact ⟨rfl, hy⟩,
            by rw [hv, Prod.ext_iff]; exact ⟨rfl, hy⟩⟩⟩)
    · have hu : u = (v.1 + 1, v.2) := by rw [Prod.ext_iff]; exact ⟨h1, h2⟩
      rw [hu, ← hasEdge_buildAdj_symm] at hE
      obtain ⟨hxw, hy⟩ := (solidRect_hseg w h v.1 v.2 hw1 hh1).mp hE
      rcases hy with hy | hy
      · exact Or.inl ⟨v.1, hxw, Or.inr ⟨by rw [hu, Prod.ext_iff]; exact ⟨rfl, hy⟩,
          by rw [Prod.ext_iff]; exact ⟨rfl, hy⟩⟩⟩
      · exact Or.inr (Or.inl ⟨v.1, Nat.zero_le _, hxw,
          Or.inr ⟨by rw [hu, Prod.ext_iff]; exact ⟨rfl, hy⟩,
            by rw [Prod.ext_iff]; exact ⟨rfl, hy⟩⟩⟩)
    · have hv : v = (u.1, u.2 + 1) := by rw [Prod.ext_iff]; exact ⟨h2, h1⟩
      rw [hv] at hE
      obtain ⟨hyh, hx⟩ := (solidRect_vseg w h u.1 u.2 hw1 hh1).mp hE
      rcases hx with hx | hx
      · exact Or.inr (Or.inr (Or.inl ⟨u.2, Nat.zero_le _, hyh,
          Or.inl ⟨by rw [Prod.ext_iff]; exact ⟨hx, rfl⟩,
            by rw [hv, Prod.ext_iff]; exact ⟨hx, rfl⟩⟩⟩))
      · exact Or.inr (Or.inr (Or.inr ⟨u.2, hyh,
          Or.inl ⟨by rw [Prod.ext_iff]; exact ⟨hx, rfl⟩,
            by rw [hv, Prod.ext_iff]; exact ⟨hx, rfl⟩⟩⟩))
    · have hu : u = (v.1, v.2 + 1) := by rw [Prod.ext_iff]; exact ⟨h2, h1⟩
      rw [hu, ← hasEdge_buildAdj_symm] at hE
      obtain ⟨hyh, hx⟩ := (solidRect_vseg w h v.1 v.2 hw1 hh1).mp hE
      rcases hx with hx | hx
      · exact Or.inr (Or.inr (Or.inl ⟨v.2, Nat.zero_le _, hyh,
          Or.inr ⟨by rw [hu, Prod.ext_iff]; exact ⟨hx, rfl⟩,
            by rw [Prod.ext_iff]; exact ⟨hx, rfl⟩⟩⟩))
      · exact Or.inr (Or.inr (Or.inr ⟨v.2, hyh,
          Or.inr ⟨by rw [hu, Prod.ext_iff]; exact ⟨hx, rfl⟩,
            by rw [Prod.ext_iff]; exact ⟨hx, rfl⟩⟩⟩))
  · intro hS
    rcases hS with ⟨x, hx, hm⟩ | ⟨x, hx1, hx2, hm⟩ | ⟨y, hy1, hy2, hm⟩ | ⟨y, hy, hm⟩
    · rcases hm with ⟨hu, hv⟩ | ⟨hu, hv⟩
      · rw [hu, hv]
        exact (solidRect_hseg w h x 0 hw1 hh1).mpr ⟨hx, Or.inl rfl⟩
      · rw [hu, hv, ← hasEdge_buildAdj_symm]
        exact (solidRect_hseg w h x 0 hw1 hh1).mpr ⟨hx, Or.inl rfl⟩
    · rcases hm with ⟨hu, hv⟩ | ⟨hu, hv⟩
      · rw [hu, hv]
        exact (solidRect_hseg w h x h hw1 hh1).mpr ⟨hx2, Or.inr rfl⟩
      · rw [hu, hv, ← hasEdge_buildAdj_symm]
        exact (solidRect_hseg w h x h hw1 hh1).mpr ⟨hx2, Or.inr rfl⟩
    · rcases hm with ⟨hu, hv⟩ | ⟨hu, hv⟩
      · rw [hu, hv]
        exact (solidRect_vseg w h 0 y hw1 hh1).mpr ⟨hy2, Or.inl rfl⟩
      · rw [hu, hv, ← hasEdge_buildAdj_symm]
        exact (solidRect_vseg w h 0 y hw1 hh1).mpr ⟨hy2, Or.inl rfl⟩
    · rcases hm with ⟨hu, hv⟩ | ⟨hu, hv⟩
      · rw [hu, hv]
        exact (solidRect_vseg w h w y hw1 hh1).mpr ⟨hy, Or.inr rfl⟩
      · rw [hu, hv, ← hasEdge_buildAdj_symm]
        exact (solidRect_vseg w h w y hw1 hh1).mpr ⟨hy, Or.inr rfl⟩

theorem trD_step (w h k : Nat) (hw1 : 1 ≤ w) (hk : k < h) (u v : Point) :
    (StageE w h w 0 k h u v ∧ ¬ unordIs u v ((0:Nat), k) ((0:Nat), k+1)) ↔
      StageE w h w 0 (k+1) h u v := by
  obtain ⟨u1, u2⟩ := u
  obtain ⟨v1, v2⟩ := v
  simp only [StageE, unordIs, Prod.mk.injEq]
  constructor
  · rintro ⟨hyp, hnot⟩
    rcases hyp with ⟨x, hx, hm⟩ | ⟨x, hx1, hx2, hm⟩ | ⟨y, hy1, hy2, hm⟩ | ⟨y, hy, hm⟩
    · exact Or.inl ⟨x, hx, hm⟩
    · exact Or.inr (Or.inl ⟨x, hx1, hx2, hm⟩)
    · refine Or.inr (Or.inr (Or.inl ⟨y, ?_, hy2, hm⟩))
      rcases Nat.lt_or_ge k y with hlt | hge
      · omega
      · exfalso
        have hyk : y = k := by omega
        subst hyk
        exact hnot hm
    · exact Or.inr (Or.inr (Or.inr ⟨y, hy, hm⟩))
  · intro hyp
    refine ⟨?_, ?_⟩
    · rcases hyp with ⟨x, hx, hm⟩ | ⟨x, hx1, hx2, hm⟩ | ⟨y, hy1, hy2, hm⟩ | ⟨y, hy, hm⟩
      · exact Or.inl ⟨x, hx, hm⟩
      · exact Or.inr (Or.inl ⟨x, hx1, hx2, hm⟩)
      · exact Or.inr (Or.inr (Or.inl ⟨y, by omega, hy2, hm⟩))
      · exact Or.inr (Or.inr (Or.inr ⟨y, hy, hm⟩))
    · intro hnot
      rcases hnot with ⟨⟨hn1, hn2⟩, hn3, hn4⟩ | ⟨⟨hn1, hn2⟩, hn3, hn4⟩ <;>
      rcases hyp with
          ⟨x, hx, ⟨⟨hm1, hm2⟩, hm3, hm4⟩ | ⟨⟨hm1, hm2⟩, hm3, hm4⟩⟩ |
          ⟨x, hx1, hx2, ⟨⟨hm1, hm2⟩, hm3, hm4⟩ | ⟨⟨hm1, hm2⟩, hm3, hm4⟩⟩ |
          ⟨y, hy1, hy2, ⟨⟨hm1, hm2⟩, hm3, hm4⟩ | ⟨⟨hm1, hm2⟩, hm3, hm4⟩⟩ |
          ⟨y, hy, ⟨⟨hm1, hm2⟩, hm3, hm4⟩ | ⟨⟨hm1, hm2⟩, hm3, hm4⟩⟩ <;>
        omega

theorem trB_pop (w h i : Nat) (hh1 : 1 ≤ h) (hi : i < w) (u v : Point) :
    (StageE w h w i h h u v ∧ ¬ unordIs u v (i, h) (i+1, h)) ↔
      StageE w h w (i+1) h h u v := by
  obtain ⟨u1, u2⟩ := u
  obtain ⟨v1, v2⟩ := v
  simp only [StageE, unordIs, Prod.mk.injEq]
  constructor
  · rintro ⟨hyp, hnot⟩
    rcases hyp with ⟨x, hx, hm⟩ | ⟨x, hx1, hx2, hm⟩ | ⟨y, hy1, hy2, hm⟩ | ⟨y, hy, hm⟩
    · exact Or.inl ⟨x, hx, hm⟩
    · refine Or.inr (Or.inl ⟨x, ?_, hx2, hm⟩)
      rcases Nat.lt_or_ge i x with hlt | hge
      · omega
      · exfalso
        have hxi : x = i := by omega
        subst hxi
        exact hnot hm
    · exact Or.inr (Or.inr (Or.inl ⟨y, hy1, hy2, hm⟩))
    · exact Or.inr (Or.inr (Or.inr ⟨y, hy, hm⟩))
  · intro hyp
    refine ⟨?_, ?_⟩
    · rcases hyp with ⟨x, hx, hm⟩ | ⟨x, hx1, hx2, hm⟩ | ⟨y, hy1, hy2, hm⟩ | ⟨y, hy, hm⟩
      · exact Or.inl ⟨x, hx, hm⟩
      · exact Or.inr (Or.inl ⟨x, by omega, hx2, hm⟩)
      · exact Or.inr (Or.inr (Or.inl ⟨y, hy1, hy2, hm⟩))
      · exact Or.inr (Or.inr (Or.inr ⟨y, hy, hm⟩))
    · intro hnot
      rcases hnot with ⟨⟨hn1, hn2⟩, hn3, hn4⟩ | ⟨⟨hn1, hn2⟩, hn3, hn4⟩ <;>
      rcases hyp with
          ⟨x, hx, ⟨⟨hm1, hm2⟩, hm3, hm4⟩ | ⟨⟨hm1, hm2⟩, hm3, hm4⟩⟩ |
          ⟨x, hx1, hx2, ⟨⟨hm1, hm2⟩, hm3, hm4⟩ | ⟨⟨hm1, hm2⟩, hm3, hm4⟩⟩ |
          ⟨y, hy1, hy2, ⟨⟨hm1, hm2⟩, hm3, hm4⟩ | ⟨⟨hm1, hm2⟩, hm3, hm4⟩⟩ |
          ⟨y, hy, ⟨⟨hm1, hm2⟩, hm3, hm4⟩ | ⟨⟨hm1, hm2⟩, hm3, hm4⟩⟩ <;>
        omega

theorem trR_pop (w h k : Nat) (u v : Point) :
    (StageE w h w w h (k+1) u v ∧ ¬ unordIs u v (w, k) (w, k+1)) ↔
      StageE w h w w h k u v := by
  obtain ⟨u1, u2⟩ := u
  obtain ⟨v1, v2⟩ := v
  simp only [StageE, unordIs, Prod.mk.injEq]
  constructor
  · rintro ⟨hyp, hnot⟩
    rcases hyp with ⟨x, hx, hm⟩ | ⟨x, hx1, hx2, hm⟩ | ⟨y, hy1, hy2, hm⟩ | ⟨y, hy, hm⟩
    · exact Or.inl ⟨x, hx, hm⟩
    · exact Or.inr (Or.inl ⟨x, hx1, hx2, hm⟩)
    · exact Or.inr (Or.inr (Or.inl ⟨y, hy1, hy2, hm⟩))
    · refine Or.inr (Or.inr (Or.inr ⟨y, ?_, hm⟩))
      rcases Nat.lt_or_ge y k with hlt | hge
      · omega
      · exfalso
        have hyk : y = k := by omega
        subst hyk
        exact hnot hm
  · intro hyp
    refine ⟨?_, ?_⟩
    · rcases hyp with ⟨x, hx, hm⟩ | ⟨x, hx1, hx2, hm⟩ | ⟨y, hy1, hy2, hm⟩ | ⟨y, hy, hm⟩
      · exact Or.inl ⟨x, hx, hm⟩
      · exact Or.inr (Or.inl ⟨x, hx1, hx2, hm⟩)
      · exact Or.inr (Or.inr (Or.inl ⟨y, hy1, hy2, hm⟩))
      · exact Or.inr (Or.inr (Or.inr ⟨y, by omega, hm⟩))
    · intro hnot
      rcases hnot with ⟨⟨hn1, hn2⟩, hn3, hn4⟩ | ⟨⟨hn1, hn2⟩, hn3, hn4⟩ <;>
      rcases hyp with
          ⟨x, hx, ⟨⟨hm1, hm2⟩, hm3, hm4⟩ | ⟨⟨hm1, hm2⟩, hm3, hm4⟩⟩ |
          ⟨x, hx1, hx2, ⟨⟨hm1, hm2⟩, hm3, hm4⟩ | ⟨⟨hm1, hm2⟩, hm3, hm4⟩⟩ |
          ⟨y, hy1, hy2, ⟨⟨hm1, hm2⟩, hm3, hm4⟩ | ⟨⟨hm1, hm2⟩, hm3, hm4⟩⟩ |
          ⟨y, hy, ⟨⟨hm1, hm2⟩, hm3, hm4⟩ | ⟨⟨hm1, hm2⟩, hm3, hm4⟩⟩ <;>
        omega

theorem trT_pop (w h j : Nat) (u v : Point) :
    (StageE w h (j+1) w h 0 u v ∧ ¬ unordIs u v (j, (0:Nat)) (j+1, (0:Nat))) ↔
      StageE w h j w h 0 u v := by
  obtain ⟨u1, u2⟩ := u
  obtain ⟨v1, v2⟩ := v
  simp only [StageE, unordIs, Prod.mk.injEq]
  constructor
  · rintro ⟨hyp, hnot⟩
    rcases hyp with ⟨x, hx, hm⟩ | ⟨x, hx1, hx2, hm⟩ | ⟨y, hy1, hy2, hm⟩ | ⟨y, hy, hm⟩
    · refine Or.inl ⟨x, ?_, hm⟩
      rcases Nat.lt_or_ge x j with hlt | hge
      · omega
      · exfalso
        have hxj : x = j := by omega
        subst hxj
        exact hnot hm
    · exact Or.inr (Or.inl ⟨x, hx1, hx2, hm⟩)
    · exact Or.inr (Or.inr (Or.inl ⟨y, hy1, hy2, hm⟩))
    · exact Or.inr (Or.inr (Or.inr ⟨y, hy, hm⟩))
  · intro hyp
    refine ⟨?_, ?_⟩
    · rcases hyp with ⟨x, hx, hm⟩ | ⟨x, hx1, hx2, hm⟩ | ⟨y, hy1, hy2, hm⟩ | ⟨y, hy, hm⟩
      · exact Or.inl ⟨x, by omega, hm⟩
      · exact Or.inr (Or.inl ⟨x, hx1, hx2, hm⟩)
      · exact Or.inr (Or.inr (Or.inl ⟨y, hy1, hy2, hm⟩))
      · exact Or.inr (Or.inr (Or.inr ⟨y, hy, hm⟩))
    · intro hnot
      rcases hnot with ⟨⟨hn1, hn2⟩, hn3, hn4⟩ | ⟨⟨hn1, hn2⟩, hn3, hn4⟩ <;>
      rcases hyp with
          ⟨x, hx, ⟨⟨hm1, hm2⟩, hm3, hm4⟩ | ⟨⟨hm1, hm2⟩, hm3, hm4⟩⟩ |
          ⟨x, hx1, hx2, ⟨⟨hm1, hm2⟩, hm3, hm4⟩ | ⟨⟨hm1, hm2⟩, hm3, hm4⟩⟩ |
          ⟨y, hy1, hy2, ⟨⟨hm1, hm2⟩, hm3, hm4⟩ | ⟨⟨hm1, hm2⟩, hm3, hm4⟩⟩ |
          ⟨y, hy, ⟨⟨hm1, hm2⟩, hm3, hm4⟩ | ⟨⟨hm1, hm2⟩, hm3, hm4⟩⟩ <;>
        omega

theorem StageE_empty (w h : Nat) (u v : Point) :
    StageE w h 0 w h 0 u v → False := by
  rintro (⟨x, hx, -⟩ | ⟨x, hx1, hx2, -⟩ | ⟨y, hy1, hy2, -⟩ | ⟨y, hy, -⟩) <;> omega

theorem detD (w h k : Nat) (hw1 : 1 ≤ w) (hk1 : 1 ≤ k) (hkh : k < h) (q : Point) :
    StageE w h w 0 k h ((0:Nat), k) q → q = ((0:Nat), k+1) := by
  obtain ⟨q1, q2⟩ := q
  intro hS
  rw [Prod.mk.injEq]
  simp only [StageE, unordIs, Prod.mk.injEq] at hS
  rcases hS with
      ⟨x, hx, ⟨⟨h1, h2⟩, h3, h4⟩ | ⟨⟨h1, h2⟩, h3, h4⟩⟩ |
      ⟨x, hx1, hx2, ⟨⟨h1, h2⟩, h3, h4⟩ | ⟨⟨h1, h2⟩, h3, h4⟩⟩ |
      ⟨y, hy1, hy2, ⟨⟨h1, h2⟩, h3, h4⟩ | ⟨⟨h1, h2⟩, h3, h4⟩⟩ |
      ⟨y, hy, ⟨⟨h1, h2⟩, h3, h4⟩ | ⟨⟨h1, h2⟩, h3, h4⟩⟩ <;>
    omega

theorem detD_corner (w h : Nat) (hw1 : 1 ≤ w) (hh1 : 1 ≤ h) (q : Point) :
    StageE w h w 0 h h ((0:Nat), h) q → q = ((1:Nat), h) := by
  obtain ⟨q1, q2⟩ := q
  intro hS
  rw [Prod.mk.injEq]
  simp only [StageE, unordIs, Prod.mk.injEq] at hS
  rcases hS with
      ⟨x, hx, ⟨⟨h1, h2⟩, h3, h4⟩ | ⟨⟨h1, h2⟩, h3, h4⟩⟩ |
      ⟨x, hx1, hx2, ⟨⟨h1, h2⟩, h3, h4⟩ | ⟨⟨h1, h2⟩, h3, h4⟩⟩ |
      ⟨y, hy1, hy2, ⟨⟨h1, h2⟩, h3, h4⟩ | ⟨⟨h1, h2⟩, h3, h4⟩⟩ |
      ⟨y, hy, ⟨⟨h1, h2⟩, h3, h4⟩ | ⟨⟨h1, h2⟩, h3, h4⟩⟩ <;>
    omega

theorem detB (w h i : Nat) (hh1 : 1 ≤ h) (hi1 : 1 ≤ i) (hiw : i < w) (q : Point) :
    StageE w h w i h h (i, h) q → q = (i+1, h) := by
  obtain ⟨q1, q2⟩ := q
  intro hS
  rw [Prod.mk.injEq]
  simp only [StageE, unordIs, Prod.mk.injEq] at hS
  rcases hS with
      ⟨x, hx, ⟨⟨h1, h2⟩, h3, h4⟩ | ⟨⟨h1, h2⟩, h3, h4⟩⟩ |
      ⟨x, hx1, hx2, ⟨⟨h1, h2⟩, h3, h4⟩ | ⟨⟨h1, h2⟩, h3, h4⟩⟩ |
      ⟨y, hy1, hy2, ⟨⟨h1, h2⟩, h3, h4⟩ | ⟨⟨h1, h2⟩, h3, h4⟩⟩ |
      ⟨y, hy, ⟨⟨h1, h2⟩, h3, h4⟩ | ⟨⟨h1, h2⟩, h3, h4⟩⟩ <;>
    omega

theorem detB_corner (w h : Nat) (hh1 : 1 ≤ h) (q : Point) :
    StageE w h w w h h (w, h) q → q = (w, h - 1) := by
  obtain ⟨q1, q2⟩ := q
  intro hS
  rw [Prod.mk.injEq]
  simp only [StageE, unordIs, Prod.mk.injEq] at hS
  rcases hS with
      ⟨x, hx, ⟨⟨h1, h2⟩, h3, h4⟩ | ⟨⟨h1, h2⟩, h3, h4⟩⟩ |
      ⟨x, hx1, hx2, ⟨⟨h1, h2⟩, h3, h4⟩ | ⟨⟨h1, h2⟩, h3, h4⟩⟩ |
      ⟨y, hy1, hy2, ⟨⟨h1, h2⟩, h3, h4⟩ | ⟨⟨h1, h2⟩, h3, h4⟩⟩ |
      ⟨y, hy, ⟨⟨h1, h2⟩, h3, h4⟩ | ⟨⟨h1, h2⟩, h3, h4⟩⟩ <;>
    omega

theorem detR (w h k : Nat) (q : Point) :
    StageE w h w w h (k+1) (w, k+1) q → q = (w, k) := by
  obtain ⟨q1, q2⟩ := q
  intro hS
  rw [Prod.mk.injEq]
  simp only [StageE, unordIs, Prod.mk.injEq] at hS
  rcases hS with
      ⟨x, hx, ⟨⟨h1, h2⟩, h3, h4⟩ | ⟨⟨h1, h2⟩, h3, h4⟩⟩ |
      ⟨x, hx1, hx2, ⟨⟨h1, h2⟩, h3, h4⟩ | ⟨⟨h1, h2⟩, h3, h4⟩⟩ |
      ⟨y, hy1, hy2, ⟨⟨h1, h2⟩, h3, h4⟩ | ⟨⟨h1, h2⟩, h3, h4⟩⟩ |
      ⟨y, hy, ⟨⟨h1, h2⟩, h3, h4⟩ | ⟨⟨h1, h2⟩, h3, h4⟩⟩ <;>
    omega

theorem detT (w h j : Nat) (q : Point) :
    StageE w h (j+1) w h 0 (j+1, (0:Nat)) q → q = (j, (0:Nat)) := by
  obtain ⟨q1, q2⟩ := q
  intro hS
  rw [Prod.mk.injEq]
  simp only [StageE, unordIs, Prod.mk.injEq] at hS
  rcases hS with
      ⟨x, hx, ⟨⟨h1, h2⟩, h3, h4⟩ | ⟨⟨h1, h2⟩, h3, h4⟩⟩ |
      ⟨x, hx1, hx2, ⟨⟨h1, h2⟩, h3, h4⟩ | ⟨⟨h1, h2⟩, h3, h4⟩⟩ |
      ⟨y, hy1, hy2, ⟨⟨h1, h2⟩, h3, h4⟩ | ⟨⟨h1, h2⟩, h3, h4⟩⟩ |
      ⟨y, hy, ⟨⟨h1, h2⟩, h3, h4⟩ | ⟨⟨h1, h2⟩, h3, h4⟩⟩ <;>
    omega

theorem detStart (w h : Nat) (hw1 : 1 ≤ w) (hh1 : 1 ≤ h) (q : Point) :
    StageE w h w 0 0 h ((0:Nat), (0:Nat)) q →
      q = ((1:Nat), (0:Nat)) ∨ q = ((0:Nat), (1:Nat)) := by
  obtain ⟨q1, q2⟩ := q
  intro hS
  rw [Prod.mk.injEq, Prod.mk.injEq]
  simp only [StageE, unordIs, Prod.mk.injEq] at hS
  rcases hS with
      ⟨x, hx, ⟨⟨h1, h2⟩, h3, h4⟩ | ⟨⟨h1, h2⟩, h3, h4⟩⟩ |
      ⟨x, hx1, hx2, ⟨⟨h1, h2⟩, h3, h4⟩ | ⟨⟨h1, h2⟩, h3, h4⟩⟩ |
      ⟨y, hy1, hy2, ⟨⟨h1, h2⟩, h3, h4⟩ | ⟨⟨h1, h2⟩, h3, h4⟩⟩ |
      ⟨y, hy, ⟨⟨h1, h2⟩, h3, h4⟩ | ⟨⟨h1, h2⟩, h3, h4⟩⟩ <;>
    omega

theorem forced_listMin (G : Adj) (current nextV : Point) (prev : Option Point)
    (nbrs : List Point)
    (hlk : lookupAdj G current = some nbrs)
    (hE : hasEdge G current nextV = true)
    (hdet : ∀ q, hasEdge G current q = true → q = nextV)
    (hprev : ∀ p, prev = some p → nextV ≠ p) :
    listMin (candsOf prev nbrs) = some nextV := by
  have hmem : nextV ∈ nbrs := by
    obtain ⟨s, hs, hm⟩ := hasEdge_lookup G current nextV hE
    rw [hlk, Option.some.injEq] at hs
    rw [hs]
    exact hm
  have hmemc : nextV ∈ candsOf prev nbrs := by
    cases prev with
    | none => exact hmem
    | some p =>
      refine List.mem_filter.mpr ⟨hmem, ?_⟩
      exact decide_eq_true (hprev p rfl)
  apply listMin_eq_some _ _ hmemc
  intro q hq
  have hqn : q ∈ nbrs := candsOf_subset prev nbrs q hq
  rw [hdet q (hasEdge_of_lookup_mem G current q nbrs hlk hqn)]
  exact ptLe_refl nextV

theorem start_listMin (G : Adj) (nbrs : List Point)
    (hlk : lookupAdj G ((0:Nat), (0:Nat)) = some nbrs)
    (hE : hasEdge G ((0:Nat), (0:Nat)) ((0:Nat), (1:Nat)) = true)
    (hdet : ∀ q, hasEdge G ((0:Nat), (0:Nat)) q = true →
      q = ((1:Nat), (0:Nat)) ∨ q = ((0:Nat), (1:Nat))) :
    listMin (candsOf none nbrs) = some ((0:Nat), (1:Nat)) := by
  have hmem : ((0:Nat), (1:Nat)) ∈ nbrs := by
    obtain ⟨s, hs, hm⟩ := hasEdge_lookup G _ _ hE
    rw [hlk, Option.some.injEq] at hs
    rw [hs]
    exact hm
  apply listMin_eq_some _ _ hmem
  intro q hq
  rcases hdet q (hasEdge_of_lookup_mem G _ q nbrs hlk hq) with hc | hc <;> rw [hc]
  · exact (by decide : ptLe ((0:Nat), (1:Nat)) ((1:Nat), (0:Nat)) = true)
  · exact ptLe_refl _

theorem range_map_cons {α : Type} (f : Nat → α) (n : Nat) :
    (List.range (n + 1)).map f = f 0 :: (List.range n).map (fun t => f (t + 1)) := by
  rw [List.range_succ_eq_map, List.map_cons, List.map_map]
  rfl

theorem range_map_ext {α : Type} (f g : Nat → α) (n : Nat)
    (h : ∀ t, t < n → f t = g t) :
    (List.range n).map f = (List.range n).map g := by
  induction n with
  | zero => rfl
  | succ m ih =>
    rw [List.range_succ, List.map_append, List.map_append]
    rw [ih (fun t ht => h t (by omega))]
    simp [h m (by omega)]

theorem downFrom_cons (h k : Nat) (hk : k < h) :
    downFrom h k = ((0:Nat), k + 1) :: downFrom h (k + 1) := by
  unfold downFrom
  rw [show h - k = (h - (k + 1)) + 1 from by omega, range_map_cons]
  refine congrArg₂ List.cons rfl ?_
  apply range_map_ext
  intro t ht
  rw [Prod.mk.injEq]
  exact ⟨rfl, by omega⟩

theorem bottomFrom_cons (w h i : Nat) (hi : i < w) :
    bottomFrom w h i = (i + 1, h) :: bottomFrom w h (i + 1) := by
  unfold bottomFrom
  rw [show w - i = (w - (i + 1)) + 1 from by omega, range_map_cons]
  refine congrArg₂ List.cons rfl ?_
  apply range_map_ext
  intro t ht
  rw [Prod.mk.injEq]
  exact ⟨by omega, rfl⟩

theorem rightPathFrom_cons (w k : Nat) :
    rightPathFrom w (k + 1) = (w, k) :: rightPathFrom w k := by
  unfold rightPathFrom
  rw [range_map_cons]
  refine congrArg₂ List.cons ?_ ?_
  · rw [Prod.mk.injEq]
    exact ⟨rfl, by omega⟩
  · apply range_map_ext
    intro t ht
    rw [Prod.mk.injEq]
    exact ⟨rfl, by omega⟩

theorem topPathFrom_cons (n : Nat) :
    topPathFrom (n + 2) = (n + 1, (0:Nat)) :: topPathFrom (n + 1) := by
  unfold topPathFrom
  rw [show n + 2 - 1 = (n + 1 - 1) + 1 from by omega, range_map_cons]
  refine congrArg₂ List.cons ?_ ?_
  · rw [Prod.mk.injEq]
    exact ⟨by omega, rfl⟩
  · apply range_map_ext
    intro t ht
    rw [Prod.mk.injEq]
    exact ⟨by omega, rfl⟩

theorem phase_T (w h : Nat) :
    ∀ (j1 : Nat) (G : Adj), j1 + 1 ≤ w → WFG G →
    (∀ u v, hasEdge G u v = true ↔ StageE w h (j1 + 1) w h 0 u v) →
    Forced ((0:Nat), (0:Nat)) G (some (j1 + 2, (0:Nat))) (j1 + 1, (0:Nat))
      (topPathFrom (j1 + 1)) [] := by
  intro j1
  induction j1 with
  | zero =>
    intro G hjw hwf hext
    have hE : hasEdge G ((1:Nat), (0:Nat)) ((0:Nat), (0:Nat)) = true := by
      rw [hext]
      exact Or.inl ⟨0, Nat.zero_lt_one, Or.inr ⟨rfl, rfl⟩⟩
    obtain ⟨nbrs, hlk, -⟩ := hasEdge_lookup G _ _ hE
    have hdet : ∀ q, hasEdge G ((1:Nat), (0:Nat)) q = true →
        q = ((0:Nat), (0:Nat)) := by
      intro q hq
      exact detT w h 0 q ((hext _ q).mp hq)
    have hmin := forced_listMin G ((1:Nat), (0:Nat)) ((0:Nat), (0:Nat))
      (some ((2:Nat), (0:Nat))) nbrs hlk hE hdet
      (by intro p hp; rw [Option.some.injEq] at hp; rw [← hp]; decide)
    have hfin : popEdge G ((1:Nat), (0:Nat)) ((0:Nat), (0:Nat)) = [] := by
      apply adj_eq_nil_of_no_edges _ (WFG_popEdge G _ _ hwf).1
      intro u v hc
      obtain ⟨hE2, hn1, hn2⟩ := (hasEdge_popEdge_iff G _ _ u v hwf.1.1).mp hc
      rw [hext] at hE2
      exact StageE_empty w h u v
        ((trT_pop w h 0 u v).mp ⟨hE2, fun hun => hun.elim hn2 hn1⟩)
    have hforced := Forced.close G (some ((2:Nat), (0:Nat))) ((1:Nat), (0:Nat))
      nbrs hlk hmin
    rw [hfin] at hforced
    exact hforced
  | succ j2 ih =>
    intro G hjw hwf hext
    show Forced ((0:Nat), (0:Nat)) G (some (j2 + 3, (0:Nat))) (j2 + 2, (0:Nat))
      (topPathFrom (j2 + 2)) []
    have hE : hasEdge G (j2 + 2, (0:Nat)) (j2 + 1, (0:Nat)) = true := by
      rw [hext]
      exact Or.inl ⟨j2 + 1, by omega, Or.inr ⟨rfl, rfl⟩⟩
    obtain ⟨nbrs, hlk, -⟩ := hasEdge_lookup G _ _ hE
    have hdet : ∀ q, hasEdge G (j2 + 2, (0:Nat)) q = true →
        q = (j2 + 1, (0:Nat)) := by
      intro q hq
      exact detT w h (j2 + 1) q ((hext _ q).mp hq)
    have hmin := forced_listMin G (j2 + 2, (0:Nat)) (j2 + 1, (0:Nat))
      (some (j2 + 3, (0:Nat))) nbrs hlk hE hdet
      (by intro p hp
          rw [Option.some.injEq] at hp
          rw [← hp]
          intro hc
          rw [Prod.mk.injEq] at hc
          omega)
    have hne : (j2 + 1, (0:Nat)) ≠ ((0:Nat), (0:Nat)) := by
      intro hc
      rw [Prod.mk.injEq] at hc
      omega
    have hwf2 := WFG_popEdge G (j2 + 2, (0:Nat)) (j2 + 1, (0:Nat)) hwf
    have hext2 : ∀ u v,
        hasEdge (popEdge G (j2 + 2, (0:Nat)) (j2 + 1, (0:Nat))) u v = true ↔
          StageE w h (j2 + 1) w h 0 u v := by
      intro u v
      rw [hasEdge_popEdge_iff G _ _ u v hwf.1.1, hext u v]
      rw [← trT_pop w h (j2 + 1) u v]
      constructor
      · rintro ⟨hS, hn1, hn2⟩
        exact ⟨hS, fun hun => hun.elim hn2 hn1⟩
      · rintro ⟨hS, hnot⟩
        exact ⟨hS, fun hc => hnot (Or.inr hc), fun hc => hnot (Or.inl hc)⟩
    have hrec := ih (popEdge G (j2 + 2, (0:Nat)) (j2 + 1, (0:Nat)))
      (by omega) hwf2 hext2
    have hstep := Forced.step G (some (j2 + 3, (0:Nat))) (j2 + 2, (0:Nat))
      (j2 + 1, (0:Nat)) nbrs (topPathFrom (j2 + 1)) [] hlk hmin hne hrec
    rw [topPathFrom_cons j2]
    exact hstep

theorem phase_R (w h : Nat) (hw1 : 1 ≤ w) :
    ∀ (k : Nat) (G : Adj), WFG G →
    (∀ u v, hasEdge G u v = true ↔ StageE w h w w h k u v) →
    Forced ((0:Nat), (0:Nat)) G (some (w, k + 1)) (w, k)
      (rightPathFrom w k ++ topPathFrom w) [] := by
  intro k
  induction k with
  | zero =>
    intro G hwf hext
    obtain ⟨w2, rfl⟩ : ∃ w2, w = w2 + 1 := ⟨w - 1, by omega⟩
    cases w2 with
    | zero =>
      have hE : hasEdge G ((1:Nat), (0:Nat)) ((0:Nat), (0:Nat)) = true := by
        rw [hext]
        exact Or.inl ⟨0, Nat.zero_lt_one, Or.inr ⟨rfl, rfl⟩⟩
      obtain ⟨nbrs, hlk, -⟩ := hasEdge_lookup G _ _ hE
      have hdet : ∀ q, hasEdge G ((1:Nat), (0:Nat)) q = true →
          q = ((0:Nat), (0:Nat)) := by
        intro q hq
        exact detT 1 h 0 q ((hext _ q).mp hq)
      have hmin := forced_listMin G ((1:Nat), (0:Nat)) ((0:Nat), (0:Nat))
        (some ((1:Nat), (1:Nat))) nbrs hlk hE hdet
        (by intro p hp; rw [Option.some.injEq] at hp; rw [← hp]; decide)
      have hfin : popEdge G ((1:Nat), (0:Nat)) ((0:Nat), (0:Nat)) = [] := by
        apply adj_eq_nil_of_no_edges _ (WFG_popEdge G _ _ hwf).1
        intro u v hc
        obtain ⟨hE2, hn1, hn2⟩ := (hasEdge_popEdge_iff G _ _ u v hwf.1.1).mp hc
        rw [hext] at hE2
        exact StageE_empty 1 h u v
          ((trT_pop 1 h 0 u v).mp ⟨hE2, fun hun => hun.elim hn2 hn1⟩)
      have hforced := Forced.close G (some ((1:Nat), (1:Nat))) ((1:Nat), (0:Nat))
        nbrs hlk hmin
      rw [hfin] at hforced
      exact hforced
    | succ w3 =>
      show Forced ((0:Nat), (0:Nat)) G (some (w3 + 2, (1:Nat))) (w3 + 2, (0:Nat))
        (rightPathFrom (w3 + 2) 0 ++ topPathFrom (w3 + 2)) []
      have hE : hasEdge G (w3 + 2, (0:Nat)) (w3 + 1, (0:Nat)) = true := by
        rw [hext]
        exact Or.inl ⟨w3 + 1, by omega, Or.inr ⟨rfl, rfl⟩⟩
      obtain ⟨nbrs, hlk, -⟩ := hasEdge_lookup G _ _ hE
      have hdet : ∀ q, hasEdge G (w3 + 2, (0:Nat)) q = true →
          q = (w3 + 1, (0:Nat)) := by
        intro q hq
        exact detT (w3 + 2) h (w3 + 1) q ((hext _ q).mp hq)
      have hmin := forced_listMin G (w3 + 2, (0:Nat)) (w3 + 1, (0:Nat))
        (some (w3 + 2, (1:Nat))) nbrs hlk hE hdet
        (by intro p hp
            rw [Option.some.injEq] at hp
            rw [← hp]
            intro hc
            rw [Prod.mk.injEq] at hc
            omega)
      have hne : (w3 + 1, (0:Nat)) ≠ ((0:Nat), (0:Nat)) := by
        intro hc
        rw [Prod.mk.injEq] at hc
        omega
      have hwf2 := WFG_popEdge G (w3 + 2, (0:Nat)) (w3 + 1, (0:Nat)) hwf
      have hext2 : ∀ u v,
          hasEdge (popEdge G (w3 + 2, (0:Nat)) (w3 + 1, (0:Nat))) u v = true ↔
            StageE (w3 + 2) h (w3 + 1) (w3 + 2) h 0 u v := by
        intro u v
        rw [hasEdge_popEdge_iff G _ _ u v hwf.1.1, hext u v]
        rw [← trT_pop (w3 + 2) h (w3 + 1) u v]
        constructor
        · rintro ⟨hS, hn1, hn2⟩
          exact ⟨hS, fun hun => hun.elim hn2 hn1⟩
        · rintro ⟨hS, hnot⟩
          exact ⟨hS, fun hc => hnot (Or.inr hc), fun hc => hnot (Or.inl hc)⟩
      have hrec := phase_T (w3 + 2) h w3
        (popEdge G (w3 + 2, (0:Nat)) (w3 + 1, (0:Nat))) (by omega) hwf2 hext2
      have hstep := Forced.step G (some (w3 + 2, (1:Nat))) (w3 + 2, (0:Nat))
        (w3 + 1, (0:Nat)) nbrs (topPathFrom (w3 + 1)) [] hlk hmin hne hrec
      show Forced ((0:Nat), (0:Nat)) G (some (w3 + 2, (1:Nat))) (w3 + 2, (0:Nat))
        (topPathFrom (w3 + 2)) []
      rw [topPathFrom_cons w3]
      exact hstep
  | succ k2 ih =>
    intro G hwf hext
    have hE : hasEdge G (w, k2 + 1) (w, k2) = true := by
      rw [hext]
      exact Or.inr (Or.inr (Or.inr ⟨k2, by omega, Or.inr ⟨rfl, rfl⟩⟩))
    obtain ⟨nbrs, hlk, -⟩ := hasEdge_lookup G _ _ hE
    have hdet : ∀ q, hasEdge G (w, k2 + 1) q = true → q = (w, k2) := by
      intro q hq
      exact detR w h k2 q ((hext _ q).mp hq)
    have hmin := forced_listMin G (w, k2 + 1) (w, k2)
      (some (w, k2 + 2)) nbrs hlk hE hdet
      (by intro p hp
          rw [Option.some.injEq] at hp
          rw [← hp]
          intro hc
          rw [Prod.mk.injEq] at hc
          omega)
    have hne : ((w, k2) : Point) ≠ ((0:Nat), (0:Nat)) := by
      intro hc
      rw [Prod.mk.injEq] at hc
      omega
    have hwf2 := WFG_popEdge G (w, k2 + 1) (w, k2) hwf
    have hext2 : ∀ u v,
        hasEdge (popEdge G (w, k2 + 1) (w, k2)) u v = true ↔
          StageE w h w w h k2 u v := by
      intro u v
      rw [hasEdge_popEdge_iff G _ _ u v hwf.1.1, hext u v]
      rw [← trR_pop w h k2 u v]
      constructor
      · rintro ⟨hS, hn1, hn2⟩
        exact ⟨hS, fun hun => hun.elim hn2 hn1⟩
      · rintro ⟨hS, hnot⟩
        exact ⟨hS, fun hc => hnot (Or.inr hc), fun hc => hnot (Or.inl hc)⟩
    have hrec := ih (popEdge G (w, k2 + 1) (w, k2)) hwf2 hext2
    have hstep := Forced.step G (some (w, k2 + 2)) (w, k2 + 1) (w, k2) nbrs
      (rightPathFrom w k2 ++ topPathFrom w) [] hlk hmin hne hrec
    rw [rightPathFrom_cons w k2]
    exact hstep

theorem phase_B (w h : Nat) (hw1 : 1 ≤ w) (hh1 : 1 ≤ h) :
    ∀ (d : Nat) (G : Adj), d < w → WFG G →
    (∀ u v, hasEdge G u v = true ↔ StageE w h w (w - d) h h u v) →
    Forced ((0:Nat), (0:Nat)) G (some (w - d - 1, h)) (w - d, h)
      (bottomFrom w h (w - d) ++ rightPathFrom w h ++ topPathFrom w) [] := by
  intro d
  induction d with
  | zero =>
    intro G hd hwf hext
    simp only [Nat.sub_zero] at hext ⊢
    obtain ⟨h2, rfl⟩ : ∃ h2, h = h2 + 1 := ⟨h - 1, by omega⟩
    have hE : hasEdge G (w, h2 + 1) (w, h2) = true := by
      rw [hext]
      exact Or.inr (Or.inr (Or.inr ⟨h2, by omega, Or.inr ⟨rfl, rfl⟩⟩))
    obtain ⟨nbrs, hlk, -⟩ := hasEdge_lookup G _ _ hE
    have hdet : ∀ q, hasEdge G (w, h2 + 1) q = true → q = (w, h2) := by
      intro q hq
      exact detB_corner w (h2 + 1) (by omega) q ((hext _ q).mp hq)
    have hmin := forced_listMin G (w, h2 + 1) (w, h2)
      (some (w - 1, h2 + 1)) nbrs hlk hE hdet
      (by intro p hp
          rw [Option.some.injEq] at hp
          rw [← hp]
          intro hc
          rw [Prod.mk.injEq] at hc
          omega)
    have hne : ((w, h2) : Point) ≠ ((0:Nat), (0:Nat)) := by
      intro hc
      rw [Prod.mk.injEq] at hc
      omega
    have hwf2 := WFG_popEdge G (w, h2 + 1) (w, h2) hwf
    have hext2 : ∀ u v,
        hasEdge (popEdge G (w, h2 + 1) (w, h2)) u v = true ↔
          StageE w (h2 + 1) w w (h2 + 1) h2 u v := by
      intro u v
      rw [hasEdge_popEdge_iff G _ _ u v hwf.1.1, hext u v]
      rw [← trR_pop w (h2 + 1) h2 u v]
      constructor
      · rintro ⟨hS, hn1, hn2⟩
        exact ⟨hS, fun hun => hun.elim hn2 hn1⟩
      · rintro ⟨hS, hnot⟩
        exact ⟨hS, fun hc => hnot (Or.inr hc), fun hc => hnot (Or.inl hc)⟩
    have hrec := phase_R w (h2 + 1) hw1 h2
      (popEdge G (w, h2 + 1) (w, h2)) hwf2 hext2
    have hstep := Forced.step G (some (w - 1, h2 + 1)) (w, h2 + 1) (w, h2) nbrs
      _ [] hlk hmin hne hrec
    have hbf : bottomFrom w (h2 + 1) w = [] := by
      unfold bottomFrom
      rw [Nat.sub_self]
      rfl
    rw [hbf, List.nil_append, rightPathFrom_cons w h2]
    exact hstep
  | succ d2 ih =>
    intro G hd hwf hext
    obtain ⟨n, hw⟩ : ∃ n, w = n + (d2 + 1) := ⟨w - (d2 + 1), by omega⟩
    subst hw
    rw [show n + (d2 + 1) - (d2 + 1) = n from by omega] at hext ⊢
    have hn1 : 1 ≤ n := by omega
    have hE : hasEdge G (n, h) (n + 1, h) = true := by
      rw [hext]
      exact Or.inr (Or.inl ⟨n, by omega, by omega, Or.inl ⟨rfl, rfl⟩⟩)
    obtain ⟨nbrs, hlk, -⟩ := hasEdge_lookup G _ _ hE
    have hdet : ∀ q, hasEdge G (n, h) q = true → q = (n + 1, h) := by
      intro q hq
      exact detB (n + (d2 + 1)) h n hh1 hn1 (by omega) q ((hext _ q).mp hq)
    have hmin := forced_listMin G (n, h) (n + 1, h)
      (some (n - 1, h)) nbrs hlk hE hdet
      (by intro p hp
          rw [Option.some.injEq] at hp
          rw [← hp]
          intro hc
          rw [Prod.mk.injEq] at hc
          omega)
    have hne : (n + 1, h) ≠ ((0:Nat), (0:Nat)) := by
      intro hc
      rw [Prod.mk.injEq] at hc
      omega
    have hwf2 := WFG_popEdge G (n, h) (n + 1, h) hwf
    have hext2 : ∀ u v,
        hasEdge (popEdge G (n, h) (n + 1, h)) u v = true ↔
          StageE (n + (d2 + 1)) h (n + (d2 + 1)) (n + 1) h h u v := by
      intro u v
      rw [hasEdge_popEdge_iff G _ _ u v hwf.1.1, hext u v]
      rw [← trB_pop (n + (d2 + 1)) h n hh1 (by omega) u v]
      constructor
      · rintro ⟨hS, hc1, hc2⟩
        exact ⟨hS, fun hun => hun.elim hc1 hc2⟩
      · rintro ⟨hS, hnot⟩
        exact ⟨hS, fun hc => hnot (Or.inl hc), fun hc => hnot (Or.inr hc)⟩
    have hext2b : ∀ u v,
        hasEdge (popEdge G (n, h) (n + 1, h)) u v = true ↔
          StageE (n + (d2 + 1)) h (n + (d2 + 1)) (n + (d2 + 1) - d2) h h u v := by
      rw [show n + (d2 + 1) - d2 = n + 1 from by omega]
      exact hext2
    have hrec := ih (popEdge G (n, h) (n + 1, h)) (by omega) hwf2 hext2b
    rw [show n + (d2 + 1) - d2 = n + 1 from by omega] at hrec
    have hstep := Forced.step G (some (n - 1, h)) (n, h) (n + 1, h) nbrs
      _ [] hlk hmin hne hrec
    rw [bottomFrom_cons (n + (d2 + 1)) h n (by omega)]
    exact hstep

theorem phase_D (w h : Nat) (hw1 : 1 ≤ w) (hh1 : 1 ≤ h) :
    ∀ (d : Nat) (G : Adj), d < h → WFG G →
    (∀ u v, hasEdge G u v = true ↔ StageE w h w 0 (h - d) h u v) →
    Forced ((0:Nat), (0:Nat)) G (some ((0:Nat), h - d - 1)) ((0:Nat), h - d)
      (downFrom h (h - d) ++ bottomFrom w h 0 ++ rightPathFrom w h ++
        topPathFrom w) [] := by
  intro d
  induction d with
  | zero =>
    intro G hd hwf hext
    simp only [Nat.sub_zero] at hext ⊢
    have hE : hasEdge G ((0:Nat), h) ((1:Nat), h) = true := by
      rw [hext]
      exact Or.inr (Or.inl ⟨0, Nat.le_refl 0, by omega, Or.inl ⟨rfl, rfl⟩⟩)
    obtain ⟨nbrs, hlk, -⟩ := hasEdge_lookup G _ _ hE
    have hdet : ∀ q, hasEdge G ((0:Nat), h) q = true → q = ((1:Nat), h) := by
      intro q hq
      exact detD_corner w h hw1 hh1 q ((hext _ q).mp hq)
    have hmin := forced_listMin G ((0:Nat), h) ((1:Nat), h)
      (some ((0:Nat), h - 1)) nbrs hlk hE hdet
      (by intro p hp
          rw [Option.some.injEq] at hp
          rw [← hp]
          intro hc
          rw [Prod.mk.injEq] at hc
          omega)
    have hne : ((1:Nat), h) ≠ ((0:Nat), (0:Nat)) := by
      intro hc
      rw [Prod.mk.injEq] at hc
      omega
    have hwf2 := WFG_popEdge G ((0:Nat), h) ((1:Nat), h) hwf
    have hext2 : ∀ u v,
        hasEdge (popEdge G ((0:Nat), h) ((1:Nat), h)) u v = true ↔
          StageE w h w (0 + 1) h h u v := by
      intro u v
      rw [hasEdge_popEdge_iff G _ _ u v hwf.1.1, hext u v]
      rw [← trB_pop w h 0 hh1 (by omega) u v]
      constructor
      · rintro ⟨hS, hc1, hc2⟩
        exact ⟨hS, fun hun => hun.elim hc1 hc2⟩
      · rintro ⟨hS, hnot⟩
        exact ⟨hS, fun hc => hnot (Or.inl hc), fun hc => hnot (Or.inr hc)⟩
    have hext2b : ∀ u v,
        hasEdge (popEdge G ((0:Nat), h) ((1:Nat), h)) u v = true ↔
          StageE w h w (w - (w - 1)) h h u v := by
      rw [show w - (w - 1) = 0 + 1 from by omega]
      exact hext2
    have hrec := phase_B w h hw1 hh1 (w - 1)
      (popEdge G ((0:Nat), h) ((1:Nat), h)) (by omega) hwf2 hext2b
    rw [show w - (w - 1) = 1 from by omega] at hrec
    have hstep := Forced.step G (some ((0:Nat), h - 1)) ((0:Nat), h) ((1:Nat), h)
      nbrs _ [] hlk hmin hne hrec
    have hdf : downFrom h h = [] := by
      unfold downFrom
      rw [Nat.sub_self]
      rfl
    rw [hdf, List.nil_append, bottomFrom_cons w h 0 (by omega)]
    exact hstep
  | succ d2 ih =>
    intro G hd hwf hext
    obtain ⟨n, hh⟩ : ∃ n, h = n + (d2 + 1) := ⟨h - (d2 + 1), by omega⟩
    subst hh
    rw [show n + (d2 + 1) - (d2 + 1) = n from by omega] at hext ⊢
    have hn1 : 1 ≤ n := by omega
    have hE : hasEdge G ((0:Nat), n) ((0:Nat), n + 1) = true := by
      rw [hext]
      exact Or.inr (Or.inr (Or.inl ⟨n, Nat.le_refl n, by omega, Or.inl ⟨rfl, rfl⟩⟩))
    obtain ⟨nbrs, hlk, -⟩ := hasEdge_lookup G _ _ hE
    have hdet : ∀ q, hasEdge G ((0:Nat), n) q = true → q = ((0:Nat), n + 1) := by
      intro q hq
      exact detD w (n + (d2 + 1)) n hw1 hn1 (by omega) q ((hext _ q).mp hq)
    have hmin := forced_listMin G ((0:Nat), n) ((0:Nat), n + 1)
      (some ((0:Nat), n - 1)) nbrs hlk hE hdet
      (by intro p hp
          rw [Option.some.injEq] at hp
          rw [← hp]
          intro hc
          rw [Prod.mk.injEq] at hc
          omega)
    have hne : ((0:Nat), n + 1) ≠ ((0:Nat), (0:Nat)) := by
      intro hc
      rw [Prod.mk.injEq] at hc
      omega
    have hwf2 := WFG_popEdge G ((0:Nat), n) ((0:Nat), n + 1) hwf
    have hext2 : ∀ u v,
        hasEdge (popEdge G ((0:Nat), n) ((0:Nat), n + 1)) u v = true ↔
          StageE w (n + (d2 + 1)) w 0 (n + 1) (n + (d2 + 1)) u v := by
      intro u v
      rw [hasEdge_popEdge_iff G _ _ u v hwf.1.1, hext u v]
      rw [← trD_step w (n + (d2 + 1)) n hw1 (by omega) u v]
      constructor
      · rintro ⟨hS, hc1, hc2⟩
        exact ⟨hS, fun hun => hun.elim hc1 hc2⟩
      · rintro ⟨hS, hnot⟩
        exact ⟨hS, fun hc => hnot (Or.inl hc), fun hc => hnot (Or.inr hc)⟩
    have hext2b : ∀ u v,
        hasEdge (popEdge G ((0:Nat), n) ((0:Nat), n + 1)) u v = true ↔
          StageE w (n + (d2 + 1)) w 0 (n + (d2 + 1) - d2) (n + (d2 + 1)) u v := by
      rw [show n + (d2 + 1) - d2 = n + 1 from by omega]
      exact hext2
    have hrec := ih (popEdge G ((0:Nat), n) ((0:Nat), n + 1)) (by omega) hwf2 hext2b
    rw [show n + (d2 + 1) - d2 = n + 1 from by omega] at hrec
    have hstep := Forced.step G (some ((0:Nat), n - 1)) ((0:Nat), n)
      ((0:Nat), n + 1) nbrs _ [] hlk hmin hne hrec
    rw [downFrom_cons (n + (d2 + 1)) n (by omega)]
    exact hstep

theorem headKey_dictAdd (adj : Adj) (v u : Point)
    (h : ∃ s rest, adj = (((0:Nat), (0:Nat)), s) :: rest) :
    ∃ s rest, dictAdd adj v u = (((0:Nat), (0:Nat)), s) :: rest := by
  obtain ⟨s, rest, rfl⟩ := h
  rw [dictAdd]
  split
  · exact ⟨setInsert s u, rest, rfl⟩
  · exact ⟨s, dictAdd rest v u, rfl⟩

theorem headKey_addEdge (adj : Adj) (a b : Point)
    (h : ∃ s rest, adj = (((0:Nat), (0:Nat)), s) :: rest) :
    ∃ s rest, addEdge adj a b = (((0:Nat), (0:Nat)), s) :: rest := by
  unfold addEdge
  exact headKey_dictAdd _ b a (headKey_dictAdd _ a b h)

theorem headKey_ite_addEdge (adj : Adj) (c : Prop) [Decidable c] (a b : Point)
    (h : ∃ s rest, adj = (((0:Nat), (0:Nat)), s) :: rest) :
    ∃ s rest, (if c then addEdge adj a b else adj) =
      (((0:Nat), (0:Nat)), s) :: rest := by
  split
  · exact headKey_addEdge _ _ _ h
  · exact h

theorem headKey_addPixel (m : Mask) (adj : Adj) (x y : Nat)
    (h : ∃ s rest, adj = (((0:Nat), (0:Nat)), s) :: rest) :
    ∃ s rest, addPixel m adj x y = (((0:Nat), (0:Nat)), s) :: rest := by
  unfold addPixel
  split
  · exact h
  · dsimp only
    exact headKey_ite_addEdge _ _ _ _
      (headKey_ite_addEdge _ _ _ _
        (headKey_ite_addEdge _ _ _ _ (headKey_ite_addEdge _ _ _ _ h)))

theorem headKey_first (w h : Nat) :
    ∃ s rest, addPixel (solidRect w h) [] 0 0 =
      (((0:Nat), (0:Nat)), s) :: rest := by
  unfold addPixel
  rw [if_neg (by simp [solidRect] : ¬ (solidRect w h).pix 0 0 = false)]
  dsimp only
  refine headKey_ite_addEdge _ _ _ _
    (headKey_ite_addEdge _ _ _ _ (headKey_ite_addEdge _ _ _ _ ?_))
  rw [if_pos (Or.inl rfl)]
  exact ⟨_, _, rfl⟩

theorem buildAdj_solidRect_head (w h : Nat) (hw1 : 1 ≤ w) (hh1 : 1 ≤ h) :
    ∃ s rest, buildAdj (solidRect w h) = (((0:Nat), (0:Nat)), s) :: rest := by
  obtain ⟨w2, rfl⟩ : ∃ w2, w = w2 + 1 := ⟨w - 1, by omega⟩
  obtain ⟨h2, rfl⟩ : ∃ h2, h = h2 + 1 := ⟨h - 1, by omega⟩
  show ∃ s rest,
    (List.range (h2 + 1)).foldl
      (fun adj y => (List.range (w2 + 1)).foldl
        (fun adj x => addPixel (solidRect (w2 + 1) (h2 + 1)) adj x y) adj) []
      = (((0:Nat), (0:Nat)), s) :: rest
  rw [show List.range (h2 + 1) = 0 :: (List.range h2).map Nat.succ from
    List.range_succ_eq_map h2]
  rw [List.foldl_cons]
  refine foldl_preserve
    (fun adj => ∃ s rest, adj = (((0:Nat), (0:Nat)), s) :: rest) _ ?_ _ _ ?_
  · intro adj y hadj
    exact foldl_preserve
      (fun adj => ∃ s rest, adj = (((0:Nat), (0:Nat)), s) :: rest)
      (fun adj x => addPixel (solidRect (w2 + 1) (h2 + 1)) adj x y)
      (fun adj x hx => headKey_addPixel _ _ x y hx)
      (List.range (w2 + 1)) adj hadj
  · show ∃ s rest,
      (List.range (w2 + 1)).foldl
        (fun adj x => addPixel (solidRect (w2 + 1) (h2 + 1)) adj x 0) []
        = (((0:Nat), (0:Nat)), s) :: rest
    rw [show List.range (w2 + 1) = 0 :: (List.range w2).map Nat.succ from
      List.range_succ_eq_map w2]
    rw [List.foldl_cons]
    refine foldl_preserve
      (fun adj => ∃ s rest, adj = (((0:Nat), (0:Nat)), s) :: rest)
      (fun adj x => addPixel (solidRect (w2 + 1) (h2 + 1)) adj x 0)
      (fun adj x hx => headKey_addPixel _ _ x 0 hx)
      ((List.range w2).map Nat.succ)
      (addPixel (solidRect (w2 + 1) (h2 + 1)) [] 0 0) ?_
    exact headKey_first (w2 + 1) (h2 + 1)

theorem extractGo_cons_ok (fuel : Nat) (adj : Adj) (start : Point)
    (s : List Point) (rest : Adj) (loop : List Point) (adj2 : Adj)
    (loops : List Loop)
    (hadj : adj = (start, s) :: rest)
    (hwalk : walk (totalSize adj + 1) adj start none start [start] =
      .ok (loop, adj2))
    (hrec : extractGo fuel adj2 = .ok loops) :
    extractGo (fuel + 1) adj = .ok (loop :: loops) := by
  subst hadj
  rw [extractGo]
  rw [hwalk]
  dsimp only
  rw [hrec]

theorem traceEdges_solidRect (w h : Nat) (hw1 : 1 ≤ w) (hh1 : 1 ≤ h) :
    traceEdges (solidRect w h) = .ok [rectLoop w h] := by
  have hwf : WFG (buildAdj (solidRect w h)) :=
    ⟨WFS_buildAdj _, hasEdge_buildAdj_symm _, hasEdge_buildAdj_irrefl _⟩
  obtain ⟨s0, rest0, hhead⟩ := buildAdj_solidRect_head w h hw1 hh1
  have hext0 : ∀ u v, hasEdge (buildAdj (solidRect w h)) u v = true ↔
      StageE w h w 0 0 h u v := solidRect_edge_iff w h hw1 hh1
  have hE : hasEdge (buildAdj (solidRect w h)) ((0:Nat), (0:Nat))
      ((0:Nat), (1:Nat)) = true := by
    rw [hext0]
    exact Or.inr (Or.inr (Or.inl ⟨0, Nat.le_refl 0, by omega, Or.inl ⟨rfl, rfl⟩⟩))
  obtain ⟨nbrs, hlk, -⟩ := hasEdge_lookup _ _ _ hE
  have hdetS : ∀ q, hasEdge (buildAdj (solidRect w h)) ((0:Nat), (0:Nat)) q = true →
      q = ((1:Nat), (0:Nat)) ∨ q = ((0:Nat), (1:Nat)) := by
    intro q hq
    exact detStart w h hw1 hh1 q ((hext0 _ q).mp hq)
  have hmin := start_listMin (buildAdj (solidRect w h)) nbrs hlk hE hdetS
  have hne : ((0:Nat), (1:Nat)) ≠ ((0:Nat), (0:Nat)) := by decide
  have hwf2 := WFG_popEdge (buildAdj (solidRect w h)) ((0:Nat), (0:Nat))
    ((0:Nat), (1:Nat)) hwf
  have hext2 : ∀ u v,
      hasEdge (popEdge (buildAdj (solidRect w h)) ((0:Nat), (0:Nat))
        ((0:Nat), (1:Nat))) u v = true ↔
        StageE w h w 0 (0 + 1) h u v := by
    intro u v
    rw [hasEdge_popEdge_iff _ _ _ u v hwf.1.1, hext0 u v]
    rw [← trD_step w h 0 hw1 (by omega) u v]
    constructor
    · rintro ⟨hS, hc1, hc2⟩
      exact ⟨hS, fun hun => hun.elim hc1 hc2⟩
    · rintro ⟨hS, hnot⟩
      exact ⟨hS, fun hc => hnot (Or.inl hc), fun hc => hnot (Or.inr hc)⟩
  have hext2b : ∀ u v,
      hasEdge (popEdge (buildAdj (solidRect w h)) ((0:Nat), (0:Nat))
        ((0:Nat), (1:Nat))) u v = true ↔
        StageE w h w 0 (h - (h - 1)) h u v := by
    rw [show h - (h - 1) = 0 + 1 from by omega]
    exact hext2
  have hrecD := phase_D w h hw1 hh1 (h - 1)
    (popEdge (buildAdj (solidRect w h)) ((0:Nat), (0:Nat)) ((0:Nat), (1:Nat)))
    (by omega) hwf2 hext2b
  rw [show h - (h - 1) = 1 from by omega] at hrecD
  have hF : Forced ((0:Nat), (0:Nat)) (buildAdj (solidRect w h)) none
      ((0:Nat), (0:Nat)) (rectPath w h) [] := by
    have hstep := Forced.step (buildAdj (solidRect w h)) none ((0:Nat), (0:Nat))
      ((0:Nat), (1:Nat)) nbrs _ [] hlk hmin hne hrecD
    have hpath : rectPath w h = ((0:Nat), (1:Nat)) ::
        (downFrom h 1 ++ bottomFrom w h 0 ++ rightPathFrom w h ++
          topPathFrom w) := by
      rw [rectPath, downFrom_cons h 0 (by omega)]
      rfl
    rw [hpath]
    exact hstep
  have hdeg : 0 < deg (buildAdj (solidRect w h)) ((0:Nat), (0:Nat)) := by
    obtain ⟨s, hs, hm⟩ := hasEdge_lookup _ _ _ hE
    show 0 < ((lookupAdj (buildAdj (solidRect w h)) ((0:Nat), (0:Nat))).getD
      []).length
    rw [hs]
    simp only [Option.getD_some]
    exact List.length_pos.mpr (List.ne_nil_of_mem hm)
  obtain ⟨res, adj2, hwalk, -, -⟩ := walk_ok_exists
    (totalSize (buildAdj (solidRect w h)) + 1) (buildAdj (solidRect w h))
    ((0:Nat), (0:Nat)) none ((0:Nat), (0:Nat)) [((0:Nat), (0:Nat))]
    (by omega) hwf
    (Or.inl ⟨rfl, rfl, hdeg, fun v => deg_buildAdj_even (solidRect w h) v⟩)
  obtain ⟨hres, hadj2⟩ := walk_of_forced ((0:Nat), (0:Nat))
    (buildAdj (solidRect w h)) none ((0:Nat), (0:Nat)) (rectPath w h) [] hF
    (totalSize (buildAdj (solidRect w h)) + 1) [((0:Nat), (0:Nat))] res adj2 hwalk
  rw [hres, hadj2] at hwalk
  rw [traceEdges, extractLoops]
  exact extractGo_cons_ok (totalSize (buildAdj (solidRect w h)))
    (buildAdj (solidRect w h)) ((0:Nat), (0:Nat)) s0 rest0
    ([((0:Nat), (0:Nat))] ++ rectPath w h) [] [] hhead hwalk (extractGo_nil _)

theorem computeLoopDepths_single (l : Loop) : computeLoopDepths [l] = [0] := rfl

theorem bridgesFor_depth0 (l : Loop) (a b : Nat) : bridgesFor l 0 a b = [] := rfl

theorem rectLoop_length (w h : Nat) (hw1 : 1 ≤ w) :
    (rectLoop w h).length = 2 * (w + h) := by
  simp [rectLoop, rectPath, downFrom, bottomFrom, rightPathFrom, topPathFrom]
  omega

/-- C4 counterexample.  For the solid 2×1 rectangle (W = 2, H = 1) the
extraction returns one loop with 6 = 2·(W+H) vertices — one per lattice
point of the perimeter — not 4 vertices as claimed: the tracer emits every
unit segment's endpoints and never merges collinear segments. -/
theorem C4_counterexample_vertex_count :
    traceEdges (solidRect 2 1) =
      .ok [[((0:Nat), (0:Nat)), (0, 1), (1, 1), (2, 1), (2, 0), (1, 0)]] ∧
    ([((0:Nat), (0:Nat)), ((0:Nat), (1:Nat)), (1, 1), (2, 1), (2, 0), (1, 0)] :
      Loop).length ≠ 4 :=
  ⟨rfl, by decide⟩

/-- C4 amended.  For every solid W×H rectangle mask (W ≥ 1, H ≥ 1),
extraction produces exactly one Loop, namely the full perimeter walked
counterclockwise from the origin with one vertex per lattice point —
2·(W+H) vertices, not 4; that loop's depth is 0 and zero bridges are
emitted for it. -/
theorem C4_solid_rectangle (w h : Nat) (hw1 : 1 ≤ w) (hh1 : 1 ≤ h) :
    traceEdges (solidRect w h) = .ok [rectLoop w h] ∧
    (rectLoop w h).length = 2 * (w + h) ∧
    computeLoopDepths [rectLoop w h] = [0] ∧
    bridgesFor (rectLoop w h) 0 w h = [] :=
  ⟨traceEdges_solidRect w h hw1 hh1, rectLoop_length w h hw1,
   computeLoopDepths_single _, bridgesFor_depth0 _ _ _⟩

/-- Witness for C4's amended statement at the solid 2×2 square. -/
theorem C4_solid_rectangle_witness :
    traceEdges (solidRect 2 2) = .ok [rectLoop 2 2] ∧
    (rectLoop 2 2).length = 2 * (2 + 2) ∧
    computeLoopDepths [rectLoop 2 2] = [0] ∧
    bridgesFor (rectLoop 2 2) 0 2 2 = [] :=
  C4_solid_rectangle 2 2 (by decide) (by decide)

/-- Witness for C8's amended statement at the concrete single-edge graph
with the two distinct odd-degree vertices (0,0) and (0,1). -/
theorem C8_odd_degree_generic_error_witness :
    (((0:Nat), (0:Nat)) : Point) ≠ ((0:Nat), (1:Nat)) ∧
    extractLoops [(((0:Nat), (0:Nat)), [((0:Nat), (1:Nat))]),
      (((0:Nat), (1:Nat)), [((0:Nat), (0:Nat))])] = .error .keyError :=
  ⟨by decide,
    C8_odd_degree_generic_error ((0:Nat), (0:Nat)) ((0:Nat), (1:Nat)) (by decide)⟩

end StencilMaker
